import Mathlib

/-!
# AliceVision: trajectory evaluation utilities and the panorama pinhole cost function

A shallow embedding of

* `src/software/utils/precisionEvaluationToGt.hpp` (`findIdGT`, `computeSimilarity`),
* `src/aliceVision/sfm/bundle/costfunctions/panoramaPinhole.hpp`
  (`CostPanoramaPinHole::Evaluate`),

together with the properties of these functions that the specification states.

Conventions.  `std::string` is a Lean `String` (a list of characters).  `double` is an
arbitrary commutative ring `α` (the real numbers where derivatives are concerned); rounding
is not modelled.  `unsigned int` / `size_t` / `int` are `Nat` / `Int` with explicit
wrap-around.  Output buffers are distinct memory regions; `Evaluate` is modelled by the
sequence of assignments it makes to them.  Classes and helpers of the repository that the
sources at hand only use (`camera::Pinhole`, `geometry::Pose3`, `ACRansac_FindRTS`,
`getJacobian_*`) are parameters of the model or are modelled from the specification, as
their doc comments say.
-/

namespace AliceVision

/-! ## `std::filesystem::path` decomposition (C++ standard library, POSIX generic format) -/

/-- The directory separator of the generic path format. -/
def preferred_separator : Char := '/'

/-- Model of `fs::path(p).filename().string()`: the characters that follow the last directory
separator (the whole string when there is none, the empty string when the path ends in a
separator). -/
def filename (p : String) : String :=
  String.mk (p.data.reverse.takeWhile (fun c => c ≠ preferred_separator)).reverse

/-- Position of the last period of a file name, when that period starts an extension:
`none` for the special names `.` and `..`, for names without a period, and for names whose
only period is the leading one. -/
def extensionPos (f : List Char) : Option Nat :=
  if f = ['.'] ∨ f = ['.', '.'] then none
  else if '.' ∈ f then
    let pos := f.length - (f.reverse.takeWhile (fun c => c ≠ '.')).length - 1
    if pos = 0 then none else some pos
  else none

/-- Model of `fs::path(p).stem().string()`: the file name stripped of its extension. -/
def stem (p : String) : String :=
  let f := (filename p).data
  match extensionPos f with
  | none => String.mk f
  | some pos => String.mk (f.take pos)

/-! ## Machine integers -/

/-- Conversion of an `unsigned int` value to `int` (two's complement, 32 bits). -/
def toInt32 (n : Nat) : Int :=
  if n % 2 ^ 32 < 2 ^ 31 then ((n % 2 ^ 32 : Nat) : Int) else ((n % 2 ^ 32 : Nat) : Int) - 2 ^ 32

/-! ## `findIdGT` -/

/-- The loop of `findIdGT`: `rest` are the entries `filelist[i], filelist[i+1], ...` still to
be visited, `result` is the current value of the variable `result`.  (The index `i` is an
`unsigned int`; it is exact for lists of fewer than `2^32` entries.) -/
def findIdGT.loop (file_relative : String) : List String → Nat → Int → Int
  | [], _, result => result
  | entry :: rest, i, result =>
    if file_relative = stem entry then toInt32 i
    else findIdGT.loop file_relative rest (i + 1) result

/-- Model of `findIdGT(file, filelist)`. -/
def findIdGT (file : String) (filelist : List String) : Int :=
  findIdGT.loop (filename file) filelist 0 (-1)

/-! ## Linear algebra types (Eigen) -/

/-- `Vec2`: a fixed-size column vector of two scalars. -/
abbrev Vec2 (α : Type) := Fin 2 → α

/-- `Vec3`: a fixed-size column vector of three scalars. -/
abbrev Vec3 (α : Type) := Fin 3 → α

/-- `Vec4`: a fixed-size column vector of four scalars. -/
abbrev Vec4 (α : Type) := Fin 4 → α

/-- `Mat3`: a 3×3 matrix. -/
abbrev Mat3 (α : Type) := Matrix (Fin 3) (Fin 3) α

/-- `Eigen::Matrix4d`: a 4×4 matrix. -/
abbrev Mat4 (α : Type) := Matrix (Fin 4) (Fin 4) α

/-! ## `computeSimilarity` -/

/-- What a call of `geometry::ACRansac_FindRTS(x1, x2, rng, S, t, R, inliers, refine)` leaves
behind: its boolean result, the values of the reference arguments `S`, `t`, `R`, `inliers`,
and the state of the random generator. -/
structure FindRTSResult (α ρ : Type) where
  found : Bool
  S : α
  t : Vec3 α
  R : Mat3 α
  inliers : List Nat
  rng : ρ

/-- The estimator `geometry::ACRansac_FindRTS` is declared in
`aliceVision/geometry/rigidTransformation3D.hpp`, outside the sources at hand; it is a
parameter of the model.  Its arguments are the columns of `x1`, the columns of `x2`, the
random generator and the `refine` flag. -/
abbrev Estimator (α ρ : Type) := List (Vec3 α) → List (Vec3 α) → ρ → Bool → FindRTSResult α ρ

/-- Everything `computeSimilarity` can modify: the output trajectory, the three output
locations `*Sout`, `*Rout`, `*tout`, the random generator, the text sent to `std::cerr`, and
(for bookkeeping) the number of calls made to the estimator. -/
structure SimilarityState (α ρ : Type) where
  vec_camPosComputed_T : List (Vec3 α)
  Sout : α
  Rout : Mat3 α
  tout : Vec3 α
  randomNumberGenerator : ρ
  cerr : List String
  estimatorCalls : Nat

/-- Model of `std::vector::resize(n)`: keeps the first `n` elements and pads with
value-initialised elements. -/
def resize {β : Type} (fill : β) (v : List β) (n : Nat) : List β :=
  v.take n ++ List.replicate (n - v.length) fill

/-- The first loop of `computeSimilarity`: column `i` of the `3 × n` matrix receives `v[i]`,
for `i = 0 .. n-1`. -/
def computeSimilarity.columns {α : Type} [Zero α] (v : List (Vec3 α)) (n : Nat) :
    List (Vec3 α) :=
  (List.range n).map (fun i => v.getD i 0)

/-- The second loop of `computeSimilarity`: for `i = 0 .. n-1`,
`vec_camPosComputed_T[i] = S * R * vec_camPosComputed[i] + t`. -/
def computeSimilarity.transform {α : Type} [CommRing α] (S : α) (R : Mat3 α) (t : Vec3 α)
    (vec_camPosComputed : List (Vec3 α)) (n : Nat) (out : List (Vec3 α)) : List (Vec3 α) :=
  (List.range n).foldl
    (fun acc i => acc.set i (Matrix.mulVec (S • R) (vec_camPosComputed.getD i 0) + t)) out

/-- Model of `computeSimilarity(vec_camPosGT, vec_camPosComputed, randomNumberGenerator,
vec_camPosComputed_T, Sout, Rout, tout)`: the boolean result and the state after the call. -/
def computeSimilarity {α ρ : Type} [CommRing α] (ACRansac_FindRTS : Estimator α ρ)
    (vec_camPosGT vec_camPosComputed : List (Vec3 α)) (st : SimilarityState α ρ) :
    Bool × SimilarityState α ρ :=
  if vec_camPosGT.length ≠ vec_camPosComputed.length then
    (false, { st with
      cerr := st.cerr ++ ["Cannot perform registration, vector sizes are different\n"] })
  else
    let x1 := computeSimilarity.columns vec_camPosComputed vec_camPosGT.length
    let x2 := computeSimilarity.columns vec_camPosGT vec_camPosGT.length
    let r := ACRansac_FindRTS x1 x2 st.randomNumberGenerator true
    let st1 := { st with randomNumberGenerator := r.rng,
                         estimatorCalls := st.estimatorCalls + 1 }
    if !r.found then (false, st1)
    else
      let resized := resize 0 st1.vec_camPosComputed_T vec_camPosGT.length
      (true, { st1 with
        vec_camPosComputed_T :=
          computeSimilarity.transform r.S r.R r.t vec_camPosComputed vec_camPosGT.length resized,
        Sout := r.S, Rout := r.R, tout := r.t })

/-! ## The camera object shared by the cost function -/

/-- The mutable members of a `camera::Pinhole` object that `Evaluate` touches: scale, offset
(principal point) and the distortion parameters.  `paramsSize` is the value `getParamsSize()`
reports for this camera. -/
structure PinholeState (α : Type) where
  scale : Vec2 α
  offset : Vec2 α
  distortionParams : List α
  paramsSize : Nat

/-- Modelled from the spec: `setScale` (class `camera::Pinhole` is not part of the sources)
configures the scale on the camera object. -/
def PinholeState.setScale {α : Type} (c : PinholeState α) (s : Vec2 α) : PinholeState α :=
  { c with scale := s }

/-- Modelled from the spec: `setOffset` configures the offset on the camera object. -/
def PinholeState.setOffset {α : Type} (c : PinholeState α) (o : Vec2 α) : PinholeState α :=
  { c with offset := o }

/-- Modelled from the spec: `setDistortionParamsFn(count, fn)` configures the distortion
parameters on the camera object, parameter `index` receiving `fn(index)`. -/
def PinholeState.setDistortionParamsFn {α : Type} (c : PinholeState α) (count : Nat)
    (fn : Nat → α) : PinholeState α :=
  { c with distortionParams := (List.range count).map fn }

/-- Modelled from the spec: `getParamsSize()`, the length of the intrinsics vector. -/
def PinholeState.getParamsSize {α : Type} (c : PinholeState α) : Nat := c.paramsSize

/-- Modelled from the spec: `getDistortionParamsSize()`, the length of the distortion
sub-block. -/
def PinholeState.getDistortionParamsSize {α : Type} (c : PinholeState α) : Nat :=
  c.distortionParams.length

/-- A rigid transform `geometry::Pose3`, built from a rotation and a centre. -/
structure Pose3 (α : Type) where
  rotation : Mat3 α
  center : Vec3 α

/-- Modelled from the spec: the 4×4 homogeneous representation of a pose (class
`geometry::Pose3` is not part of the sources): rotation block `R`, translation `-R c`,
last row `0 0 0 1`. -/
def Pose3.getHomogeneous {α : Type} [CommRing α] (p : Pose3 α) : Mat4 α :=
  Matrix.of fun (i j : Fin 4) =>
    if hi : i.val < 3 then
      if hj : j.val < 3 then p.rotation ⟨i.val, hi⟩ ⟨j.val, hj⟩
      else - (Matrix.mulVec p.rotation p.center) ⟨i.val, hi⟩
    else if j.val < 3 then 0 else 1

/-- Eigen `homogeneous()` of a 3-vector: the vector with a trailing `1`. -/
def homogeneous {α : Type} [One α] (v : Vec3 α) : Vec4 α :=
  ![v 0, v 1, v 2, 1]

/-- The methods of `camera::Pinhole` that `Evaluate` calls.  The class is not part of the
sources, so the methods are parameters of the model; each is a function of the state of the
camera object at the time of the call.  A matrix with a run-time number of columns
(`Eigen::Dynamic`) is indexed by all natural numbers, of which the columns below its column
count are meaningful. -/
structure Pinhole (α : Type) where
  ima2cam : PinholeState α → Vec2 α → Vec2 α
  removeDistortion : PinholeState α → Vec2 α → Vec2 α
  toUnitSphere : PinholeState α → Vec2 α → Vec3 α
  transformProject : PinholeState α → Pose3 α → Vec4 α → Bool → Vec2 α
  getDerivativeTransformProjectWrtRotation :
    PinholeState α → Mat4 α → Vec4 α → Matrix (Fin 2) (Fin 9) α
  getDerivativeTransformProjectWrtScale :
    PinholeState α → Mat4 α → Vec4 α → Matrix (Fin 2) (Fin 2) α
  getDerivativeTransformProjectWrtPrincipalPoint :
    PinholeState α → Mat4 α → Vec4 α → Matrix (Fin 2) (Fin 2) α
  getDerivativeTransformProjectWrtDisto :
    PinholeState α → Mat4 α → Vec4 α → Matrix (Fin 2) Nat α
  getDerivativeTransformProjectWrtPoint :
    PinholeState α → Mat4 α → Vec4 α → Matrix (Fin 2) (Fin 4) α
  getDerivativetoUnitSphereWrtPoint : PinholeState α → Vec2 α → Matrix (Fin 3) (Fin 2) α
  getDerivativeRemoveDistoWrtPt : PinholeState α → Vec2 α → Matrix (Fin 2) (Fin 2) α
  getDerivativeRemoveDistoWrtDisto : PinholeState α → Vec2 α → Matrix (Fin 2) Nat α
  getDerivativeIma2CamWrtScale : PinholeState α → Vec2 α → Matrix (Fin 2) (Fin 2) α
  getDerivativeIma2CamWrtPrincipalPoint : PinholeState α → Matrix (Fin 2) (Fin 2) α

/-! ## Matrix-calculus primitives -/

/-- Modelled from the spec: `getJacobian_AB_wrt_A<3, 3, 3>(A, B)` (not part of the sources),
the Jacobian of the product `C = A·B` with respect to `A`, of Kronecker structure
`Bᵀ ⊗ I`; matrices are vectorised column by column, so row `i + 3k` stands for `C(i, k)` and
column `a + 3b` for `A(a, b)`. -/
def getJacobian_AB_wrt_A {α : Type} [CommRing α] (_A B : Mat3 α) : Matrix (Fin 9) (Fin 9) α :=
  Matrix.of fun (r c : Fin 9) =>
    if r.val % 3 = c.val % 3 then
      B ⟨c.val / 3, by omega⟩ ⟨r.val / 3, by omega⟩
    else 0

/-- Modelled from the spec: `getJacobian_AB_wrt_B<3, 3, 3>(A, B)` (not part of the sources),
the Jacobian of the product `C = A·B` with respect to `B`, of Kronecker structure `I ⊗ A`:
row `i + 3k` stands for `C(i, k)` and column `b + 3k2` for `B(b, k2)`. -/
def getJacobian_AB_wrt_B {α : Type} [CommRing α] (A _B : Mat3 α) : Matrix (Fin 9) (Fin 9) α :=
  Matrix.of fun (r c : Fin 9) =>
    if r.val / 3 = c.val / 3 then
      A ⟨r.val % 3, by omega⟩ ⟨c.val % 3, by omega⟩
    else 0

/-- Modelled from the spec: `getJacobian_At_wrt_A<3, 3>()` (not part of the sources), the
Jacobian of the transpose `Aᵀ` with respect to `A`: row `j + 3i` stands for `Aᵀ(j, i)`, column
`i + 3j` for `A(i, j)`. -/
def getJacobian_At_wrt_A {α : Type} [CommRing α] : Matrix (Fin 9) (Fin 9) α :=
  Matrix.of fun (r c : Fin 9) =>
    if r.val % 3 = c.val / 3 ∧ r.val / 3 = c.val % 3 then 1 else 0

/-! ## Memory written by `Evaluate` -/

/-- The buffers `Evaluate` may write to: `residuals`, and `jacobians[k]` for `k = 0, 1, 2`. -/
inductive Target where
  | residuals : Target
  | jacobian : Fin 3 → Target
  deriving DecidableEq, Repr

/-- One assignment `buffer[index] = value`. -/
structure Store (α : Type) where
  target : Target
  index : Nat
  value : α

/-- The content of the buffers (the buffers are distinct memory regions). -/
abbrev Memory (α : Type) := Target → Nat → α

/-- Effect of one assignment on the buffers. -/
def Store.apply {α : Type} (m : Memory α) (s : Store α) : Memory α :=
  fun tgt i => if tgt = s.target ∧ i = s.index then s.value else m tgt i

/-- Effect of a sequence of assignments, performed in order. -/
def runStores {α : Type} (m : Memory α) (l : List (Store α)) : Memory α :=
  l.foldl Store.apply m

/-- `J.fill(0)` on a `rows × cols` map of the buffer. -/
def fillZero {α : Type} [Zero α] (tgt : Target) (rows cols : Nat) : List (Store α) :=
  (List.range (rows * cols)).map fun i => { target := tgt, index := i, value := 0 }

/-- Assignment `J.block(0, startCol, 2, cols) = M` on a row-major map of the buffer with
`stride` columns: `J(r, startCol + c)` is the buffer element `r * stride + startCol + c`. -/
def storeBlock {α : Type} (tgt : Target) (stride startCol cols : Nat)
    (M : Fin 2 → Nat → α) : List (Store α) :=
  (List.finRange 2).flatMap fun r =>
    (List.range cols).map fun c =>
      { target := tgt, index := r.val * stride + (startCol + c), value := M r c }

/-- `M.block<2, 3>(0, startCol)` of a 2×9 matrix, columns counted from `startCol`. -/
def block23 {α : Type} [Zero α] (M : Matrix (Fin 2) (Fin 9) α) (startCol : Nat) :
    Fin 2 → Nat → α :=
  fun r c => if h : startCol + c < 9 then M r ⟨startCol + c, h⟩ else 0

/-- A fixed 2×2 matrix seen as a block to be stored. -/
def block22 {α : Type} [Zero α] (M : Matrix (Fin 2) (Fin 2) α) : Fin 2 → Nat → α :=
  fun r c => if h : c < 2 then M r ⟨c, h⟩ else 0

/-- The three lines that scatter a 2×9 rotation-space Jacobian into a 2×16 pose block:
`J.fill(0)`, then `J.block<2,3>(0,0) = J9.block<2,3>(0,0)`,
`J.block<2,3>(0,4) = J9.block<2,3>(0,3)`, `J.block<2,3>(0,8) = J9.block<2,3>(0,6)`. -/
def scatterPoseJacobian {α : Type} [Zero α] (tgt : Target) (J9 : Matrix (Fin 2) (Fin 9) α) :
    List (Store α) :=
  fillZero tgt 2 16 ++
  storeBlock tgt 16 0 3 (block23 J9 0) ++
  storeBlock tgt 16 4 3 (block23 J9 3) ++
  storeBlock tgt 16 8 3 (block23 J9 6)

/-! ## `CostPanoramaPinHole::Evaluate` -/

/-- The data members `_fi`, `_fj` of a `CostPanoramaPinHole`; the third member, `_intrinsic`,
points to the shared camera object, whose state is passed to `Evaluate` explicitly. -/
structure CostPanoramaPinHole (α : Type) where
  _fi : Vec2 α
  _fj : Vec2 α

/-- Subtraction of two `size_t` values (64 bits, wrapping). -/
def subSizeT (a b : Nat) : Nat := (a % 2 ^ 64 + 2 ^ 64 - b % 2 ^ 64) % 2 ^ 64

/-- `Eigen::Map<const Matrix<double, 4, 4, RowMajor>>(p).block<3, 3>(0, 0)`: entry `(r, c)` is
`p[4 r + c]`. -/
def rotationBlock {α : Type} (p : Nat → α) : Mat3 α :=
  Matrix.of fun (r c : Fin 3) => p (4 * r.val + c.val)

/-- State of the shared camera after lines 44–51: scale, offset and distortion parameters are
overwritten with the values of the intrinsics parameter block. -/
def Evaluate.camera {α : Type} (parameter_intrinsics : Nat → α) (_intrinsic : PinholeState α) :
    PinholeState α :=
  let c1 := _intrinsic.setScale ![parameter_intrinsics 0, parameter_intrinsics 1]
  let c2 := c1.setOffset ![parameter_intrinsics 2, parameter_intrinsics 3]
  let params_size := c2.getParamsSize
  let disto_size := c2.getDistortionParamsSize
  let offset := subSizeT params_size disto_size
  c2.setDistortionParamsFn disto_size
    (fun index => parameter_intrinsics ((offset + index) % 2 ^ 64))

/-- The relative pose `T_pose3` of line 54: rotation `jRo * iRo.transpose()`, centre zero. -/
def Evaluate.T_pose3 {α : Type} [CommRing α] (parameters : Fin 3 → Nat → α) : Pose3 α :=
  { rotation := rotationBlock (parameters 1) * (rotationBlock (parameters 0)).transpose,
    center := ![0, 0, 0] }

/-- Line 57: `pt_i_cam`. -/
def Evaluate.pt_i_cam {α : Type} (cam : Pinhole α) (self : CostPanoramaPinHole α)
    (c : PinholeState α) : Vec2 α :=
  cam.ima2cam c self._fi

/-- Line 58: `pt_i_undist`. -/
def Evaluate.pt_i_undist {α : Type} (cam : Pinhole α) (self : CostPanoramaPinHole α)
    (c : PinholeState α) : Vec2 α :=
  cam.removeDistortion c (Evaluate.pt_i_cam cam self c)

/-- Line 59: `pt_i_sphere`. -/
def Evaluate.pt_i_sphere {α : Type} [One α] (cam : Pinhole α) (self : CostPanoramaPinHole α)
    (c : PinholeState α) : Vec4 α :=
  homogeneous (cam.toUnitSphere c (Evaluate.pt_i_undist cam self c))

/-- Line 61: `pt_j_est`. -/
def Evaluate.pt_j_est {α : Type} [CommRing α] (cam : Pinhole α) (self : CostPanoramaPinHole α)
    (parameters : Fin 3 → Nat → α) (c : PinholeState α) : Vec2 α :=
  cam.transformProject c (Evaluate.T_pose3 parameters) (Evaluate.pt_i_sphere cam self c) true

/-- Lines 75–77: the 2×9 matrix `J9` of the first pose block. -/
def Evaluate.J9_i {α : Type} [CommRing α] (cam : Pinhole α) (self : CostPanoramaPinHole α)
    (parameters : Fin 3 → Nat → α) (c : PinholeState α) : Matrix (Fin 2) (Fin 9) α :=
  cam.getDerivativeTransformProjectWrtRotation c (Evaluate.T_pose3 parameters).getHomogeneous
      (Evaluate.pt_i_sphere cam self c) *
    getJacobian_AB_wrt_B (rotationBlock (parameters 1))
      (rotationBlock (parameters 0)).transpose *
    getJacobian_At_wrt_A *
    getJacobian_AB_wrt_A (1 : Mat3 α) (rotationBlock (parameters 0))

/-- Lines 89–91: the 2×9 matrix `J9` of the second pose block. -/
def Evaluate.J9_j {α : Type} [CommRing α] (cam : Pinhole α) (self : CostPanoramaPinHole α)
    (parameters : Fin 3 → Nat → α) (c : PinholeState α) : Matrix (Fin 2) (Fin 9) α :=
  cam.getDerivativeTransformProjectWrtRotation c (Evaluate.T_pose3 parameters).getHomogeneous
      (Evaluate.pt_i_sphere cam self c) *
    getJacobian_AB_wrt_A (rotationBlock (parameters 1))
      (rotationBlock (parameters 0)).transpose *
    getJacobian_AB_wrt_A (1 : Mat3 α) (rotationBlock (parameters 1))

/-- Line 103: `Eigen::Matrix<double, 4, 3>::Identity()`. -/
def Jhomogenous {α : Type} [Zero α] [One α] : Matrix (Fin 4) (Fin 3) α :=
  Matrix.of fun (i : Fin 4) (j : Fin 3) => if i.val = j.val then 1 else 0

/-- Lines 107 and 111: the common factor
`getDerivativeTransformProjectWrtPoint(T, pt_i_sphere) * Jhomogenous *
 getDerivativetoUnitSphereWrtPoint(pt_i_undist)`. -/
def Evaluate.chainToUndist {α : Type} [CommRing α] (cam : Pinhole α)
    (self : CostPanoramaPinHole α) (parameters : Fin 3 → Nat → α) (c : PinholeState α) :
    Matrix (Fin 2) (Fin 2) α :=
  cam.getDerivativeTransformProjectWrtPoint c (Evaluate.T_pose3 parameters).getHomogeneous
      (Evaluate.pt_i_sphere cam self c) *
    Jhomogenous *
    cam.getDerivativetoUnitSphereWrtPoint c (Evaluate.pt_i_undist cam self c)

/-- Lines 105–108: `Jscale`. -/
def Evaluate.Jscale {α : Type} [CommRing α] (cam : Pinhole α) (self : CostPanoramaPinHole α)
    (parameters : Fin 3 → Nat → α) (c : PinholeState α) : Matrix (Fin 2) (Fin 2) α :=
  cam.getDerivativeTransformProjectWrtScale c (Evaluate.T_pose3 parameters).getHomogeneous
      (Evaluate.pt_i_sphere cam self c) +
    Evaluate.chainToUndist cam self parameters c *
      cam.getDerivativeRemoveDistoWrtPt c (Evaluate.pt_i_cam cam self c) *
      cam.getDerivativeIma2CamWrtScale c self._fi

/-- Lines 109–112: `Jpp`. -/
def Evaluate.Jpp {α : Type} [CommRing α] (cam : Pinhole α) (self : CostPanoramaPinHole α)
    (parameters : Fin 3 → Nat → α) (c : PinholeState α) : Matrix (Fin 2) (Fin 2) α :=
  cam.getDerivativeTransformProjectWrtPrincipalPoint c
      (Evaluate.T_pose3 parameters).getHomogeneous (Evaluate.pt_i_sphere cam self c) +
    Evaluate.chainToUndist cam self parameters c *
      cam.getDerivativeRemoveDistoWrtPt c (Evaluate.pt_i_cam cam self c) *
      cam.getDerivativeIma2CamWrtPrincipalPoint c

/-- Lines 119–122: `Jdisto`. -/
def Evaluate.Jdisto {α : Type} [CommRing α] (cam : Pinhole α) (self : CostPanoramaPinHole α)
    (parameters : Fin 3 → Nat → α) (c : PinholeState α) : Matrix (Fin 2) Nat α :=
  cam.getDerivativeTransformProjectWrtDisto c (Evaluate.T_pose3 parameters).getHomogeneous
      (Evaluate.pt_i_sphere cam self c) +
    Evaluate.chainToUndist cam self parameters c *
      cam.getDerivativeRemoveDistoWrtDisto c (Evaluate.pt_i_cam cam self c)

/-- Lines 63–64: the two assignments to `residuals`. -/
def Evaluate.residualStores {α : Type} [CommRing α] (cam : Pinhole α)
    (self : CostPanoramaPinHole α) (parameters : Fin 3 → Nat → α) (c : PinholeState α) :
    List (Store α) :=
  [ { target := Target.residuals, index := 0,
      value := Evaluate.pt_j_est cam self parameters c 0 - self._fj 0 },
    { target := Target.residuals, index := 1,
      value := Evaluate.pt_j_est cam self parameters c 1 - self._fj 1 } ]

/-- Lines 101–124: the assignments to `jacobians[2]`, a row-major `2 × params_size` map. -/
def Evaluate.intrinsicsStores {α : Type} [CommRing α] (cam : Pinhole α)
    (self : CostPanoramaPinHole α) (parameters : Fin 3 → Nat → α) (c : PinholeState α) :
    List (Store α) :=
  let params_size := c.getParamsSize
  let disto_size := c.getDistortionParamsSize
  storeBlock (Target.jacobian 2) params_size 0 2
      (block22 (Evaluate.Jscale cam self parameters c)) ++
    storeBlock (Target.jacobian 2) params_size 2 2
      (block22 (Evaluate.Jpp cam self parameters c)) ++
    (if disto_size > 0 then
      storeBlock (Target.jacobian 2) params_size 4 disto_size
        (Evaluate.Jdisto cam self parameters c)
     else [])

/-- Outcome of a call of `Evaluate`: the returned boolean, the assignments made to the
output buffers in program order, and the state in which the shared camera is left. -/
structure EvaluateResult (α : Type) where
  ret : Bool
  stores : List (Store α)
  _intrinsic : PinholeState α

/-- Model of `CostPanoramaPinHole::Evaluate(parameters, residuals, jacobians)`.
`parameters` are the three parameter blocks; `jacobians` is `none` for a null array and
otherwise tells, for each block, whether `jacobians[k]` is non-null; `_intrinsic` is the
state of the shared camera when the call starts. -/
def CostPanoramaPinHole.Evaluate {α : Type} [CommRing α] (cam : Pinhole α)
    (self : CostPanoramaPinHole α) (parameters : Fin 3 → Nat → α)
    (jacobians : Option (Fin 3 → Bool)) (_intrinsic : PinholeState α) : EvaluateResult α :=
  let c := Evaluate.camera (parameters 2) _intrinsic
  let residualStores := Evaluate.residualStores cam self parameters c
  match jacobians with
  | none => { ret := true, stores := residualStores, _intrinsic := c }
  | some jac =>
    let s0 := if jac 0 then
        scatterPoseJacobian (Target.jacobian 0) (Evaluate.J9_i cam self parameters c)
      else []
    let s1 := if jac 1 then
        scatterPoseJacobian (Target.jacobian 1) (Evaluate.J9_j cam self parameters c)
      else []
    let s2 := if jac 2 then Evaluate.intrinsicsStores cam self parameters c else []
    { ret := true, stores := residualStores ++ s0 ++ s1 ++ s2, _intrinsic := c }

/-- The buffers after a call of `Evaluate` that found them with content `m`. -/
def CostPanoramaPinHole.buffersAfter {α : Type} [CommRing α] (cam : Pinhole α)
    (self : CostPanoramaPinHole α) (parameters : Fin 3 → Nat → α)
    (jacobians : Option (Fin 3 → Bool)) (_intrinsic : PinholeState α) (m : Memory α) :
    Memory α :=
  runStores m (CostPanoramaPinHole.Evaluate cam self parameters jacobians _intrinsic).stores

/-- The layout the specification gives for a pose Jacobian block `J` (a row-major 2×16 map
of a buffer) in terms of the 2×9 matrix `J9`: `J[r][k] = J9[r][k]`, `J[r][4+k] = J9[r][3+k]`,
`J[r][8+k] = J9[r][6+k]` for `k = 0, 1, 2`, and `J[r][c] = 0` for the columns
`c = 3, 7, 11, 12, 13, 14, 15`. -/
def IsPoseBlockScatter {α : Type} [Zero α] (J : Nat → α) (J9 : Matrix (Fin 2) (Fin 9) α) :
    Prop :=
  ∀ r : Fin 2,
    (∀ k : Fin 3,
      J (16 * r.val + k.val) = J9 r ⟨k.val, by omega⟩ ∧
      J (16 * r.val + (4 + k.val)) = J9 r ⟨3 + k.val, by omega⟩ ∧
      J (16 * r.val + (8 + k.val)) = J9 r ⟨6 + k.val, by omega⟩) ∧
    (∀ c : Nat, c ∈ [3, 7, 11, 12, 13, 14, 15] → J (16 * r.val + c) = 0)

/-- Entry `(r, c)` of the intrinsics Jacobian as lines 114–123 assemble it: columns 0–1 from
`Jscale`, columns 2–3 from `Jpp`, columns from 4 on from `Jdisto`. -/
def Evaluate.intrinsicsEntry {α : Type} [CommRing α] (cam : Pinhole α)
    (self : CostPanoramaPinHole α) (parameters : Fin 3 → Nat → α) (c : PinholeState α)
    (r : Fin 2) (col : Nat) : α :=
  if col < 2 then block22 (Evaluate.Jscale cam self parameters c) r col
  else if col < 4 then block22 (Evaluate.Jpp cam self parameters c) r (col - 2)
  else Evaluate.Jdisto cam self parameters c r (col - 4)

/-! ## Derivatives of the residual -/

/-- Column-major vectorisation of a 3×3 matrix: entry `a + 3 b` is `V(a, b)`. -/
def vecCM {α : Type} (V : Mat3 α) : Fin 9 → α :=
  fun k => V ⟨k.val % 3, by omega⟩ ⟨k.val / 3, by omega⟩

/-- A pose parameter block whose rotation sub-block (entries 0–2, 4–6, 8–10 of the
row-major 4×4 layout) is replaced by `M`. -/
def setRotationBlock {α : Type} (p : Nat → α) (M : Mat3 α) : Nat → α :=
  fun i => if h : i / 4 < 3 ∧ i % 4 < 3 then M ⟨i / 4, h.1⟩ ⟨i % 4, h.2⟩ else p i

/-- The parameter blocks with block `b` replaced by `q`. -/
def setBlock {α : Type} (parameters : Fin 3 → Nat → α) (b : Fin 3) (q : Nat → α) :
    Fin 3 → Nat → α :=
  fun b2 => if b2 = b then q else parameters b2

/-- The parameter block `p` with entry `k` replaced by `x`. -/
def setEntry {α : Type} (p : Nat → α) (k : Nat) (x : α) : Nat → α :=
  fun i => if i = k then x else p i

/-- The two residual values a call of `Evaluate` writes, as a function of its inputs. -/
def Evaluate.residual {α : Type} [CommRing α] (cam : Pinhole α) (self : CostPanoramaPinHole α)
    (parameters : Fin 3 → Nat → α) (_intrinsic : PinholeState α) : Fin 2 → α :=
  fun r => CostPanoramaPinHole.buffersAfter cam self parameters none _intrinsic
    (fun _ _ => 0) Target.residuals r.val

/-- The derivative contract of `getDerivativeTransformProjectWrtRotation` at one operating
point (camera state `c`, rotation `R`, point `pt`): along every direction `V` of the space
of 3×3 matrices, the projection through the pose of rotation `R + t V` has at `t = 0` the
derivative `D · vec(V)`, `D` being the 2×9 matrix the operator returns and `vec` the
column-major vectorisation. -/
def RotationDerivativeExact (cam : Pinhole ℝ) (c : PinholeState ℝ) (R : Mat3 ℝ)
    (pt : Vec4 ℝ) : Prop :=
  ∀ (V : Mat3 ℝ) (r : Fin 2),
    HasDerivAt
      (fun t : ℝ => cam.transformProject c { rotation := R + t • V, center := ![0, 0, 0] }
        pt true r)
      (∑ k : Fin 9,
        cam.getDerivativeTransformProjectWrtRotation c
          (Pose3.getHomogeneous { rotation := R, center := ![0, 0, 0] }) pt r k * vecCM V k)
      0

/-- Column `k` of a matrix with two rows (zero beyond the columns). -/
def column {α : Type} [Zero α] {n : Nat} (M : Matrix (Fin 2) (Fin n) α) (k : Nat) :
    Fin 2 → α :=
  fun r => if h : k < n then M r ⟨k, h⟩ else 0

/-- The derivative contract of the camera operators with respect to the intrinsics, at one
operating point.  For every entry `k` of the intrinsics vector, varied alone (the camera
being configured from the varied vector as `Evaluate` does), and every differentiable input
curve `γ` through the operating point of the operator:
* `ima2cam` has the derivative given by column `k` of `getDerivativeIma2CamWrtScale`
  (`k = 0, 1`) or column `k - 2` of `getDerivativeIma2CamWrtPrincipalPoint` (`k = 2, 3`), and
  none with respect to distortion parameters;
* `removeDistortion` has the derivative `getDerivativeRemoveDistoWrtPt · γ'`, plus column
  `k - 4` of `getDerivativeRemoveDistoWrtDisto` when `k` is a distortion parameter;
* `toUnitSphere` has the derivative `getDerivativetoUnitSphereWrtPoint · γ'`;
* `transformProject` has the derivative `getDerivativeTransformProjectWrtPoint · γ'` plus
  the column of `getDerivativeTransformProjectWrtScale`, `...WrtPrincipalPoint` or
  `...WrtDisto` that belongs to entry `k`. -/
def IntrinsicsDerivativesExact (cam : Pinhole ℝ) (self : CostPanoramaPinHole ℝ)
    (parameters : Fin 3 → Nat → ℝ) (_intrinsic : PinholeState ℝ) : Prop :=
  ∀ k : Nat, k < _intrinsic.getParamsSize →
    (HasDerivAt
      (fun x : ℝ => cam.ima2cam (Evaluate.camera (setEntry (parameters 2) k x) _intrinsic) self._fi)
      (if k < 2 then
          column (cam.getDerivativeIma2CamWrtScale (Evaluate.camera (parameters 2) _intrinsic)
            self._fi) k
        else if k < 4 then
          column (cam.getDerivativeIma2CamWrtPrincipalPoint
            (Evaluate.camera (parameters 2) _intrinsic)) (k - 2)
        else 0)
      (parameters 2 k)) ∧
    (∀ (γ : ℝ → Vec2 ℝ) (γ' : Vec2 ℝ), HasDerivAt γ γ' (parameters 2 k) →
      γ (parameters 2 k) =
        Evaluate.pt_i_cam cam self (Evaluate.camera (parameters 2) _intrinsic) →
      HasDerivAt
        (fun x : ℝ => cam.removeDistortion
          (Evaluate.camera (setEntry (parameters 2) k x) _intrinsic) (γ x))
        ((if k < 4 then 0
          else fun r => cam.getDerivativeRemoveDistoWrtDisto
            (Evaluate.camera (parameters 2) _intrinsic)
            (Evaluate.pt_i_cam cam self (Evaluate.camera (parameters 2) _intrinsic)) r (k - 4)) +
          Matrix.mulVec (cam.getDerivativeRemoveDistoWrtPt
            (Evaluate.camera (parameters 2) _intrinsic)
            (Evaluate.pt_i_cam cam self (Evaluate.camera (parameters 2) _intrinsic))) γ')
        (parameters 2 k)) ∧
    (∀ (γ : ℝ → Vec2 ℝ) (γ' : Vec2 ℝ), HasDerivAt γ γ' (parameters 2 k) →
      γ (parameters 2 k) =
        Evaluate.pt_i_undist cam self (Evaluate.camera (parameters 2) _intrinsic) →
      HasDerivAt
        (fun x : ℝ => cam.toUnitSphere
          (Evaluate.camera (setEntry (parameters 2) k x) _intrinsic) (γ x))
        (Matrix.mulVec (cam.getDerivativetoUnitSphereWrtPoint
            (Evaluate.camera (parameters 2) _intrinsic)
            (Evaluate.pt_i_undist cam self (Evaluate.camera (parameters 2) _intrinsic))) γ')
        (parameters 2 k)) ∧
    (∀ (γ : ℝ → Vec4 ℝ) (γ' : Vec4 ℝ), HasDerivAt γ γ' (parameters 2 k) →
      γ (parameters 2 k) =
        Evaluate.pt_i_sphere cam self (Evaluate.camera (parameters 2) _intrinsic) →
      HasDerivAt
        (fun x : ℝ => cam.transformProject
          (Evaluate.camera (setEntry (parameters 2) k x) _intrinsic)
          (Evaluate.T_pose3 parameters) (γ x) true)
        ((if k < 2 then
            column (cam.getDerivativeTransformProjectWrtScale
              (Evaluate.camera (parameters 2) _intrinsic)
              (Evaluate.T_pose3 parameters).getHomogeneous
              (Evaluate.pt_i_sphere cam self (Evaluate.camera (parameters 2) _intrinsic))) k
          else if k < 4 then
            column (cam.getDerivativeTransformProjectWrtPrincipalPoint
              (Evaluate.camera (parameters 2) _intrinsic)
              (Evaluate.T_pose3 parameters).getHomogeneous
              (Evaluate.pt_i_sphere cam self (Evaluate.camera (parameters 2) _intrinsic))) (k - 2)
          else fun r => cam.getDerivativeTransformProjectWrtDisto
              (Evaluate.camera (parameters 2) _intrinsic)
              (Evaluate.T_pose3 parameters).getHomogeneous
              (Evaluate.pt_i_sphere cam self (Evaluate.camera (parameters 2) _intrinsic))
              r (k - 4)) +
          Matrix.mulVec (cam.getDerivativeTransformProjectWrtPoint
            (Evaluate.camera (parameters 2) _intrinsic)
            (Evaluate.T_pose3 parameters).getHomogeneous
            (Evaluate.pt_i_sphere cam self (Evaluate.camera (parameters 2) _intrinsic))) γ')
        (parameters 2 k))

/-- Modelled from the spec: the pinhole camera without distortion (class `camera::Pinhole`
is not part of the sources).  A pixel becomes a camera ray by subtracting the principal
point and dividing by the scale; the unit-sphere direction of a ray `(x, y)` is
`(x, y, 1)` normalised; a homogeneous point `X` transformed by the pose projects to
`scale ⊙ (X₀/X₂, X₁/X₂) + offset`.  Each derivative operator is the Jacobian of its forward
operator: `getDerivativeTransformProjectWrtRotation` is with respect to the column-major
vectorised rotation.  The square root is a parameter. -/
def idealPinhole {α : Type} [Field α] (sqrt : α → α) : Pinhole α where
  ima2cam := fun c p => ![(p 0 - c.offset 0) / c.scale 0, (p 1 - c.offset 1) / c.scale 1]
  removeDistortion := fun _ p => p
  toUnitSphere := fun _ p =>
    ![p 0 / sqrt (p 0 * p 0 + p 1 * p 1 + 1), p 1 / sqrt (p 0 * p 0 + p 1 * p 1 + 1),
      1 / sqrt (p 0 * p 0 + p 1 * p 1 + 1)]
  transformProject := fun c pose pt _ =>
    ![c.scale 0 * (Matrix.mulVec pose.getHomogeneous pt 0 / Matrix.mulVec pose.getHomogeneous pt 2)
        + c.offset 0,
      c.scale 1 * (Matrix.mulVec pose.getHomogeneous pt 1 / Matrix.mulVec pose.getHomogeneous pt 2)
        + c.offset 1]
  getDerivativeTransformProjectWrtRotation := fun c T pt =>
    Matrix.of fun (r : Fin 2) (k : Fin 9) =>
      c.scale r *
        ((if k.val % 3 = r.val then 1 / Matrix.mulVec T pt 2
          else if k.val % 3 = 2 then
            - Matrix.mulVec T pt (Fin.castLE (by decide) r) / (Matrix.mulVec T pt 2 * Matrix.mulVec T pt 2)
          else 0) * pt ⟨k.val / 3, by omega⟩)
  getDerivativeTransformProjectWrtScale := fun _ T pt =>
    Matrix.of fun (r k : Fin 2) =>
      if r = k then Matrix.mulVec T pt (Fin.castLE (by decide) r) / Matrix.mulVec T pt 2 else 0
  getDerivativeTransformProjectWrtPrincipalPoint := fun _ _ _ => 1
  getDerivativeTransformProjectWrtDisto := fun _ _ _ => 0
  getDerivativeTransformProjectWrtPoint := fun c T pt =>
    Matrix.of fun (r : Fin 2) (k : Fin 4) =>
      c.scale r *
        (T (Fin.castLE (by decide) r) k / Matrix.mulVec T pt 2
          - Matrix.mulVec T pt (Fin.castLE (by decide) r) * T 2 k
              / (Matrix.mulVec T pt 2 * Matrix.mulVec T pt 2))
  getDerivativetoUnitSphereWrtPoint := fun _ p =>
    Matrix.of fun (i : Fin 3) (k : Fin 2) =>
      (if i.val = k.val then 1 / sqrt (p 0 * p 0 + p 1 * p 1 + 1) else 0)
        - ![p 0, p 1, 1] i * p k
            / (sqrt (p 0 * p 0 + p 1 * p 1 + 1) * (p 0 * p 0 + p 1 * p 1 + 1))
  getDerivativeRemoveDistoWrtPt := fun _ _ => 1
  getDerivativeRemoveDistoWrtDisto := fun _ _ => 0
  getDerivativeIma2CamWrtScale := fun c p =>
    Matrix.of fun (r k : Fin 2) =>
      if r = k then - (p r - c.offset r) / (c.scale r * c.scale r) else 0
  getDerivativeIma2CamWrtPrincipalPoint := fun c =>
    Matrix.of fun (r k : Fin 2) => if r = k then - 1 / c.scale r else 0

/-- The row-major 4×4 pose block of the rotation by a quarter turn about the third axis,
`[[0, -1, 0], [1, 0, 0], [0, 0, 1]]`, with zero translation. -/
def quarterTurnPose {α : Type} [Zero α] [One α] [Neg α] : Nat → α :=
  fun i => if i = 1 then -1 else if i = 4 ∨ i = 10 ∨ i = 15 then 1 else 0

/-- The row-major 4×4 pose block of the identity. -/
def identityPose {α : Type} [Zero α] [One α] : Nat → α :=
  fun i => if i = 0 ∨ i = 5 ∨ i = 10 ∨ i = 15 then 1 else 0

/-- Intrinsics `scale = (1, 1)`, `offset = (0, 0)`, no distortion parameter. -/
def unitIntrinsics {α : Type} [Zero α] [One α] : Nat → α :=
  fun i => if i < 2 then 1 else 0

/-- Parameter blocks: pose `i` a quarter turn, pose `j` the identity, unit intrinsics. -/
def quarterTurnParameters {α : Type} [Zero α] [One α] [Neg α] : Fin 3 → Nat → α :=
  fun b => if b = 0 then quarterTurnPose else if b = 1 then identityPose else unitIntrinsics

/-- A camera object without distortion, four intrinsic parameters, unit scale. -/
def unitState {α : Type} [Zero α] [One α] : PinholeState α :=
  { scale := ![1, 1], offset := ![0, 0], distortionParams := [], paramsSize := 4 }

/-- An observation pair at the principal point. -/
def centreCost {α : Type} [Zero α] : CostPanoramaPinHole α := { _fi := ![0, 0], _fj := ![0, 0] }

/-- A request for all three Jacobian blocks. -/
def allBlocks : Fin 3 → Bool := fun _ => true

/-! ## `numeric.hpp`: `SplitRange`, `divideRoundUp`, `AreVecNearEqual` -/

/-- The integer types `T` that `SplitRange<T>` is modelled for: a signed type, whose
arithmetic is that of the mathematical integers as long as nothing overflows (overflow is
undefined behaviour), or an unsigned type of `bits` value bits that is at least as wide as
`int` (`unsigned int`, `unsigned long`, `size_t`), whose arithmetic is modulo `2 ^ bits` and
to which an `int` operand is converted. -/
inductive IntegerType where
  | signed
  | unsigned (bits : Nat)
  deriving DecidableEq, Repr

/-- The value of type `T` that an integer result denotes: itself for a signed type, its
residue modulo `2 ^ bits` for an unsigned one. -/
def IntegerType.wrap : IntegerType → Int → Int
  | IntegerType.signed, x => x
  | IntegerType.unsigned bits, x => x % 2 ^ bits

/-- The loop `for (int i = 1; i < nb_split; ++i) d_range.push_back(range_start + i * delta_range)`
of `SplitRange`, started at `i`; `fuel` bounds the number of iterations still possible.  The
counter `i` is an `int`; in `i * delta_range` it is converted to `T`, and the product and the
sum are computed in `T`. -/
def SplitRange.loop (T : IntegerType) (range_start delta_range nb_split : Int) :
    Nat → Int → List Int → List Int
  | 0, _, d_range => d_range
  | fuel + 1, i, d_range =>
    if i < nb_split then
      SplitRange.loop T range_start delta_range nb_split fuel (i + 1)
        (d_range ++ [T.wrap (range_start + T.wrap (T.wrap i * delta_range))])
    else d_range

/-- Model of `SplitRange<T>(range_start, range_end, nb_split, d_range)` for an integer type
`T`; the result is `d_range` after the call.  The difference `range_end - range_start` is
computed in `T`; in the comparison with `nb_split` and in the division by it, the `int`
`nb_split` is converted to `T`; `/` is the truncating division of C++. -/
def SplitRange (T : IntegerType) (range_start range_end nb_split : Int)
    (d_range : List Int) : List Int :=
  let range_length := T.wrap (range_end - range_start)
  if range_length < T.wrap nb_split then
    (d_range ++ [range_start]) ++ [range_end]
  else
    let delta_range := Int.tdiv range_length (T.wrap nb_split)
    (SplitRange.loop T range_start delta_range nb_split (nb_split - 1).toNat 1
      (d_range ++ [range_start])) ++ [range_end]

/-- Model of `divideRoundUp<T>(x, y)` for an integer type `T`, on mathematical integers (no
overflow): `/` and `%` are the truncating division and remainder of C++. -/
def divideRoundUp (x y : Int) : Int :=
  let xPos : Bool := decide (x ≥ 0)
  let yPos : Bool := decide (y ≥ 0)
  if xPos = yPos then
    Int.tdiv x y + (if Int.tmod x y ≠ 0 then 1 else 0)
  else
    Int.tdiv x y

/-- An Eigen vector type `TVec`: a matrix with `rows()` rows and `cols()` columns, one of the
two being 1, whose coefficient `x(i)` is addressed by a single index. -/
structure TVec (α : Type) where
  rows : Nat
  cols : Nat
  coeff : Nat → α

/-- A column vector (the layout of `Vec2`, `Vec3`, `Vec`, ...) with the given coefficients. -/
def TVec.column {α : Type} [Zero α] (l : List α) : TVec α :=
  { rows := l.length, cols := 1, coeff := fun i => l.getD i 0 }

/-- A row vector with the given coefficients. -/
def TVec.row {α : Type} [Zero α] (l : List α) : TVec α :=
  { rows := 1, cols := l.length, coeff := fun i => l.getD i 0 }

/-- Number of coefficients of a vector. -/
def TVec.size {α : Type} (x : TVec α) : Nat := x.rows * x.cols

/-- The loop of `AreVecNearEqual`, started at index `i` with `fuel` iterations left. -/
def AreVecNearEqual.loop {α : Type} [LinearOrderedRing α] (x y : TVec α) (epsilon : α) :
    Nat → Nat → Bool
  | 0, _ => true
  | fuel + 1, i =>
    if (y.coeff i - epsilon > x.coeff i) ∨ (x.coeff i > y.coeff i + epsilon) then false
    else AreVecNearEqual.loop x y epsilon fuel (i + 1)

/-- Model of `AreVecNearEqual(x, y, epsilon)`: the loop runs for `i = 0 .. x.cols() - 1`. -/
def AreVecNearEqual {α : Type} [LinearOrderedRing α] (x y : TVec α) (epsilon : α) : Bool :=
  AreVecNearEqual.loop x y epsilon x.cols 0

/-- Model of `radianToDegree(radian)`: `radian / pi * 180.0`, with `pi` the constant
`boost::math::constants::pi<T>()`. -/
def radianToDegree {α : Type} [CommRing α] [Div α] (pi : α) (radian : α) : α :=
  radian / pi * 180

/-! ## `CameraPose` -/

/-- The enumeration `EEstimatorParameterState` is declared in `aliceVision/types.hpp`, which is
not part of the sources; its carrier `σ` and the two enumerators that `CameraPose` names are
parameters.  Distinct enumerators denote distinct values. -/
structure EEstimatorParameterState (σ : Type) where
  REFINED : σ
  CONSTANT : σ
  distinct : REFINED ≠ CONSTANT

/-- The data members of `sfmData::CameraPose`; `τ` stands for `geometry::Pose3`. -/
structure CameraPose (τ σ : Type) where
  _transform : τ
  _locked : Bool
  _rotationOnly : Bool
  _state : σ

/-- The default constructor `CameraPose() = default`: the default member initialisers
`_locked = false`, `_rotationOnly = false`, `_state = REFINED`, and the default-constructed
transform `pose0`. -/
def CameraPose.default {τ σ : Type} (E : EEstimatorParameterState σ) (pose0 : τ) :
    CameraPose τ σ :=
  { _transform := pose0, _locked := false, _rotationOnly := false, _state := E.REFINED }

/-- Model of `CameraPose::initializeState()`. -/
def CameraPose.initializeState {τ σ : Type} (E : EEstimatorParameterState σ)
    (self : CameraPose τ σ) : CameraPose τ σ :=
  if self._locked then { self with _state := E.CONSTANT }
  else { self with _state := E.REFINED }

/-! ## `exportToPly` -/

/-- The header `exportToPly` sends to the stream, for `n` vertices: every item is followed by
the character `'\n'` (the last one by `std::endl`, which inserts `'\n'` and flushes).  The
vertex count is a `size_t`, printed in decimal. -/
def exportToPly.header (n : Nat) : String :=
  "ply" ++ "\n"
    ++ "format ascii 1.0" ++ "\n"
    ++ "element vertex " ++ toString n ++ "\n"
    ++ "property float x" ++ "\n"
    ++ "property float y" ++ "\n"
    ++ "property float z" ++ "\n"
    ++ "property uchar red" ++ "\n"
    ++ "property uchar green" ++ "\n"
    ++ "property uchar blue" ++ "\n"
    ++ "end_header" ++ "\n"

/-- One loop of `exportToPly`: for each point in order, `outfile << v.transpose() << colour
<< "\n"`, appended to the text `out` written so far.  `fmt` is the text Eigen's `operator<<`
produces for the row vector `v.transpose()`. -/
def exportToPly.loop {α : Type} (fmt : Vec3 α → String) (colour : String) :
    List (Vec3 α) → String → String
  | [], out => out
  | v :: rest, out => exportToPly.loop fmt colour rest (out ++ fmt v ++ colour ++ "\n")

/-- Model of `exportToPly(vec_camPosGT, vec_camPosComputed, sFileName)`: the value returned
(`outfile.good()` after the flush, which is decided by the file system and passed as `good`)
and the text sent to `outfile`. -/
def exportToPly {α : Type} (fmt : Vec3 α → String) (good : Bool)
    (vec_camPosGT vec_camPosComputed : List (Vec3 α)) : Bool × String :=
  let out := exportToPly.header (vec_camPosGT.length + vec_camPosComputed.length)
  let out := exportToPly.loop fmt " 0 255 0" vec_camPosGT out
  let out := exportToPly.loop fmt " 255 255 0" vec_camPosComputed out
  (good, out)

/-! ## `EvaluteToGT` -/

/-- An element access `v[i]` outside the bounds of a `std::vector`: the name of the vector,
the index and the size of the vector. -/
inductive AccessError where
  | outOfBounds (vector : String) (index size : Nat)
  deriving DecidableEq, Repr

/-- The element access `v[i]` of a `std::vector`, checked against its size. -/
def readAt {β : Type} (name : String) (v : List β) (i : Nat) : Except AccessError β :=
  match v[i]? with
  | some x => Except.ok x
  | none => Except.error (AccessError.outOfBounds name i v.length)

/-- Eigen's `v.norm()` on a `Vec3`: the square root of the sum of the squared coefficients. -/
def Vec3.norm {α : Type} [CommRing α] (sqrt : α → α) (v : Vec3 α) : α :=
  sqrt (v 0 * v 0 + v 1 * v 1 + v 2 * v 2)

/-- The first loop of `EvaluteToGT`, started at index `i` with `fuel` iterations left; the
pair holds `trajectoryLength` and `vec_baselineErrors`.  `numCameras - 2` is evaluated on
`size_t`. -/
def EvaluteToGT.baselineLoop {α : Type} [CommRing α] (sqrt : α → α)
    (vec_camCenterGT vec_camPosComputed_T : List (Vec3 α)) (numCameras : Nat) :
    Nat → Nat → α × List α → Except AccessError (α × List α)
  | 0, _, acc => Except.ok acc
  | fuel + 1, i, (trajectoryLength, vec_baselineErrors) =>
    if i < numCameras then do
      let gt ← readAt "vec_camCenterGT" vec_camCenterGT i
      let computed ← readAt "vec_camPosComputed_T" vec_camPosComputed_T i
      let dResidual := Vec3.norm sqrt (gt - computed)
      let vec_baselineErrors := vec_baselineErrors ++ [dResidual]
      if 0 < i ∧ i < subSizeT numCameras 2 then do
        let a ← readAt "vec_camCenterGT" vec_camCenterGT i
        let b ← readAt "vec_camCenterGT" vec_camCenterGT (i + 1)
        EvaluteToGT.baselineLoop sqrt vec_camCenterGT vec_camPosComputed_T numCameras fuel
          (i + 1) (trajectoryLength + Vec3.norm sqrt (a - b), vec_baselineErrors)
      else
        EvaluteToGT.baselineLoop sqrt vec_camCenterGT vec_camPosComputed_T numCameras fuel
          (i + 1) (trajectoryLength, vec_baselineErrors)
    else Except.ok (trajectoryLength, vec_baselineErrors)

/-- The second loop of `EvaluteToGT`: `iter2` walks `vec_camRotComputed` (the list argument
holds the elements from `iter2` to the end), `iter1` points at `vec_camRotGT[k]`.
`getRotationMagnitude` is only declared in `numeric.hpp`; it is a parameter. -/
def EvaluteToGT.angularLoop {α : Type} [CommRing α] [Div α] (pi : α)
    (getRotationMagnitude : Mat3 α → α) (R : Mat3 α) (vec_camRotGT : List (Mat3 α)) :
    List (Mat3 α) → Nat → List α → Except AccessError (List α)
  | [], _, vec_angularErrors => Except.ok vec_angularErrors
  | m2 :: rest, k, vec_angularErrors => do
    let R1 ← readAt "vec_camRotGT" vec_camRotGT k
    let R2T := m2 * R.transpose
    let angularErrorDegree := radianToDegree pi (getRotationMagnitude (R1 * R2T.transpose))
    EvaluteToGT.angularLoop pi getRotationMagnitude R vec_camRotGT rest (k + 1)
      (vec_angularErrors ++ [angularErrorDegree])

/-- What the error computation of `EvaluteToGT` produces. -/
structure EvaluteToGTResult (α ρ : Type) where
  vec_camPosComputed_T : List (Vec3 α)
  R : Mat3 α
  t : Vec3 α
  scale : α
  randomNumberGenerator : ρ
  trajectoryLength : α
  vec_baselineErrors : List α
  vec_angularErrors : List α

/-- Model of the error computation of `EvaluteToGT` (lines up to the end of the second loop;
the statistics, the two PLY exports and the HTML report that follow are not modelled, nor is
the text sent to `std::cout`).  The four `assert`s are preconditions.  The locals `R`, `t`,
`scale` are uninitialised before the call to `computeSimilarity`: their indeterminate values
are the arguments `R0`, `t0`, `scale0`.  The result of `computeSimilarity` is discarded, as
in the source.  Every `operator[]` and iterator dereference is checked against the size of
its vector. -/
def EvaluteToGT {α ρ : Type} [CommRing α] [Div α] (ACRansac_FindRTS : Estimator α ρ)
    (sqrt : α → α) (pi : α) (getRotationMagnitude : Mat3 α → α)
    (vec_camCenterGT vec_camCenterComputed : List (Vec3 α))
    (vec_camRotGT vec_camRotComputed : List (Mat3 α))
    (randomNumberGenerator : ρ) (R0 : Mat3 α) (t0 : Vec3 α) (scale0 : α) :
    Except AccessError (EvaluteToGTResult α ρ) :=
  let numCameras := vec_camCenterGT.length
  let st := (computeSimilarity ACRansac_FindRTS vec_camCenterGT vec_camCenterComputed
    { vec_camPosComputed_T := [], Sout := scale0, Rout := R0, tout := t0,
      randomNumberGenerator := randomNumberGenerator, cerr := [], estimatorCalls := 0 }).2
  do
    let (trajectoryLength, vec_baselineErrors) ←
      EvaluteToGT.baselineLoop sqrt vec_camCenterGT st.vec_camPosComputed_T numCameras
        numCameras 0 (0, [])
    let vec_angularErrors ←
      EvaluteToGT.angularLoop pi getRotationMagnitude st.Rout vec_camRotGT
        vec_camRotComputed 0 []
    Except.ok
      { vec_camPosComputed_T := st.vec_camPosComputed_T, R := st.Rout, t := st.tout,
        scale := st.Sout, randomNumberGenerator := st.randomNumberGenerator,
        trajectoryLength := trajectoryLength, vec_baselineErrors := vec_baselineErrors,
        vec_angularErrors := vec_angularErrors }

/-! ## Sample data -/

/-- A toy camera over the integers, used to run the model on concrete numbers: rays are
pixels shifted by the offset, there is no distortion, projection scales the first two
coordinates of the transformed point; the derivative operators return fixed matrices. -/
def sampleCamera : Pinhole Int where
  ima2cam := fun c p => fun i => p i - c.offset i
  removeDistortion := fun _ p => p
  toUnitSphere := fun _ p => ![p 0, p 1, 1]
  transformProject := fun c pose pt _ =>
    ![c.scale 0 * Matrix.mulVec pose.getHomogeneous pt 0 + c.offset 0,
      c.scale 1 * Matrix.mulVec pose.getHomogeneous pt 1 + c.offset 1]
  getDerivativeTransformProjectWrtRotation := fun _ _ _ => Matrix.of fun r k => r.val + k.val + 1
  getDerivativeTransformProjectWrtScale := fun _ _ _ => 1
  getDerivativeTransformProjectWrtPrincipalPoint := fun _ _ _ => 1
  getDerivativeTransformProjectWrtDisto := fun _ _ _ => Matrix.of fun _ _ => 1
  getDerivativeTransformProjectWrtPoint := fun _ _ _ => Matrix.of fun _ _ => 1
  getDerivativetoUnitSphereWrtPoint := fun _ _ => Matrix.of fun _ _ => 1
  getDerivativeRemoveDistoWrtPt := fun _ _ => 1
  getDerivativeRemoveDistoWrtDisto := fun _ _ => Matrix.of fun _ _ => 1
  getDerivativeIma2CamWrtScale := fun _ _ => 1
  getDerivativeIma2CamWrtPrincipalPoint := fun _ => 1

/-- A sample observation pair. -/
def sampleCost : CostPanoramaPinHole Int := { _fi := ![3, 4], _fj := ![5, 6] }

/-- Sample parameter blocks: two identity poses (row-major 4×4) and the intrinsics
`scale = (2, 2)`, `offset = (0, 0)`. -/
def sampleParameters : Fin 3 → Nat → Int := fun b i =>
  if b = 2 then (if i < 2 then 2 else 0) else (if i % 5 = 0 then 1 else 0)

/-- A camera without distortion whose intrinsics vector has the four entries scale and
offset; its scale is `(1, 1)`. -/
def sampleState : PinholeState Int :=
  { scale := ![1, 1], offset := ![0, 0], distortionParams := [], paramsSize := 4 }

/-- A request for the first pose block and the intrinsics block only. -/
def sampleRequest : Fin 3 → Bool := ![true, false, true]

/-- Buffers that hold the value 7 everywhere. -/
def sampleMemory : Memory Int := fun _ _ => 7

/-- An estimator that always succeeds with scale 2, the identity rotation and a fixed
translation; it advances the generator by one. -/
def sampleEstimator : Estimator Int Nat :=
  fun _ _ rng _ => { found := true, S := 2, t := ![1, 0, 0], R := 1, inliers := [], rng := rng + 1 }

/-- A state in which nothing has happened yet. -/
def sampleSimilarityState : SimilarityState Int Nat :=
  { vec_camPosComputed_T := [], Sout := 0, Rout := 0, tout := 0, randomNumberGenerator := 7,
    cerr := [], estimatorCalls := 0 }

/-- The sample parameter blocks with the entries 3, 7, 11 and 12–15 of both pose blocks
replaced by other values. -/
def sampleParametersShifted : Fin 3 → Nat → Int := fun b i =>
  if b ≠ 2 ∧ (i % 4 = 3 ∨ 12 ≤ i) then 40 + i else sampleParameters b i

/-- Text of a row vector of integers as three decimal numbers separated by blanks. -/
def sampleFormat : Vec3 Int → String :=
  fun v => toString (v 0) ++ " " ++ toString (v 1) ++ " " ++ toString (v 2)

/-- Four camera centres. -/
def sampleCentres : List (Vec3 Int) := [![0, 0, 0], ![3, 0, 0], ![3, 4, 0], ![3, 4, 12]]

/-- Four identity rotations. -/
def sampleRotations : List (Mat3 Int) := [1, 1, 1, 1]

/-- An estimator that never finds a similarity. -/
def failingEstimator : Estimator Int Nat :=
  fun _ _ rng _ => { found := false, S := 0, t := 0, R := 0, inliers := [], rng := rng }

/-! ## Lemmas on `findIdGT` -/

theorem toInt32_of_lt (n : Nat) (h : n < 2 ^ 31) : toInt32 n = (n : Int) := by
  have h1 : n % 2 ^ 32 = n := Nat.mod_eq_of_lt (by omega)
  unfold toInt32
  rw [h1, if_pos h]

/-- What the loop of `findIdGT` computes: either no remaining entry matches and `result` is
returned unchanged, or the position of the first matching entry is returned. -/
theorem findIdGT.loop_spec (q : String) (l : List String) (i : Nat) (r : Int) :
    ((∀ e ∈ l, q ≠ stem e) ∧ findIdGT.loop q l i r = r) ∨
    (∃ k e, l[k]? = some e ∧ q = stem e ∧
      (∀ j e2, j < k → l[j]? = some e2 → q ≠ stem e2) ∧
      findIdGT.loop q l i r = toInt32 (i + k)) := by
  induction l generalizing i with
  | nil => left; simp [findIdGT.loop]
  | cons a t ih =>
    by_cases h : q = stem a
    · right
      refine ⟨0, a, by simp, h, ?_, ?_⟩
      · intro j e2 hj; omega
      · simp [findIdGT.loop, h]
    · rcases ih (i + 1) with ⟨hno, hr⟩ | ⟨k, e, hk, he, hmin, hr⟩
      · left
        refine ⟨?_, ?_⟩
        · intro e he
          rcases List.mem_cons.1 he with rfl | he
          · exact h
          · exact hno e he
        · simp [findIdGT.loop, h, hr]
      · right
        refine ⟨k + 1, e, by simpa using hk, he, ?_, ?_⟩
        · intro j e2 hj hj2
          cases j with
          | zero =>
            simp at hj2
            subst hj2
            exact h
          | succ j =>
            simp at hj2
            exact hmin j e2 (by omega) hj2
        · simp only [findIdGT.loop, h, if_false, hr]
          congr 1
          omega

/-- The two possible outcomes of `findIdGT` on a list of fewer than `2^31` entries. -/
theorem findIdGT_cases (file : String) (filelist : List String)
    (hsize : filelist.length < 2 ^ 31) :
    ((∀ e ∈ filelist, filename file ≠ stem e) ∧ findIdGT file filelist = -1) ∨
    (∃ (k : Nat) (e : String), filelist[k]? = some e ∧ filename file = stem e ∧
      (∀ (j : Nat) (e2 : String), j < k → filelist[j]? = some e2 → filename file ≠ stem e2) ∧
      findIdGT file filelist = (k : Int)) := by
  rcases findIdGT.loop_spec (filename file) filelist 0 (-1) with h | ⟨k, e, hk, he, hmin, hr⟩
  · exact Or.inl h
  · right
    refine ⟨k, e, hk, he, hmin, ?_⟩
    have hlt : k < filelist.length := by
      rcases List.getElem?_eq_some.1 hk with ⟨h, _⟩
      exact h
    unfold findIdGT
    rw [hr, Nat.zero_add]
    exact toInt32_of_lt k (by omega)

/-- C1 (as amended): the key of the query is its file name *with* the extension; if that key
equals the stem of entry `k` and of no earlier entry, `findIdGT` returns `k`. -/
theorem findIdGT_returns_first_stem_match (file : String) (filelist : List String)
    (k : Nat) (e : String) (hsize : filelist.length < 2 ^ 31)
    (hk : filelist[k]? = some e) (hmatch : filename file = stem e)
    (hfirst : ∀ j e2, j < k → filelist[j]? = some e2 → filename file ≠ stem e2) :
    findIdGT file filelist = (k : Int) := by
  rcases findIdGT_cases file filelist hsize with ⟨hno, _⟩ | ⟨k2, e2, hk2, he2, hmin2, hr⟩
  · exact absurd hmatch (hno e (List.getElem?_mem hk))
  · rcases Nat.lt_trichotomy k k2 with hlt | heq | hgt
    · exact absurd hmatch (hmin2 k e hlt hk)
    · rw [hr, heq]
    · exact absurd he2 (hfirst k2 e2 hgt hk2)

/-- C1, witness: a query without extension matches the stem of the first entry; a query
whose file name is the stem of the second entry only is resolved to index 1. -/
theorem findIdGT_returns_first_stem_match_witness :
    findIdGT "/a/b/img002.jpg" ["img001.jpg.camera", "img002.jpg.camera"] = ((1 : Nat) : Int) :=
  findIdGT_returns_first_stem_match "/a/b/img002.jpg" ["img001.jpg.camera", "img002.jpg.camera"]
    1 "img002.jpg.camera" (by decide) (by decide) (by decide)
    (by
      intro j e2 hj hj2
      have hj0 : j = 0 := by omega
      subst hj0
      simp at hj2
      subst hj2
      decide)

/-- C1, counterexample: the extension-less file name of the query `/a/b/img001.jpg` is the
stem of entry 0, yet `findIdGT` answers `-1`, because the query keeps its extension. -/
theorem findIdGT_extension_counterexample :
    stem "/a/b/img001.jpg" = stem "img001.png" ∧
    findIdGT "/a/b/img001.jpg" ["img001.png", "img002.png"] = -1 ∧
    findIdGT "/a/b/img001.jpg" ["img001.png", "img002.png"] ≠ 0 := by
  decide

/-- C2: on every list (of fewer than `2^31` entries, so that the index fits the `int`
result) `findIdGT` returns `-1` exactly when no entry matches the key of the query, otherwise
the smallest index of a matching entry; the result lies in `-1 .. filelist.size() - 1`. -/
theorem findIdGT_first_match_wins (file : String) (filelist : List String)
    (hsize : filelist.length < 2 ^ 31) :
    (findIdGT file filelist = -1 ↔ ∀ e ∈ filelist, filename file ≠ stem e) ∧
    ((∃ e ∈ filelist, filename file = stem e) →
      ∃ (k : Nat) (e : String), filelist[k]? = some e ∧ filename file = stem e ∧
        (∀ (j : Nat) (e2 : String), j < k → filelist[j]? = some e2 → filename file ≠ stem e2) ∧
        findIdGT file filelist = (k : Int)) ∧
    (-1 ≤ findIdGT file filelist ∧ findIdGT file filelist ≤ (filelist.length : Int) - 1) := by
  rcases findIdGT_cases file filelist hsize with ⟨hno, hr⟩ | ⟨k, e, hk, he, hmin, hr⟩
  · refine ⟨⟨fun _ => hno, fun _ => hr⟩, ?_, ?_⟩
    · rintro ⟨e, hmem, he⟩
      exact absurd he (hno e hmem)
    · rw [hr]
      constructor <;> omega
  · have hlt : k < filelist.length := by
      rcases List.getElem?_eq_some.1 hk with ⟨h, _⟩
      exact h
    refine ⟨⟨?_, ?_⟩, fun _ => ⟨k, e, hk, he, hmin, hr⟩, ?_⟩
    · intro h
      rw [hr] at h
      omega
    · intro hno
      exact absurd he (hno e (List.getElem?_mem hk))
    · rw [hr]
      constructor <;> omega

/-- C2, witness: a two-entry list. -/
theorem findIdGT_first_match_wins_witness :
    ["img001.png", "img001.jpg"].length < 2 ^ 31 ∧
    (-1 ≤ findIdGT "/a/b/img001" ["img001.png", "img001.jpg"] ∧
      findIdGT "/a/b/img001" ["img001.png", "img001.jpg"]
        ≤ ((["img001.png", "img001.jpg"] : List String).length : Int) - 1) :=
  ⟨by decide, (findIdGT_first_match_wins "/a/b/img001" ["img001.png", "img001.jpg"]
    (by decide)).2.2⟩

/-! ## Lemmas on `computeSimilarity` -/

theorem length_resize {β : Type} (fill : β) (v : List β) (n : Nat) :
    (resize fill v n).length = n := by
  simp [resize]
  omega

/-- Writing `f i` at the positions `0 .. n-1` of a vector, one position after the other. -/
theorem foldl_set_range {β : Type} (f : Nat → β) (n : Nat) (out : List β)
    (hn : n ≤ out.length) :
    ((List.range n).foldl (fun acc i => acc.set i (f i)) out).length = out.length ∧
    ∀ i, i < out.length →
      ((List.range n).foldl (fun acc i => acc.set i (f i)) out)[i]? =
        if i < n then some (f i) else out[i]? := by
  induction n with
  | zero => simp
  | succ n ih =>
    have ih2 := ih (by omega)
    rw [List.range_succ, List.foldl_append]
    simp only [List.foldl_cons, List.foldl_nil, List.length_set]
    refine ⟨ih2.1, ?_⟩
    intro i hi
    by_cases hin : i = n
    · subst hin
      simp [List.getElem?_set, ih2.1, hi]
    · rw [List.getElem?_set_ne (by omega), ih2.2 i hi]
      by_cases h1 : i < n
      · simp [h1, Nat.lt_succ_of_lt h1]
      · have h2 : ¬ i < n + 1 := by omega
        simp [h1, h2]

/-- C3: when the two sequences differ in length, `computeSimilarity` returns `false`, the
estimator is not invoked (the call counter and the random generator are untouched, and the
outcome does not depend on the estimator), and no output is written. -/
theorem computeSimilarity_length_mismatch {α ρ : Type} [CommRing α]
    (ACRansac_FindRTS : Estimator α ρ) (vec_camPosGT vec_camPosComputed : List (Vec3 α))
    (st : SimilarityState α ρ) (hlen : vec_camPosGT.length ≠ vec_camPosComputed.length) :
    (computeSimilarity ACRansac_FindRTS vec_camPosGT vec_camPosComputed st).1 = false ∧
    (computeSimilarity ACRansac_FindRTS vec_camPosGT vec_camPosComputed st).2.estimatorCalls
      = st.estimatorCalls ∧
    (computeSimilarity ACRansac_FindRTS vec_camPosGT vec_camPosComputed st).2.randomNumberGenerator
      = st.randomNumberGenerator ∧
    (computeSimilarity ACRansac_FindRTS vec_camPosGT vec_camPosComputed st).2.vec_camPosComputed_T
      = st.vec_camPosComputed_T ∧
    (∀ other : Estimator α ρ,
      computeSimilarity other vec_camPosGT vec_camPosComputed st =
        computeSimilarity ACRansac_FindRTS vec_camPosGT vec_camPosComputed st) := by
  simp [computeSimilarity, hlen]

/-- C3, witness: one ground-truth point against two computed points. -/
theorem computeSimilarity_length_mismatch_witness :
    ([![0, 0, 0]] : List (Vec3 Int)).length ≠ ([![1, 1, 1], ![2, 2, 2]] : List (Vec3 Int)).length ∧
    (computeSimilarity sampleEstimator [![0, 0, 0]] [![1, 1, 1], ![2, 2, 2]]
      sampleSimilarityState).1 = false ∧
    (computeSimilarity sampleEstimator [![0, 0, 0]] [![1, 1, 1], ![2, 2, 2]]
      sampleSimilarityState).2.estimatorCalls = sampleSimilarityState.estimatorCalls :=
  ⟨by decide,
   (computeSimilarity_length_mismatch sampleEstimator [![0, 0, 0]] [![1, 1, 1], ![2, 2, 2]]
      sampleSimilarityState (by decide)).1,
   (computeSimilarity_length_mismatch sampleEstimator [![0, 0, 0]] [![1, 1, 1], ![2, 2, 2]]
      sampleSimilarityState (by decide)).2.1⟩

/-- C4: when `computeSimilarity` returns `true`, the output trajectory has the length of the
inputs and its `i`-th element is `S * R * vec_camPosComputed[i] + t` for the very values
`S`, `R`, `t` stored in `*Sout`, `*Rout`, `*tout`. -/
theorem computeSimilarity_transforms_trajectory {α ρ : Type} [CommRing α]
    (ACRansac_FindRTS : Estimator α ρ) (vec_camPosGT vec_camPosComputed : List (Vec3 α))
    (st : SimilarityState α ρ)
    (hret : (computeSimilarity ACRansac_FindRTS vec_camPosGT vec_camPosComputed st).1 = true) :
    (computeSimilarity ACRansac_FindRTS vec_camPosGT vec_camPosComputed
        st).2.vec_camPosComputed_T.length = vec_camPosGT.length ∧
    (computeSimilarity ACRansac_FindRTS vec_camPosGT vec_camPosComputed
        st).2.vec_camPosComputed_T.length = vec_camPosComputed.length ∧
    ∀ (i : Nat) (p : Vec3 α), vec_camPosComputed[i]? = some p →
      (computeSimilarity ACRansac_FindRTS vec_camPosGT vec_camPosComputed
          st).2.vec_camPosComputed_T[i]? =
        some (Matrix.mulVec
          ((computeSimilarity ACRansac_FindRTS vec_camPosGT vec_camPosComputed st).2.Sout •
            (computeSimilarity ACRansac_FindRTS vec_camPosGT vec_camPosComputed st).2.Rout) p +
          (computeSimilarity ACRansac_FindRTS vec_camPosGT vec_camPosComputed st).2.tout) := by
  by_cases hlen : vec_camPosGT.length = vec_camPosComputed.length
  swap
  · simp [computeSimilarity, hlen] at hret
  unfold computeSimilarity at hret ⊢
  rw [if_neg (not_not.2 hlen)] at hret ⊢
  dsimp only at hret ⊢
  generalize ACRansac_FindRTS
    (computeSimilarity.columns vec_camPosComputed vec_camPosGT.length)
    (computeSimilarity.columns vec_camPosGT vec_camPosGT.length)
    st.randomNumberGenerator true = r at hret ⊢
  cases hfound : r.found with
  | false => simp [hfound] at hret
  | true =>
    have hspec := foldl_set_range
      (fun i => Matrix.mulVec (r.S • r.R) (vec_camPosComputed.getD i 0) + r.t)
      vec_camPosGT.length (resize 0 st.vec_camPosComputed_T vec_camPosGT.length)
      (by rw [length_resize])
    rw [length_resize] at hspec
    simp only [computeSimilarity.transform, Bool.not_true, Bool.false_eq_true, if_false]
    refine ⟨hspec.1, hspec.1.trans hlen, ?_⟩
    intro i p hp
    have hi : i < vec_camPosComputed.length := by
      rcases List.getElem?_eq_some.1 hp with ⟨h, _⟩
      exact h
    have hget : vec_camPosComputed.getD i 0 = p := by
      simp [List.getD, hp]
    rw [hspec.2 i (by omega), if_pos (by omega)]
    simp only [hget]

/-- C4, witness: one point, registered by the sample estimator (scale 2, identity rotation,
translation `(1, 0, 0)`). -/
theorem computeSimilarity_transforms_trajectory_witness :
    (computeSimilarity sampleEstimator [![0, 0, 0]] [![1, 1, 1]] sampleSimilarityState).1 = true ∧
    (computeSimilarity sampleEstimator [![0, 0, 0]] [![1, 1, 1]]
      sampleSimilarityState).2.vec_camPosComputed_T.length = ([![0, 0, 0]] : List (Vec3 Int)).length :=
  ⟨by rfl,
   (computeSimilarity_transforms_trajectory sampleEstimator [![0, 0, 0]] [![1, 1, 1]]
      sampleSimilarityState (by rfl)).1⟩

/-! ## Lemmas on sequences of assignments -/

theorem runStores_nil {α : Type} (m : Memory α) : runStores m [] = m := rfl

theorem runStores_append {α : Type} (m : Memory α) (a b : List (Store α)) :
    runStores m (a ++ b) = runStores (runStores m a) b := by
  simp [runStores, List.foldl_append]

/-- A buffer element that no assignment of the sequence addresses keeps its content. -/
theorem runStores_of_no_hit {α : Type} (l : List (Store α)) (m : Memory α) (tgt : Target)
    (i : Nat) (h : ∀ s ∈ l, ¬ (tgt = s.target ∧ i = s.index)) :
    runStores m l tgt i = m tgt i := by
  induction l generalizing m with
  | nil => rfl
  | cons a t ih =>
    have h1 : runStores m (a :: t) = runStores (Store.apply m a) t := rfl
    rw [h1, ih (Store.apply m a) (fun s hs => h s (List.mem_cons_of_mem a hs))]
    have ha := h a (List.mem_cons_self a t)
    simp only [Store.apply]
    rw [if_neg ha]

/-- A buffer element addressed by at least one assignment, all assignments to it carrying
the value `v`, ends with content `v`, whatever it held before. -/
theorem runStores_of_hit {α : Type} (l : List (Store α)) (m : Memory α) (tgt : Target)
    (i : Nat) (v : α) (hex : ∃ s ∈ l, tgt = s.target ∧ i = s.index)
    (hall : ∀ s ∈ l, tgt = s.target ∧ i = s.index → s.value = v) :
    runStores m l tgt i = v := by
  induction l generalizing m with
  | nil =>
    rcases hex with ⟨s, hs, _⟩
    exact absurd hs (List.not_mem_nil s)
  | cons a t ih =>
    have h1 : runStores m (a :: t) = runStores (Store.apply m a) t := rfl
    rw [h1]
    by_cases ht : ∃ s ∈ t, tgt = s.target ∧ i = s.index
    · exact ih (Store.apply m a) ht (fun s hs => hall s (List.mem_cons_of_mem a hs))
    · have hno : ∀ s ∈ t, ¬ (tgt = s.target ∧ i = s.index) := by
        intro s hs hh
        exact ht ⟨s, hs, hh⟩
      rw [runStores_of_no_hit t (Store.apply m a) tgt i hno]
      have ha : tgt = a.target ∧ i = a.index := by
        rcases hex with ⟨s, hs, hh⟩
        rcases List.mem_cons.1 hs with rfl | hs
        · exact hh
        · exact absurd hh (hno s hs)
      simp only [Store.apply]
      rw [if_pos ha]
      exact hall a (List.mem_cons_self a t) ha

theorem mem_fillZero {α : Type} [Zero α] (tgt : Target) (rows cols : Nat) (s : Store α) :
    s ∈ fillZero tgt rows cols ↔
      ∃ i, i < rows * cols ∧ s = { target := tgt, index := i, value := 0 } := by
  simp only [fillZero, List.mem_map, List.mem_range]
  constructor
  · rintro ⟨i, hi, rfl⟩
    exact ⟨i, hi, rfl⟩
  · rintro ⟨i, hi, rfl⟩
    exact ⟨i, hi, rfl⟩

theorem mem_storeBlock {α : Type} (tgt : Target) (stride startCol cols : Nat)
    (M : Fin 2 → Nat → α) (s : Store α) :
    s ∈ storeBlock tgt stride startCol cols M ↔
      ∃ (r : Fin 2) (c : Nat), c < cols ∧
        s = { target := tgt, index := r.val * stride + (startCol + c), value := M r c } := by
  simp only [storeBlock, List.mem_flatMap, List.mem_map, List.mem_range, List.mem_finRange,
    true_and]
  constructor
  · rintro ⟨r, c, hc, rfl⟩
    exact ⟨r, c, hc, rfl⟩
  · rintro ⟨r, c, hc, rfl⟩
    exact ⟨r, c, hc, rfl⟩

/-- Two positions of a row-major map coincide only if rows and columns coincide. -/
theorem rowMajor_inj (stride : Nat) (r r2 : Fin 2) (c c2 : Nat) (hc : c < stride)
    (hc2 : c2 < stride) (h : r.val * stride + c = r2.val * stride + c2) : r = r2 ∧ c = c2 := by
  have hr : r.val < 2 := r.isLt
  have hr2 : r2.val < 2 := r2.isLt
  have key : r.val = r2.val ∧ c = c2 := by
    rcases Nat.lt_trichotomy r.val r2.val with hlt | heq | hgt
    · have h01 : r.val = 0 ∧ r2.val = 1 := by omega
      rw [h01.1, h01.2] at h
      omega
    · rw [heq] at h
      exact ⟨heq, by omega⟩
    · have h10 : r.val = 1 ∧ r2.val = 0 := by omega
      rw [h10.1, h10.2] at h
      omega
  exact ⟨Fin.ext key.1, key.2⟩

/-- After a block assignment, an element of the block holds the assigned matrix entry. -/
theorem runStores_storeBlock_hit {α : Type} (m : Memory α) (tgt : Target)
    (stride startCol cols : Nat) (M : Fin 2 → Nat → α) (r : Fin 2) (c : Nat) (hc : c < cols)
    (hfit : startCol + cols ≤ stride) :
    runStores m (storeBlock tgt stride startCol cols M) tgt (r.val * stride + (startCol + c))
      = M r c := by
  apply runStores_of_hit
  · exact ⟨_, (mem_storeBlock tgt stride startCol cols M _).2 ⟨r, c, hc, rfl⟩, rfl, rfl⟩
  · intro s hs hhit
    rcases (mem_storeBlock tgt stride startCol cols M s).1 hs with ⟨r2, c2, hc2, rfl⟩
    have hidx : r.val * stride + (startCol + c) = r2.val * stride + (startCol + c2) := hhit.2
    rcases rowMajor_inj stride r r2 (startCol + c) (startCol + c2) (by omega) (by omega) hidx
      with ⟨hr, hcc⟩
    have hc3 : c2 = c := by omega
    subst hr
    subst hc3
    rfl

/-- A block assignment leaves alone every element outside the block. -/
theorem runStores_storeBlock_miss {α : Type} (m : Memory α) (tgt : Target)
    (stride startCol cols : Nat) (M : Fin 2 → Nat → α) (tgt2 : Target) (i : Nat)
    (hmiss : tgt2 = tgt → ∀ (r : Fin 2) (c : Nat), c < cols →
      i ≠ r.val * stride + (startCol + c)) :
    runStores m (storeBlock tgt stride startCol cols M) tgt2 i = m tgt2 i := by
  apply runStores_of_no_hit
  intro s hs hhit
  rcases (mem_storeBlock tgt stride startCol cols M s).1 hs with ⟨r2, c2, hc2, rfl⟩
  exact hmiss hhit.1 r2 c2 hc2 hhit.2

/-- After `fill(0)`, every element of the map is zero. -/
theorem runStores_fillZero_hit {α : Type} [Zero α] (m : Memory α) (tgt : Target)
    (rows cols i : Nat) (hi : i < rows * cols) :
    runStores m (fillZero tgt rows cols) tgt i = 0 := by
  apply runStores_of_hit
  · exact ⟨_, (mem_fillZero tgt rows cols _).2 ⟨i, hi, rfl⟩, rfl, rfl⟩
  · intro s hs _
    rcases (mem_fillZero tgt rows cols s).1 hs with ⟨j, _, rfl⟩
    rfl

/-- Content of a pose block after the scatter of lines 79–82, inside one of the three
copied sub-blocks: column `4 j + k` of the block receives column `3 j + k` of `J9`. -/
theorem scatterPoseJacobian_copied {α : Type} [Zero α] (m : Memory α) (tgt : Target)
    (J9 : Matrix (Fin 2) (Fin 9) α) (r : Fin 2) (j k : Fin 3) :
    runStores m (scatterPoseJacobian tgt J9) tgt (r.val * 16 + (4 * j.val + k.val))
      = J9 r ⟨3 * j.val + k.val, by omega⟩ := by
  have hr : r.val < 2 := r.isLt
  have hj : j.val < 3 := j.isLt
  have hk : k.val < 3 := k.isLt
  unfold scatterPoseJacobian
  rw [runStores_append, runStores_append, runStores_append]
  have hj3 : j.val = 0 ∨ j.val = 1 ∨ j.val = 2 := by omega
  rcases hj3 with h0 | h1 | h2
  · rw [runStores_storeBlock_miss, runStores_storeBlock_miss]
    · have e : r.val * 16 + (4 * j.val + k.val) = r.val * 16 + (0 + k.val) := by omega
      rw [e, runStores_storeBlock_hit _ _ _ _ _ _ _ _ hk (by omega)]
      simp only [block23, h0]
      rw [dif_pos (by omega)]
    · intro _ r2 c hc
      have := r2.isLt
      omega
    · intro _ r2 c hc
      have := r2.isLt
      omega
  · rw [runStores_storeBlock_miss]
    · have e : r.val * 16 + (4 * j.val + k.val) = r.val * 16 + (4 + k.val) := by omega
      rw [e, runStores_storeBlock_hit _ _ _ _ _ _ _ _ hk (by omega)]
      simp only [block23, h1]
      rw [dif_pos (by omega)]
    · intro _ r2 c hc
      have := r2.isLt
      omega
  · have e : r.val * 16 + (4 * j.val + k.val) = r.val * 16 + (8 + k.val) := by omega
    rw [e, runStores_storeBlock_hit _ _ _ _ _ _ _ _ hk (by omega)]
    simp only [block23, h2]
    rw [dif_pos (by omega)]

/-- Content of a pose block after the scatter, outside the three copied sub-blocks: the
columns 3, 7, 11, 12, 13, 14, 15 hold zero. -/
theorem scatterPoseJacobian_zero {α : Type} [Zero α] (m : Memory α) (tgt : Target)
    (J9 : Matrix (Fin 2) (Fin 9) α) (r : Fin 2) (c : Nat)
    (hc : c = 3 ∨ c = 7 ∨ c = 11 ∨ c = 12 ∨ c = 13 ∨ c = 14 ∨ c = 15) :
    runStores m (scatterPoseJacobian tgt J9) tgt (r.val * 16 + c) = 0 := by
  have hr : r.val < 2 := r.isLt
  unfold scatterPoseJacobian
  rw [runStores_append, runStores_append, runStores_append]
  rw [runStores_storeBlock_miss, runStores_storeBlock_miss, runStores_storeBlock_miss]
  · exact runStores_fillZero_hit m tgt 2 16 _ (by omega)
  · intro _ r2 c2 hc2
    have := r2.isLt
    omega
  · intro _ r2 c2 hc2
    have := r2.isLt
    omega
  · intro _ r2 c2 hc2
    have := r2.isLt
    omega

/-- The scatter of a pose block addresses that block only. -/
theorem scatterPoseJacobian_target {α : Type} [Zero α] (tgt : Target)
    (J9 : Matrix (Fin 2) (Fin 9) α) (s : Store α) (hs : s ∈ scatterPoseJacobian tgt J9) :
    s.target = tgt := by
  simp only [scatterPoseJacobian, List.mem_append] at hs
  rcases hs with ((hs | hs) | hs) | hs
  · rcases (mem_fillZero tgt 2 16 s).1 hs with ⟨_, _, rfl⟩
    rfl
  · rcases (mem_storeBlock _ _ _ _ _ s).1 hs with ⟨_, _, _, rfl⟩
    rfl
  · rcases (mem_storeBlock _ _ _ _ _ s).1 hs with ⟨_, _, _, rfl⟩
    rfl
  · rcases (mem_storeBlock _ _ _ _ _ s).1 hs with ⟨_, _, _, rfl⟩
    rfl

/-! ## Structure of the assignments made by `Evaluate` -/

/-- Assignments that all address other buffers leave a buffer alone. -/
theorem runStores_of_other_target {α : Type} (l : List (Store α)) (m : Memory α)
    (tgt : Target) (i : Nat) (h : ∀ s ∈ l, s.target ≠ tgt) :
    runStores m l tgt i = m tgt i :=
  runStores_of_no_hit l m tgt i (fun s hs hh => h s hs hh.1.symm)

theorem residualStores_target {α : Type} [CommRing α] (cam : Pinhole α)
    (self : CostPanoramaPinHole α) (parameters : Fin 3 → Nat → α) (c : PinholeState α)
    (s : Store α) (hs : s ∈ Evaluate.residualStores cam self parameters c) :
    s.target = Target.residuals := by
  simp only [Evaluate.residualStores, List.mem_cons, List.mem_singleton, List.not_mem_nil,
    or_false] at hs
  rcases hs with rfl | rfl <;> rfl

theorem intrinsicsStores_target {α : Type} [CommRing α] (cam : Pinhole α)
    (self : CostPanoramaPinHole α) (parameters : Fin 3 → Nat → α) (c : PinholeState α)
    (s : Store α) (hs : s ∈ Evaluate.intrinsicsStores cam self parameters c) :
    s.target = Target.jacobian 2 := by
  simp only [Evaluate.intrinsicsStores, List.mem_append] at hs
  rcases hs with (hs | hs) | hs
  · rcases (mem_storeBlock _ _ _ _ _ s).1 hs with ⟨_, _, _, rfl⟩
    rfl
  · rcases (mem_storeBlock _ _ _ _ _ s).1 hs with ⟨_, _, _, rfl⟩
    rfl
  · split at hs
    · rcases (mem_storeBlock _ _ _ _ _ s).1 hs with ⟨_, _, _, rfl⟩
      rfl
    · exact absurd hs (List.not_mem_nil s)

/-- The assignments of a call with a null `jacobians` array. -/
theorem Evaluate_stores_none {α : Type} [CommRing α] (cam : Pinhole α)
    (self : CostPanoramaPinHole α) (parameters : Fin 3 → Nat → α)
    (_intrinsic : PinholeState α) :
    (CostPanoramaPinHole.Evaluate cam self parameters none _intrinsic).stores =
      Evaluate.residualStores cam self parameters (Evaluate.camera (parameters 2) _intrinsic) :=
  rfl

/-- The assignments of a call with a non-null `jacobians` array. -/
theorem Evaluate_stores_some {α : Type} [CommRing α] (cam : Pinhole α)
    (self : CostPanoramaPinHole α) (parameters : Fin 3 → Nat → α) (jac : Fin 3 → Bool)
    (_intrinsic : PinholeState α) :
    (CostPanoramaPinHole.Evaluate cam self parameters (some jac) _intrinsic).stores =
      Evaluate.residualStores cam self parameters (Evaluate.camera (parameters 2) _intrinsic) ++
      (if jac 0 then scatterPoseJacobian (Target.jacobian 0)
        (Evaluate.J9_i cam self parameters (Evaluate.camera (parameters 2) _intrinsic))
       else []) ++
      (if jac 1 then scatterPoseJacobian (Target.jacobian 1)
        (Evaluate.J9_j cam self parameters (Evaluate.camera (parameters 2) _intrinsic))
       else []) ++
      (if jac 2 then Evaluate.intrinsicsStores cam self parameters
        (Evaluate.camera (parameters 2) _intrinsic)
       else []) :=
  rfl

/-- Whatever is requested, the assignments start with the two residual assignments and the
remaining ones address Jacobian buffers. -/
theorem Evaluate_stores_split {α : Type} [CommRing α] (cam : Pinhole α)
    (self : CostPanoramaPinHole α) (parameters : Fin 3 → Nat → α)
    (jacobians : Option (Fin 3 → Bool)) (_intrinsic : PinholeState α) :
    ∃ rest : List (Store α),
      (CostPanoramaPinHole.Evaluate cam self parameters jacobians _intrinsic).stores =
        Evaluate.residualStores cam self parameters
          (Evaluate.camera (parameters 2) _intrinsic) ++ rest ∧
      ∀ s ∈ rest, ∃ k, s.target = Target.jacobian k ∧ jacobians.elim False (fun jac => jac k = true) := by
  cases jacobians with
  | none => exact ⟨[], by rw [Evaluate_stores_none, List.append_nil], by simp⟩
  | some jac =>
    refine ⟨_, by rw [Evaluate_stores_some, List.append_assoc, List.append_assoc], ?_⟩
    intro s hs
    simp only [List.mem_append] at hs
    rcases hs with hs | hs | hs
    · by_cases h : jac 0 = true
      · rw [if_pos h] at hs
        exact ⟨0, scatterPoseJacobian_target _ _ s hs, h⟩
      · rw [if_neg h] at hs
        exact absurd hs (List.not_mem_nil s)
    · by_cases h : jac 1 = true
      · rw [if_pos h] at hs
        exact ⟨1, scatterPoseJacobian_target _ _ s hs, h⟩
      · rw [if_neg h] at hs
        exact absurd hs (List.not_mem_nil s)
    · by_cases h : jac 2 = true
      · rw [if_pos h] at hs
        exact ⟨2, intrinsicsStores_target _ _ _ _ s hs, h⟩
      · rw [if_neg h] at hs
        exact absurd hs (List.not_mem_nil s)

/-- The residual buffer after a call, for every request. -/
theorem buffersAfter_residuals {α : Type} [CommRing α] (cam : Pinhole α)
    (self : CostPanoramaPinHole α) (parameters : Fin 3 → Nat → α)
    (jacobians : Option (Fin 3 → Bool)) (_intrinsic : PinholeState α) (m : Memory α)
    (i : Nat) :
    CostPanoramaPinHole.buffersAfter cam self parameters jacobians _intrinsic m
        Target.residuals i =
      if i = 0 then
        Evaluate.pt_j_est cam self parameters (Evaluate.camera (parameters 2) _intrinsic) 0
          - self._fj 0
      else if i = 1 then
        Evaluate.pt_j_est cam self parameters (Evaluate.camera (parameters 2) _intrinsic) 1
          - self._fj 1
      else m Target.residuals i := by
  rcases Evaluate_stores_split cam self parameters jacobians _intrinsic with ⟨rest, hsplit, hrest⟩
  unfold CostPanoramaPinHole.buffersAfter
  rw [hsplit, runStores_append, runStores_of_other_target rest _ _ _ ?_]
  · simp only [Evaluate.residualStores, runStores, List.foldl_cons, List.foldl_nil, Store.apply,
      true_and]
    by_cases h1 : i = 1
    · subst h1
      simp
    · by_cases h0 : i = 0
      · subst h0
        simp
      · simp [h0, h1]
  · intro s hs
    rcases hrest s hs with ⟨k, hk, _⟩
    rw [hk]
    exact fun h => Target.noConfusion h

/-- C5: for every parameter input (and every request for Jacobians), the residual buffer
receives `pixel_j_estimated - pixel_j` componentwise, where `pixel_j_estimated` is the
projection, with distortion applied, through the pose of rotation `Rj * Riᵀ` and zero
translation, of the homogeneous unit-sphere direction obtained from `pixel_i` by `ima2cam`,
`removeDistortion`, `toUnitSphere` (all evaluated on the camera as configured from the
intrinsics block); the call returns `true`. -/
theorem Evaluate_residual_is_estimated_minus_observed {α : Type} [CommRing α]
    (cam : Pinhole α) (self : CostPanoramaPinHole α) (parameters : Fin 3 → Nat → α)
    (jacobians : Option (Fin 3 → Bool)) (_intrinsic : PinholeState α) (m : Memory α) :
    let c := Evaluate.camera (parameters 2) _intrinsic
    let Ri : Mat3 α := Matrix.of fun (r k : Fin 3) => parameters 0 (4 * r.val + k.val)
    let Rj : Mat3 α := Matrix.of fun (r k : Fin 3) => parameters 1 (4 * r.val + k.val)
    let pose : Pose3 α := { rotation := Rj * Ri.transpose, center := ![0, 0, 0] }
    let direction : Vec4 α :=
      homogeneous (cam.toUnitSphere c (cam.removeDistortion c (cam.ima2cam c self._fi)))
    let pixel_j_estimated : Vec2 α := cam.transformProject c pose direction true
    (∀ i : Fin 3, pose.getHomogeneous (Fin.castSucc i) 3 = 0) ∧
    CostPanoramaPinHole.buffersAfter cam self parameters jacobians _intrinsic m
        Target.residuals 0 = pixel_j_estimated 0 - self._fj 0 ∧
    CostPanoramaPinHole.buffersAfter cam self parameters jacobians _intrinsic m
        Target.residuals 1 = pixel_j_estimated 1 - self._fj 1 ∧
    (CostPanoramaPinHole.Evaluate cam self parameters jacobians _intrinsic).ret = true := by
  intro c Ri Rj pose direction pixel_j_estimated
  refine ⟨?_, ?_, ?_, ?_⟩
  · intro i
    have hi : i.val < 3 := i.isLt
    have h3 : ¬ ((3 : Fin 4).val < 3) := by decide
    have hcenter : (![0, 0, 0] : Fin 3 → α) = 0 := by
      funext x
      fin_cases x <;> rfl
    simp only [Pose3.getHomogeneous, Matrix.of_apply, Fin.coe_castSucc, hi, dif_pos, h3,
      dif_neg, not_false_iff, pose, hcenter, Matrix.mulVec_zero, Pi.zero_apply, neg_zero]
  · rw [buffersAfter_residuals]
    rfl
  · rw [buffersAfter_residuals]
    rfl
  · cases jacobians <;> rfl

theorem runStores_ite_other_target {α : Type} (b : Bool) (l : List (Store α))
    (m : Memory α) (tgt : Target) (i : Nat) (h : ∀ s ∈ l, s.target ≠ tgt) :
    runStores m (if b = true then l else []) tgt i = m tgt i := by
  by_cases hb : b = true
  · rw [if_pos hb]
    exact runStores_of_other_target l m tgt i h
  · rw [if_neg hb]
    rfl

/-- The scatter of lines 79–82 produces the layout of the specification, whatever the
buffer held before. -/
theorem scatterPoseJacobian_layout {α : Type} [Zero α] (m : Memory α) (tgt : Target)
    (J9 : Matrix (Fin 2) (Fin 9) α) :
    IsPoseBlockScatter (runStores m (scatterPoseJacobian tgt J9) tgt) J9 := by
  intro r
  refine ⟨fun k => ⟨?_, ?_, ?_⟩, ?_⟩
  · have h := scatterPoseJacobian_copied m tgt J9 r 0 k
    simp only [Fin.val_zero, Nat.mul_zero, Nat.zero_add] at h
    rw [Nat.mul_comm 16 r.val]
    exact h
  · have h := scatterPoseJacobian_copied m tgt J9 r 1 k
    simp only [Fin.val_one, Nat.mul_one] at h
    rw [Nat.mul_comm 16 r.val]
    exact h
  · have h := scatterPoseJacobian_copied m tgt J9 r 2 k
    simp only [Fin.val_two] at h
    rw [Nat.mul_comm 16 r.val]
    exact h
  · intro c hc
    rw [Nat.mul_comm 16 r.val]
    apply scatterPoseJacobian_zero
    simpa using hc

/-- The first pose block after a call that requested it. -/
theorem buffersAfter_jacobian0 {α : Type} [CommRing α] (cam : Pinhole α)
    (self : CostPanoramaPinHole α) (parameters : Fin 3 → Nat → α) (jac : Fin 3 → Bool)
    (_intrinsic : PinholeState α) (m : Memory α) (h0 : jac 0 = true) (i : Nat) :
    CostPanoramaPinHole.buffersAfter cam self parameters (some jac) _intrinsic m
        (Target.jacobian 0) i =
      runStores (runStores m (Evaluate.residualStores cam self parameters
          (Evaluate.camera (parameters 2) _intrinsic)))
        (scatterPoseJacobian (Target.jacobian 0)
          (Evaluate.J9_i cam self parameters (Evaluate.camera (parameters 2) _intrinsic)))
        (Target.jacobian 0) i := by
  unfold CostPanoramaPinHole.buffersAfter
  rw [Evaluate_stores_some, runStores_append, runStores_append, runStores_append]
  rw [runStores_ite_other_target, runStores_ite_other_target, if_pos h0]
  · intro s hs
    rw [scatterPoseJacobian_target _ _ s hs]
    decide
  · intro s hs
    rw [intrinsicsStores_target _ _ _ _ s hs]
    decide

/-- The second pose block after a call that requested it. -/
theorem buffersAfter_jacobian1 {α : Type} [CommRing α] (cam : Pinhole α)
    (self : CostPanoramaPinHole α) (parameters : Fin 3 → Nat → α) (jac : Fin 3 → Bool)
    (_intrinsic : PinholeState α) (m : Memory α) (h1 : jac 1 = true) (i : Nat) :
    CostPanoramaPinHole.buffersAfter cam self parameters (some jac) _intrinsic m
        (Target.jacobian 1) i =
      runStores (runStores (runStores m (Evaluate.residualStores cam self parameters
          (Evaluate.camera (parameters 2) _intrinsic)))
          (if jac 0 = true then scatterPoseJacobian (Target.jacobian 0)
            (Evaluate.J9_i cam self parameters (Evaluate.camera (parameters 2) _intrinsic))
           else []))
        (scatterPoseJacobian (Target.jacobian 1)
          (Evaluate.J9_j cam self parameters (Evaluate.camera (parameters 2) _intrinsic)))
        (Target.jacobian 1) i := by
  unfold CostPanoramaPinHole.buffersAfter
  rw [Evaluate_stores_some, runStores_append, runStores_append, runStores_append]
  rw [runStores_ite_other_target, if_pos h1]
  intro s hs
  rw [intrinsicsStores_target _ _ _ _ s hs]
  decide

/-- C6: each requested pose Jacobian block, read as a row-major 2×16 matrix `J` after the
call, satisfies `J[r][k] = J9[r][k]`, `J[r][4+k] = J9[r][3+k]`, `J[r][8+k] = J9[r][6+k]` and
`J[r][c] = 0` for `c ∈ {3, 7, 11, 12, 13, 14, 15}`, where `J9` is the 2×9 matrix of lines
75–77 (block 0) resp. 89–91 (block 1); this holds for every prior content `m` of the
buffers. -/
theorem Evaluate_pose_jacobian_layout {α : Type} [CommRing α] (cam : Pinhole α)
    (self : CostPanoramaPinHole α) (parameters : Fin 3 → Nat → α) (jac : Fin 3 → Bool)
    (_intrinsic : PinholeState α) (m : Memory α) :
    (jac 0 = true →
      IsPoseBlockScatter
        (CostPanoramaPinHole.buffersAfter cam self parameters (some jac) _intrinsic m
          (Target.jacobian 0))
        (Evaluate.J9_i cam self parameters (Evaluate.camera (parameters 2) _intrinsic))) ∧
    (jac 1 = true →
      IsPoseBlockScatter
        (CostPanoramaPinHole.buffersAfter cam self parameters (some jac) _intrinsic m
          (Target.jacobian 1))
        (Evaluate.J9_j cam self parameters (Evaluate.camera (parameters 2) _intrinsic))) := by
  constructor
  · intro h0 r
    have lay := scatterPoseJacobian_layout
      (runStores m (Evaluate.residualStores cam self parameters
        (Evaluate.camera (parameters 2) _intrinsic)))
      (Target.jacobian 0)
      (Evaluate.J9_i cam self parameters (Evaluate.camera (parameters 2) _intrinsic)) r
    refine ⟨fun k => ?_, fun c hc => ?_⟩
    · rw [buffersAfter_jacobian0 _ _ _ _ _ _ h0, buffersAfter_jacobian0 _ _ _ _ _ _ h0,
        buffersAfter_jacobian0 _ _ _ _ _ _ h0]
      exact lay.1 k
    · rw [buffersAfter_jacobian0 _ _ _ _ _ _ h0]
      exact lay.2 c hc
  · intro h1 r
    have lay := scatterPoseJacobian_layout
      (runStores (runStores m (Evaluate.residualStores cam self parameters
          (Evaluate.camera (parameters 2) _intrinsic)))
        (if jac 0 = true then scatterPoseJacobian (Target.jacobian 0)
          (Evaluate.J9_i cam self parameters (Evaluate.camera (parameters 2) _intrinsic))
         else []))
      (Target.jacobian 1)
      (Evaluate.J9_j cam self parameters (Evaluate.camera (parameters 2) _intrinsic)) r
    refine ⟨fun k => ?_, fun c hc => ?_⟩
    · rw [buffersAfter_jacobian1 _ _ _ _ _ _ h1, buffersAfter_jacobian1 _ _ _ _ _ _ h1,
        buffersAfter_jacobian1 _ _ _ _ _ _ h1]
      exact lay.1 k
    · rw [buffersAfter_jacobian1 _ _ _ _ _ _ h1]
      exact lay.2 c hc

/-- C6, witness: the first pose block of the sample call, on buffers pre-filled with 7. -/
theorem Evaluate_pose_jacobian_layout_witness :
    sampleRequest 0 = true ∧
    IsPoseBlockScatter
      (CostPanoramaPinHole.buffersAfter sampleCamera sampleCost sampleParameters
        (some sampleRequest) sampleState sampleMemory (Target.jacobian 0))
      (Evaluate.J9_i sampleCamera sampleCost sampleParameters
        (Evaluate.camera (sampleParameters 2) sampleState)) :=
  ⟨by decide,
   (Evaluate_pose_jacobian_layout sampleCamera sampleCost sampleParameters sampleRequest
      sampleState sampleMemory).1 (by decide)⟩

/-- The scatter of a pose block makes at least one assignment. -/
theorem scatterPoseJacobian_nonempty {α : Type} [Zero α] (tgt : Target)
    (J9 : Matrix (Fin 2) (Fin 9) α) :
    ∃ s ∈ scatterPoseJacobian tgt J9, s.target = tgt := by
  refine ⟨{ target := tgt, index := 0, value := 0 }, ?_, rfl⟩
  simp only [scatterPoseJacobian, List.mem_append]
  exact Or.inl (Or.inl (Or.inl ((mem_fillZero tgt 2 16 _).2 ⟨0, by decide, rfl⟩)))

/-- The assembly of the intrinsics block makes at least one assignment. -/
theorem intrinsicsStores_nonempty {α : Type} [CommRing α] (cam : Pinhole α)
    (self : CostPanoramaPinHole α) (parameters : Fin 3 → Nat → α) (c : PinholeState α) :
    ∃ s ∈ Evaluate.intrinsicsStores cam self parameters c, s.target = Target.jacobian 2 := by
  refine ⟨{ target := Target.jacobian 2, index := (0 : Fin 2).val * c.getParamsSize + (0 + 0),
            value := block22 (Evaluate.Jscale cam self parameters c) 0 0 }, ?_, rfl⟩
  simp only [Evaluate.intrinsicsStores, List.mem_append]
  exact Or.inl (Or.inl ((mem_storeBlock _ _ _ _ _ _).2 ⟨0, 0, by decide, rfl⟩))

/-- C7: Jacobian blocks are produced only when requested.  With a null `jacobians` array
the assignments are exactly the two residual assignments and no Jacobian buffer changes;
with a non-null array a block whose entry is null receives no assignment and keeps its
content, a block whose entry is non-null receives assignments; the residual buffer after
the call is the same for every request. -/
theorem Evaluate_jacobians_only_when_requested {α : Type} [CommRing α] (cam : Pinhole α)
    (self : CostPanoramaPinHole α) (parameters : Fin 3 → Nat → α)
    (_intrinsic : PinholeState α) :
    ((CostPanoramaPinHole.Evaluate cam self parameters none _intrinsic).stores.map
        (fun s => (s.target, s.index)) = [(Target.residuals, 0), (Target.residuals, 1)]) ∧
    (∀ (m : Memory α) (k : Fin 3) (i : Nat),
      CostPanoramaPinHole.buffersAfter cam self parameters none _intrinsic m
        (Target.jacobian k) i = m (Target.jacobian k) i) ∧
    (∀ (jac : Fin 3 → Bool) (k : Fin 3), jac k = false →
      (∀ s ∈ (CostPanoramaPinHole.Evaluate cam self parameters (some jac) _intrinsic).stores,
        s.target ≠ Target.jacobian k) ∧
      (∀ (m : Memory α) (i : Nat),
        CostPanoramaPinHole.buffersAfter cam self parameters (some jac) _intrinsic m
          (Target.jacobian k) i = m (Target.jacobian k) i)) ∧
    (∀ (jac : Fin 3 → Bool) (k : Fin 3), jac k = true →
      ∃ s ∈ (CostPanoramaPinHole.Evaluate cam self parameters (some jac) _intrinsic).stores,
        s.target = Target.jacobian k) ∧
    (∀ (j1 j2 : Option (Fin 3 → Bool)) (m : Memory α) (i : Nat),
      CostPanoramaPinHole.buffersAfter cam self parameters j1 _intrinsic m Target.residuals i =
      CostPanoramaPinHole.buffersAfter cam self parameters j2 _intrinsic m
        Target.residuals i) := by
  refine ⟨rfl, ?_, ?_, ?_, ?_⟩
  · intro m k i
    unfold CostPanoramaPinHole.buffersAfter
    rw [Evaluate_stores_none]
    apply runStores_of_other_target
    intro s hs
    rw [residualStores_target _ _ _ _ s hs]
    exact fun h => Target.noConfusion h
  · intro jac k hk
    have hnot : ∀ s ∈ (CostPanoramaPinHole.Evaluate cam self parameters (some jac)
        _intrinsic).stores, s.target ≠ Target.jacobian k := by
      intro s hs
      rcases Evaluate_stores_split cam self parameters (some jac) _intrinsic with
        ⟨rest, hsplit, hrest⟩
      rw [hsplit, List.mem_append] at hs
      rcases hs with hs | hs
      · rw [residualStores_target _ _ _ _ s hs]
        exact fun h => Target.noConfusion h
      · rcases hrest s hs with ⟨k2, hk2, hj⟩
        rw [hk2]
        intro h
        have hkk : k2 = k := Target.jacobian.inj h
        rw [hkk] at hj
        simp only [Option.elim] at hj
        rw [hk] at hj
        exact Bool.noConfusion hj
    exact ⟨hnot, fun m i => runStores_of_other_target _ m _ i hnot⟩
  · intro jac k hk
    rw [Evaluate_stores_some]
    have hk3 : k = 0 ∨ k = 1 ∨ k = 2 := by
      fin_cases k <;> simp
    rcases hk3 with rfl | rfl | rfl
    · rcases scatterPoseJacobian_nonempty (Target.jacobian 0)
        (Evaluate.J9_i cam self parameters (Evaluate.camera (parameters 2) _intrinsic))
        with ⟨s, hs, ht⟩
      refine ⟨s, ?_, ht⟩
      simp only [List.mem_append, hk, if_true]
      exact Or.inl (Or.inl (Or.inr hs))
    · rcases scatterPoseJacobian_nonempty (Target.jacobian 1)
        (Evaluate.J9_j cam self parameters (Evaluate.camera (parameters 2) _intrinsic))
        with ⟨s, hs, ht⟩
      refine ⟨s, ?_, ht⟩
      simp only [List.mem_append, hk, if_true]
      exact Or.inl (Or.inr hs)
    · rcases intrinsicsStores_nonempty cam self parameters
        (Evaluate.camera (parameters 2) _intrinsic) with ⟨s, hs, ht⟩
      refine ⟨s, ?_, ht⟩
      simp only [List.mem_append, hk, if_true]
      exact Or.inr hs
  · intro j1 j2 m i
    rw [buffersAfter_residuals, buffersAfter_residuals]

/-- C7, witness: the sample request asks for blocks 0 and 2 and not for block 1; block 1
keeps the value 7 it held, block 0 receives assignments. -/
theorem Evaluate_jacobians_only_when_requested_witness :
    (sampleRequest 1 = false ∧
      CostPanoramaPinHole.buffersAfter sampleCamera sampleCost sampleParameters
        (some sampleRequest) sampleState sampleMemory (Target.jacobian 1) 5
        = sampleMemory (Target.jacobian 1) 5) ∧
    (sampleRequest 0 = true ∧
      ∃ s ∈ (CostPanoramaPinHole.Evaluate sampleCamera sampleCost sampleParameters
          (some sampleRequest) sampleState).stores, s.target = Target.jacobian 0) :=
  ⟨⟨by decide,
    ((Evaluate_jacobians_only_when_requested sampleCamera sampleCost sampleParameters
      sampleState).2.2.1 sampleRequest 1 (by decide)).2 sampleMemory 5⟩,
   ⟨by decide,
    (Evaluate_jacobians_only_when_requested sampleCamera sampleCost sampleParameters
      sampleState).2.2.2.1 sampleRequest 0 (by decide)⟩⟩

/-! ## The intrinsics block -/

theorem storeBlock_zero_cols {α : Type} (tgt : Target) (stride startCol : Nat)
    (M : Fin 2 → Nat → α) : storeBlock tgt stride startCol 0 M = [] := by
  simp [storeBlock]

/-- The guard `disto_size > 0` of line 117 does not change the assignments made. -/
theorem intrinsicsStores_eq {α : Type} [CommRing α] (cam : Pinhole α)
    (self : CostPanoramaPinHole α) (parameters : Fin 3 → Nat → α) (c : PinholeState α) :
    Evaluate.intrinsicsStores cam self parameters c =
      storeBlock (Target.jacobian 2) c.getParamsSize 0 2
          (block22 (Evaluate.Jscale cam self parameters c)) ++
        storeBlock (Target.jacobian 2) c.getParamsSize 2 2
          (block22 (Evaluate.Jpp cam self parameters c)) ++
        storeBlock (Target.jacobian 2) c.getParamsSize 4 c.getDistortionParamsSize
          (Evaluate.Jdisto cam self parameters c) := by
  unfold Evaluate.intrinsicsStores
  by_cases hd : c.getDistortionParamsSize > 0
  · simp only [hd, if_true]
  · have h0 : c.getDistortionParamsSize = 0 := by omega
    simp only [h0, gt_iff_lt, Nat.lt_irrefl, if_false, storeBlock_zero_cols]

/-- With the layout `getParamsSize() = 4 + getDistortionParamsSize()`, the assembly of lines
114–123 gives every entry of the `2 × getParamsSize()` block its value, whatever the buffer
held before. -/
theorem intrinsicsStores_written {α : Type} [CommRing α] (cam : Pinhole α)
    (self : CostPanoramaPinHole α) (parameters : Fin 3 → Nat → α) (c : PinholeState α)
    (hlayout : c.getParamsSize = 4 + c.getDistortionParamsSize) (m : Memory α) (r : Fin 2)
    (col : Nat) (hcol : col < c.getParamsSize) :
    runStores m (Evaluate.intrinsicsStores cam self parameters c) (Target.jacobian 2)
        (r.val * c.getParamsSize + col) =
      Evaluate.intrinsicsEntry cam self parameters c r col := by
  rw [intrinsicsStores_eq, runStores_append, runStores_append]
  unfold Evaluate.intrinsicsEntry
  by_cases h2 : col < 2
  · rw [if_pos h2, runStores_storeBlock_miss, runStores_storeBlock_miss]
    · have e : r.val * c.getParamsSize + col = r.val * c.getParamsSize + (0 + col) := by omega
      rw [e, runStores_storeBlock_hit _ _ _ _ _ _ _ _ h2 (by omega)]
    · intro _ r2 k hk hidx
      have := (rowMajor_inj c.getParamsSize r r2 col (2 + k) hcol (by omega) hidx).2
      omega
    · intro _ r2 k hk hidx
      have := (rowMajor_inj c.getParamsSize r r2 col (4 + k) hcol (by omega) hidx).2
      omega
  · rw [if_neg h2]
    by_cases h4 : col < 4
    · rw [if_pos h4, runStores_storeBlock_miss]
      · have e : r.val * c.getParamsSize + col = r.val * c.getParamsSize + (2 + (col - 2)) := by
          omega
        rw [e, runStores_storeBlock_hit _ _ _ _ _ _ _ _ (by omega) (by omega)]
      · intro _ r2 k hk hidx
        have := (rowMajor_inj c.getParamsSize r r2 col (4 + k) hcol (by omega) hidx).2
        omega
    · rw [if_neg h4]
      have e : r.val * c.getParamsSize + col = r.val * c.getParamsSize + (4 + (col - 4)) := by
        omega
      rw [e, runStores_storeBlock_hit _ _ _ _ _ _ _ _ (by omega) (by omega)]

/-- The setters of lines 44–51 change neither `getParamsSize()` nor
`getDistortionParamsSize()`. -/
theorem camera_sizes {α : Type} (parameter_intrinsics : Nat → α)
    (_intrinsic : PinholeState α) :
    (Evaluate.camera parameter_intrinsics _intrinsic).getParamsSize
      = _intrinsic.getParamsSize ∧
    (Evaluate.camera parameter_intrinsics _intrinsic).getDistortionParamsSize
      = _intrinsic.getDistortionParamsSize := by
  simp [Evaluate.camera, PinholeState.setScale, PinholeState.setOffset,
    PinholeState.setDistortionParamsFn, PinholeState.getParamsSize,
    PinholeState.getDistortionParamsSize]

/-- The intrinsics block after a call that requested it, for a camera with the layout
`getParamsSize() = 4 + getDistortionParamsSize()`. -/
theorem buffersAfter_jacobian2 {α : Type} [CommRing α] (cam : Pinhole α)
    (self : CostPanoramaPinHole α) (parameters : Fin 3 → Nat → α) (jac : Fin 3 → Bool)
    (_intrinsic : PinholeState α) (m : Memory α) (h2 : jac 2 = true)
    (hlayout : _intrinsic.getParamsSize = 4 + _intrinsic.getDistortionParamsSize)
    (r : Fin 2) (col : Nat) (hcol : col < _intrinsic.getParamsSize) :
    CostPanoramaPinHole.buffersAfter cam self parameters (some jac) _intrinsic m
        (Target.jacobian 2) (r.val * _intrinsic.getParamsSize + col) =
      Evaluate.intrinsicsEntry cam self parameters
        (Evaluate.camera (parameters 2) _intrinsic) r col := by
  have hs := camera_sizes (parameters 2) _intrinsic
  have hlayout2 : (Evaluate.camera (parameters 2) _intrinsic).getParamsSize =
      4 + (Evaluate.camera (parameters 2) _intrinsic).getDistortionParamsSize := by
    rw [hs.1, hs.2]
    exact hlayout
  unfold CostPanoramaPinHole.buffersAfter
  rw [Evaluate_stores_some, runStores_append, if_pos h2, ← hs.1]
  exact intrinsicsStores_written cam self parameters _ hlayout2 _ r col
    (by rw [hs.1]; exact hcol)

/-- The camera state `Evaluate` leaves behind, for every request. -/
theorem Evaluate_intrinsic_eq {α : Type} [CommRing α] (cam : Pinhole α)
    (self : CostPanoramaPinHole α) (parameters : Fin 3 → Nat → α)
    (jacobians : Option (Fin 3 → Bool)) (_intrinsic : PinholeState α) :
    (CostPanoramaPinHole.Evaluate cam self parameters jacobians _intrinsic)._intrinsic =
      Evaluate.camera (parameters 2) _intrinsic := by
  cases jacobians <;> rfl

/-- C10 (as amended): `Evaluate` overwrites scale, offset and distortion parameters of the
shared camera with the values of the intrinsics block (`scale = p[0..1]`,
`offset = p[2..3]`, `distortion[k] = p[getParamsSize() - getDistortionParamsSize() + k]`) and
leaves the two sizes alone; so the camera is the same after the call as before it exactly
when it already held these values, and nothing `Evaluate` produces depends on the scale,
offset and distortion values the camera held before the call. -/
theorem Evaluate_configures_shared_camera {α : Type} [CommRing α] (cam : Pinhole α)
    (self : CostPanoramaPinHole α) (parameters : Fin 3 → Nat → α)
    (jacobians : Option (Fin 3 → Bool)) (_intrinsic : PinholeState α) :
    (CostPanoramaPinHole.Evaluate cam self parameters jacobians _intrinsic)._intrinsic =
      { scale := ![parameters 2 0, parameters 2 1],
        offset := ![parameters 2 2, parameters 2 3],
        distortionParams := (List.range _intrinsic.getDistortionParamsSize).map
          (fun index => parameters 2
            ((subSizeT _intrinsic.getParamsSize _intrinsic.getDistortionParamsSize + index)
              % 2 ^ 64)),
        paramsSize := _intrinsic.paramsSize } ∧
    ((CostPanoramaPinHole.Evaluate cam self parameters jacobians _intrinsic)._intrinsic
        = _intrinsic ↔
      (_intrinsic.scale = ![parameters 2 0, parameters 2 1] ∧
       _intrinsic.offset = ![parameters 2 2, parameters 2 3] ∧
       _intrinsic.distortionParams = (List.range _intrinsic.getDistortionParamsSize).map
          (fun index => parameters 2
            ((subSizeT _intrinsic.getParamsSize _intrinsic.getDistortionParamsSize + index)
              % 2 ^ 64)))) ∧
    (∀ other : PinholeState α,
      other.getParamsSize = _intrinsic.getParamsSize →
      other.getDistortionParamsSize = _intrinsic.getDistortionParamsSize →
      CostPanoramaPinHole.Evaluate cam self parameters jacobians other =
        CostPanoramaPinHole.Evaluate cam self parameters jacobians _intrinsic) := by
  have hcam : ∀ st : PinholeState α, Evaluate.camera (parameters 2) st =
      { scale := ![parameters 2 0, parameters 2 1],
        offset := ![parameters 2 2, parameters 2 3],
        distortionParams := (List.range st.getDistortionParamsSize).map
          (fun index => parameters 2
            ((subSizeT st.getParamsSize st.getDistortionParamsSize + index) % 2 ^ 64)),
        paramsSize := st.paramsSize } := fun _ => rfl
  refine ⟨?_, ?_, ?_⟩
  · rw [Evaluate_intrinsic_eq, hcam]
  · rw [Evaluate_intrinsic_eq, hcam]
    constructor
    · intro h
      have h1 := congrArg PinholeState.scale h
      have h2 := congrArg PinholeState.offset h
      have h3 := congrArg PinholeState.distortionParams h
      exact ⟨h1.symm, h2.symm, h3.symm⟩
    · rintro ⟨h1, h2, h3⟩
      cases _intrinsic with
      | mk sc off dist ps =>
        simp only at h1 h2 h3
        simp only [PinholeState.mk.injEq]
        exact ⟨h1.symm, h2.symm, h3.symm, trivial⟩
  · intro other hp hd
    have hc : Evaluate.camera (parameters 2) other = Evaluate.camera (parameters 2) _intrinsic := by
      rw [hcam, hcam, hp, hd]
      have : other.paramsSize = _intrinsic.paramsSize := hp
      rw [this]
    unfold CostPanoramaPinHole.Evaluate
    rw [hc]

/-- C10, witness: a camera that held scale `(5, 5)` produces the same outcome as the sample
camera, which held scale `(1, 1)`. -/
theorem Evaluate_configures_shared_camera_witness :
    CostPanoramaPinHole.Evaluate sampleCamera sampleCost sampleParameters none
        { sampleState with scale := ![5, 5] } =
      CostPanoramaPinHole.Evaluate sampleCamera sampleCost sampleParameters none sampleState :=
  (Evaluate_configures_shared_camera sampleCamera sampleCost sampleParameters none
    sampleState).2.2 { sampleState with scale := ![5, 5] } rfl rfl

/-- C10, counterexample: the sample camera has scale `(1, 1)` before the call and scale
`(2, 2)`, the value of the intrinsics block, after it. -/
theorem Evaluate_shared_camera_counterexample :
    sampleState.scale 0 = 1 ∧
    (CostPanoramaPinHole.Evaluate sampleCamera sampleCost sampleParameters none
      sampleState)._intrinsic.scale 0 = 2 ∧
    (CostPanoramaPinHole.Evaluate sampleCamera sampleCost sampleParameters none
      sampleState)._intrinsic ≠ sampleState := by
  refine ⟨rfl, rfl, ?_⟩
  intro h
  have h0 := congrArg (fun st => PinholeState.scale st 0) h
  exact absurd h0 (by decide)

/-! ## The Jacobian blocks as derivatives -/

/-- `getJacobian_AB_wrt_A(A, B)` is the Jacobian of `A ↦ A·B`: applied to the vectorised
direction `V` it gives the vectorised `V·B`. -/
theorem getJacobian_AB_wrt_A_mulVec {α : Type} [CommRing α] (A B V : Mat3 α) :
    Matrix.mulVec (getJacobian_AB_wrt_A A B) (vecCM V) = vecCM (V * B) := by
  funext k
  fin_cases k <;>
    simp [Matrix.mulVec, Matrix.dotProduct, Fin.sum_univ_succ, getJacobian_AB_wrt_A, vecCM,
      Matrix.mul_apply, Fin.coe_ofNat_eq_mod] <;> ring

/-- `getJacobian_AB_wrt_B(A, B)` is the Jacobian of `B ↦ A·B`: applied to the vectorised
direction `V` it gives the vectorised `A·V`. -/
theorem getJacobian_AB_wrt_B_mulVec {α : Type} [CommRing α] (A B V : Mat3 α) :
    Matrix.mulVec (getJacobian_AB_wrt_B A B) (vecCM V) = vecCM (A * V) := by
  funext k
  fin_cases k <;>
    simp [Matrix.mulVec, Matrix.dotProduct, Fin.sum_univ_succ, getJacobian_AB_wrt_B, vecCM,
      Matrix.mul_apply, Fin.coe_ofNat_eq_mod]

/-- `getJacobian_At_wrt_A()` is the Jacobian of the transpose: applied to the vectorised `V` it
gives the vectorised `Vᵀ`. -/
theorem getJacobian_At_wrt_A_mulVec {α : Type} [CommRing α] (V : Mat3 α) :
    Matrix.mulVec (getJacobian_At_wrt_A : Matrix (Fin 9) (Fin 9) α) (vecCM V)
      = vecCM V.transpose := by
  funext k
  fin_cases k <;>
    simp [Matrix.mulVec, Matrix.dotProduct, Fin.sum_univ_succ, getJacobian_At_wrt_A, vecCM,
      Fin.coe_ofNat_eq_mod]

/-- The matrix unit `E_ab` vectorises to the unit vector number `a + 3 b`. -/
theorem vecCM_stdBasisMatrix {α : Type} [CommRing α] (a b : Fin 3) :
    vecCM (Matrix.stdBasisMatrix a b (1 : α)) = Pi.single ⟨a.val + 3 * b.val, by omega⟩ 1 := by
  funext k
  fin_cases a <;> fin_cases b <;> fin_cases k <;>
    simp [vecCM, Matrix.stdBasisMatrix, Pi.single_apply, Fin.ext_iff, Fin.coe_ofNat_eq_mod]

/-- The chain of lines 75–77 applied to a direction `W`: the derivative operator of the
camera applied to the vectorised `Rj · (W · Ri)ᵀ`. -/
theorem J9_i_mulVec {α : Type} [CommRing α] (cam : Pinhole α) (self : CostPanoramaPinHole α)
    (parameters : Fin 3 → Nat → α) (c : PinholeState α) (W : Mat3 α) :
    Matrix.mulVec (Evaluate.J9_i cam self parameters c) (vecCM W) =
      Matrix.mulVec
        (cam.getDerivativeTransformProjectWrtRotation c
          (Evaluate.T_pose3 parameters).getHomogeneous (Evaluate.pt_i_sphere cam self c))
        (vecCM (rotationBlock (parameters 1) *
          (W * rotationBlock (parameters 0)).transpose)) := by
  unfold Evaluate.J9_i
  rw [← Matrix.mulVec_mulVec, ← Matrix.mulVec_mulVec, ← Matrix.mulVec_mulVec,
    getJacobian_AB_wrt_A_mulVec, getJacobian_At_wrt_A_mulVec, getJacobian_AB_wrt_B_mulVec]

/-- The chain of lines 89–91 applied to a direction `W`: the derivative operator of the
camera applied to the vectorised `(W · Rj) · Riᵀ`. -/
theorem J9_j_mulVec {α : Type} [CommRing α] (cam : Pinhole α) (self : CostPanoramaPinHole α)
    (parameters : Fin 3 → Nat → α) (c : PinholeState α) (W : Mat3 α) :
    Matrix.mulVec (Evaluate.J9_j cam self parameters c) (vecCM W) =
      Matrix.mulVec
        (cam.getDerivativeTransformProjectWrtRotation c
          (Evaluate.T_pose3 parameters).getHomogeneous (Evaluate.pt_i_sphere cam self c))
        (vecCM ((W * rotationBlock (parameters 1)) *
          (rotationBlock (parameters 0)).transpose)) := by
  unfold Evaluate.J9_j
  rw [← Matrix.mulVec_mulVec, ← Matrix.mulVec_mulVec,
    getJacobian_AB_wrt_A_mulVec, getJacobian_AB_wrt_A_mulVec]

/-- Reading back the rotation sub-block that was written. -/
theorem rotationBlock_setRotationBlock {α : Type} (p : Nat → α) (M : Mat3 α) :
    rotationBlock (setRotationBlock p M) = M := by
  funext r c
  fin_cases r <;> fin_cases c <;> simp [rotationBlock, setRotationBlock]

/-- The replaced block. -/
theorem setBlock_same {α : Type} (P : Fin 3 → Nat → α) (b : Fin 3) (q : Nat → α) :
    setBlock P b q b = q := by
  simp [setBlock]

/-- The blocks that were not replaced. -/
theorem setBlock_other {α : Type} (P : Fin 3 → Nat → α) (b b2 : Fin 3) (q : Nat → α)
    (h : b2 ≠ b) : setBlock P b q b2 = P b2 := by
  simp [setBlock, h]

/-- The residual written by `Evaluate`, as an expression in the camera operators. -/
theorem residual_eq {α : Type} [CommRing α] (cam : Pinhole α) (self : CostPanoramaPinHole α)
    (P : Fin 3 → Nat → α) (intr : PinholeState α) (r : Fin 2) :
    Evaluate.residual cam self P intr r =
      cam.transformProject (Evaluate.camera (P 2) intr) (Evaluate.T_pose3 P)
        (Evaluate.pt_i_sphere cam self (Evaluate.camera (P 2) intr)) true r - self._fj r := by
  unfold Evaluate.residual
  rw [buffersAfter_residuals]
  fin_cases r
  · simp [Evaluate.pt_j_est]
  · simp [Evaluate.pt_j_est]

/-- In the layout of a pose block, position `4 b + a` of a row holds column `a + 3 b` of
`J9`. -/
theorem scatter_entry {α : Type} [Zero α] (J : Nat → α) (J9 : Matrix (Fin 2) (Fin 9) α)
    (h : IsPoseBlockScatter J J9) (r : Fin 2) (a b : Fin 3) :
    J (16 * r.val + (4 * b.val + a.val)) = J9 r ⟨a.val + 3 * b.val, by omega⟩ := by
  have hb : b.val = 0 ∨ b.val = 1 ∨ b.val = 2 := by omega
  rcases hb with hb | hb | hb
  · have := ((h r).1 a).1
    simp only [hb, Nat.mul_zero, Nat.zero_add, Nat.add_zero]
    exact this
  · have := ((h r).1 a).2.1
    simp only [hb, Nat.mul_one]
    rw [this]
    congr 1
    exact Fin.ext (Nat.add_comm _ _)
  · have := ((h r).1 a).2.2
    simp only [hb]
    rw [this]
    congr 1
    exact Fin.ext (Nat.add_comm _ _)

/-- Along every direction `W`, the residual has, under the perturbation
`Ri ← (I + t W) · Ri`, the derivative `J9_i · vec(W)` at `t = 0`. -/
theorem pose_i_derivative (cam : Pinhole ℝ) (self : CostPanoramaPinHole ℝ)
    (P : Fin 3 → Nat → ℝ) (intr : PinholeState ℝ)
    (hexact : RotationDerivativeExact cam (Evaluate.camera (P 2) intr)
      (rotationBlock (P 1) * (rotationBlock (P 0)).transpose)
      (Evaluate.pt_i_sphere cam self (Evaluate.camera (P 2) intr)))
    (W : Mat3 ℝ) (r : Fin 2) :
    HasDerivAt
      (fun t : ℝ => Evaluate.residual cam self
        (setBlock P 0 (setRotationBlock (P 0) ((1 + t • W) * rotationBlock (P 0)))) intr r)
      (Matrix.mulVec (Evaluate.J9_i cam self P (Evaluate.camera (P 2) intr)) (vecCM W) r) 0 := by
  have hfun : (fun t : ℝ => Evaluate.residual cam self
        (setBlock P 0 (setRotationBlock (P 0) ((1 + t • W) * rotationBlock (P 0)))) intr r) =
      fun t : ℝ => cam.transformProject (Evaluate.camera (P 2) intr)
        { rotation := rotationBlock (P 1) * (rotationBlock (P 0)).transpose +
            t • (rotationBlock (P 1) * (W * rotationBlock (P 0)).transpose),
          center := ![0, 0, 0] }
        (Evaluate.pt_i_sphere cam self (Evaluate.camera (P 2) intr)) true r - self._fj r := by
    funext t
    rw [residual_eq]
    have h2 : setBlock P 0 (setRotationBlock (P 0) ((1 + t • W) * rotationBlock (P 0))) 2 = P 2 :=
      setBlock_other _ _ _ _ (by decide)
    have hT : Evaluate.T_pose3
        (setBlock P 0 (setRotationBlock (P 0) ((1 + t • W) * rotationBlock (P 0)))) =
        { rotation := rotationBlock (P 1) * (rotationBlock (P 0)).transpose +
            t • (rotationBlock (P 1) * (W * rotationBlock (P 0)).transpose),
          center := ![0, 0, 0] } := by
      unfold Evaluate.T_pose3
      rw [setBlock_same, setBlock_other _ _ _ _ (by decide : (1 : Fin 3) ≠ 0),
        rotationBlock_setRotationBlock]
      congr 1
      simp only [Matrix.add_mul, Matrix.one_mul, Matrix.transpose_add, Matrix.mul_add,
        Matrix.smul_mul, Matrix.transpose_smul, Matrix.mul_smul]
    rw [h2, hT]
  rw [hfun, J9_i_mulVec]
  exact (hexact _ r).sub_const _

/-- Residual 0 of the quarter-turn example as a function of entry 8 of pose block `i`. -/
theorem quarterTurn_residual (x : ℝ) :
    Evaluate.residual (idealPinhole Real.sqrt) centreCost
      (setBlock quarterTurnParameters 0 (setEntry (quarterTurnParameters 0) 8 x)) unitState 0
      = x := by
  rw [residual_eq]
  simp [Evaluate.T_pose3, Evaluate.pt_i_sphere, Evaluate.pt_i_undist, Evaluate.pt_i_cam,
    Evaluate.camera, idealPinhole, centreCost, unitState, quarterTurnParameters, setBlock,
    setEntry, PinholeState.setScale, PinholeState.setOffset, PinholeState.setDistortionParamsFn,
    PinholeState.getParamsSize, PinholeState.getDistortionParamsSize, unitIntrinsics,
    homogeneous, Pose3.getHomogeneous, rotationBlock, quarterTurnPose, identityPose,
    Matrix.mulVec, Matrix.dotProduct, Fin.sum_univ_succ, Matrix.mul_apply]

/-- Column 6 of row 0 of `J9_i` in the quarter-turn example. -/
theorem quarterTurn_J9_i_entry :
    Evaluate.J9_i (idealPinhole Real.sqrt) centreCost (quarterTurnParameters : Fin 3 → Nat → ℝ)
      (Evaluate.camera (quarterTurnParameters 2) unitState) 0
      ⟨(0 : Fin 3).val + 3 * (2 : Fin 3).val, by decide⟩ = 0 := by
  have hcol := congrFun (J9_i_mulVec (idealPinhole Real.sqrt) centreCost
    (quarterTurnParameters : Fin 3 → Nat → ℝ) (Evaluate.camera (quarterTurnParameters 2) unitState)
    (Matrix.stdBasisMatrix 0 2 (1 : ℝ))) 0
  have hV : vecCM (rotationBlock ((quarterTurnParameters : Fin 3 → Nat → ℝ) 1) *
      (Matrix.stdBasisMatrix 0 2 (1 : ℝ) * rotationBlock (quarterTurnParameters 0)).transpose)
      = Pi.single 2 1 := by
    funext k
    fin_cases k <;>
      simp [vecCM, Matrix.mul_apply, Fin.sum_univ_succ, Matrix.stdBasisMatrix, rotationBlock,
        quarterTurnParameters, quarterTurnPose, identityPose, Pi.single_apply, Fin.ext_iff,
        Fin.coe_ofNat_eq_mod]
  rw [vecCM_stdBasisMatrix, Matrix.mulVec_single_one, hV, Matrix.mulVec_single_one] at hcol
  simp only [Matrix.transpose_apply] at hcol
  rw [hcol]
  simp [Evaluate.T_pose3, Evaluate.pt_i_sphere, Evaluate.pt_i_undist, Evaluate.pt_i_cam,
    Evaluate.camera, idealPinhole, centreCost, unitState, quarterTurnParameters,
    PinholeState.setScale, PinholeState.setOffset, PinholeState.setDistortionParamsFn,
    PinholeState.getParamsSize, PinholeState.getDistortionParamsSize, unitIntrinsics,
    homogeneous]

/-- The derivative of `homogeneous` along a curve is `Jhomogenous` applied to the derivative
of the curve. -/
theorem hasDerivAt_homogeneous (γ : ℝ → Vec3 ℝ) (γ' : Vec3 ℝ) (x : ℝ) (h : HasDerivAt γ γ' x) :
    HasDerivAt (fun y => homogeneous (γ y)) (Matrix.mulVec Jhomogenous γ') x := by
  rw [hasDerivAt_pi] at h ⊢
  intro i
  fin_cases i
  · simpa [homogeneous, Matrix.mulVec, Matrix.dotProduct, Fin.sum_univ_succ, Jhomogenous]
      using h 0
  · simpa [homogeneous, Matrix.mulVec, Matrix.dotProduct, Fin.sum_univ_succ, Jhomogenous]
      using h 1
  · simpa [homogeneous, Matrix.mulVec, Matrix.dotProduct, Fin.sum_univ_succ, Jhomogenous]
      using h 2
  · simpa [homogeneous, Matrix.mulVec, Matrix.dotProduct, Fin.sum_univ_succ, Jhomogenous,
      Fin.coe_ofNat_eq_mod] using hasDerivAt_const x (1 : ℝ)


/-- Replacing an entry by itself changes nothing. -/
theorem setEntry_self {α : Type} (p : Nat → α) (k : Nat) : setEntry p k (p k) = p := by
  funext i
  unfold setEntry
  by_cases h : i = k
  · rw [if_pos h, h]
  · rw [if_neg h]

/-- An entry of a matrix product is the entry of the product with a column. -/
theorem mul_apply_eq_mulVec {n : Nat} {ι : Type} (A : Matrix (Fin 2) (Fin n) ℝ)
    (B : Matrix (Fin n) ι ℝ) (r : Fin 2) (j : ι) :
    (A * B) r j = Matrix.mulVec A (fun i => B i j) r := rfl

/-- For a camera that meets the derivative contract, the entry `(r, k)` assembled for the
intrinsics block is the derivative of residual `r` with respect to entry `k` of the
intrinsics vector (chain rule through `ima2cam`, `removeDistortion`, `toUnitSphere`,
`homogeneous`, `transformProject`). -/
theorem intrinsics_derivative (cam : Pinhole ℝ) (self : CostPanoramaPinHole ℝ)
    (P : Fin 3 → Nat → ℝ) (intr : PinholeState ℝ)
    (hexact : IntrinsicsDerivativesExact cam self P intr) (k : Nat)
    (hk : k < intr.getParamsSize) (r : Fin 2) :
    HasDerivAt
      (fun x : ℝ => Evaluate.residual cam self (setBlock P 2 (setEntry (P 2) k x)) intr r)
      (Evaluate.intrinsicsEntry cam self P (Evaluate.camera (P 2) intr) r k) (P 2 k) := by
  rcases hexact k hk with ⟨h1, h2, h3, h4⟩
  have e0 : Evaluate.camera (setEntry (P 2) k (P 2 k)) intr = Evaluate.camera (P 2) intr := by
    rw [setEntry_self]
  have g2 := h2 _ _ h1 (by simp only [e0]; rfl)
  have g3 := h3 _ _ g2 (by simp only [e0]; rfl)
  have g4 := hasDerivAt_homogeneous _ _ _ g3
  have g5 := h4 _ _ g4 (by simp only [e0]; rfl)
  have hfun : (fun x : ℝ => Evaluate.residual cam self (setBlock P 2 (setEntry (P 2) k x))
      intr r) =
      fun x : ℝ => cam.transformProject (Evaluate.camera (setEntry (P 2) k x) intr)
        (Evaluate.T_pose3 P)
        (homogeneous (cam.toUnitSphere (Evaluate.camera (setEntry (P 2) k x) intr)
          (cam.removeDistortion (Evaluate.camera (setEntry (P 2) k x) intr)
            (cam.ima2cam (Evaluate.camera (setEntry (P 2) k x) intr) self._fi)))) true r
        - self._fj r := by
    funext x
    rw [residual_eq, setBlock_same]
    rfl
  rw [hfun]
  have g6 := ((hasDerivAt_pi.1 g5) r).sub_const (self._fj r)
  convert g6 using 1
  unfold Evaluate.intrinsicsEntry Evaluate.Jscale Evaluate.Jpp Evaluate.Jdisto
    Evaluate.chainToUndist
  have hc : ∀ {n : Nat} (M : Matrix (Fin 2) (Fin n) ℝ) (j : Nat) (h : j < n),
      column M j = fun i => M i ⟨j, h⟩ := by
    intro n M j h
    funext i
    simp [column, h]
  by_cases hk2 : k < 2
  · simp only [hk2, if_true, (by omega : k < 4), block22, dif_pos, Pi.add_apply,
      Matrix.add_apply, zero_add, hc (n := 2) _ k hk2]
    congr 1
    rw [mul_apply_eq_mulVec, ← Matrix.mulVec_mulVec, ← Matrix.mulVec_mulVec,
      ← Matrix.mulVec_mulVec]
  · by_cases hk4 : k < 4
    · simp only [hk2, if_false, hk4, if_true, block22, (by omega : k - 2 < 2), dif_pos,
        Pi.add_apply, Matrix.add_apply, zero_add, hc (n := 2) _ (k - 2) (by omega)]
      congr 1
      rw [mul_apply_eq_mulVec, ← Matrix.mulVec_mulVec, ← Matrix.mulVec_mulVec,
        ← Matrix.mulVec_mulVec]
    · simp only [hk2, if_false, hk4, Pi.add_apply, Matrix.add_apply, Matrix.mulVec_zero,
        add_zero]
      congr 1
      rw [mul_apply_eq_mulVec, ← Matrix.mulVec_mulVec, ← Matrix.mulVec_mulVec]


/-- A homogeneous point transformed by a pose with centre zero. -/
theorem getHomogeneous_mulVec (R : Mat3 ℝ) (pt : Vec4 ℝ) :
    Matrix.mulVec (Pose3.getHomogeneous { rotation := R, center := ![0, 0, 0] }) pt =
      ![R 0 0 * pt 0 + R 0 1 * pt 1 + R 0 2 * pt 2,
        R 1 0 * pt 0 + R 1 1 * pt 1 + R 1 2 * pt 2,
        R 2 0 * pt 0 + R 2 1 * pt 1 + R 2 2 * pt 2,
        pt 3] := by
  funext m
  fin_cases m <;>
    simp [Pose3.getHomogeneous, Matrix.mulVec, Matrix.dotProduct, Fin.sum_univ_succ,
      Fin.coe_ofNat_eq_mod] <;> first | rfl | ring

/-- The pinhole camera without distortion meets the rotation derivative contract wherever
the transformed point has non-zero depth. -/
theorem idealPinhole_rotation_exact (c : PinholeState ℝ) (R : Mat3 ℝ) (pt : Vec4 ℝ)
    (hz : R 2 0 * pt 0 + R 2 1 * pt 1 + R 2 2 * pt 2 ≠ 0) :
    RotationDerivativeExact (idealPinhole Real.sqrt) c R pt := by
  intro V r
  have hX : ∀ m : Fin 3, HasDerivAt
      (fun t : ℝ => (R + t • V) m 0 * pt 0 + (R + t • V) m 1 * pt 1 + (R + t • V) m 2 * pt 2)
      (V m 0 * pt 0 + V m 1 * pt 1 + V m 2 * pt 2) 0 := by
    intro m
    have h : (fun t : ℝ => (R + t • V) m 0 * pt 0 + (R + t • V) m 1 * pt 1
        + (R + t • V) m 2 * pt 2) =
        fun t : ℝ => (R m 0 * pt 0 + R m 1 * pt 1 + R m 2 * pt 2) +
          t * (V m 0 * pt 0 + V m 1 * pt 1 + V m 2 * pt 2) := by
      funext t
      simp only [Matrix.add_apply, Matrix.smul_apply, smul_eq_mul]
      ring
    rw [h]
    simpa using ((hasDerivAt_id (0 : ℝ)).mul_const
      (V m 0 * pt 0 + V m 1 * pt 1 + V m 2 * pt 2)).const_add
      (R m 0 * pt 0 + R m 1 * pt 1 + R m 2 * pt 2)
  have hz0 : (R + (0 : ℝ) • V) 2 0 * pt 0 + (R + (0 : ℝ) • V) 2 1 * pt 1
      + (R + (0 : ℝ) • V) 2 2 * pt 2 ≠ 0 := by
    simpa using hz
  have hfun : ∀ r : Fin 2, (fun t : ℝ => (idealPinhole Real.sqrt).transformProject c
      { rotation := R + t • V, center := ![0, 0, 0] } pt true r) =
      fun t : ℝ => c.scale r *
        (((R + t • V) (Fin.castSucc r) 0 * pt 0 + (R + t • V) (Fin.castSucc r) 1 * pt 1
            + (R + t • V) (Fin.castSucc r) 2 * pt 2) /
          ((R + t • V) 2 0 * pt 0 + (R + t • V) 2 1 * pt 1 + (R + t • V) 2 2 * pt 2))
        + c.offset r := by
    intro r
    funext t
    simp only [idealPinhole]
    rw [getHomogeneous_mulVec]
    fin_cases r <;> rfl
  have hd := (((hX (Fin.castSucc r)).div (hX 2) hz0).const_mul (c.scale r)).add_const (c.offset r)
  rw [hfun r]
  convert hd using 1
  simp only [idealPinhole, Matrix.of_apply]
  rw [getHomogeneous_mulVec]
  fin_cases r
  · simp [Fin.sum_univ_succ, vecCM, Fin.coe_ofNat_eq_mod]
    generalize R 2 0 * pt 0 + R 2 1 * pt 1 + R 2 2 * pt 2 = Z at hz
    field_simp
    ring
  · have hc1 : ∀ h : 2 ≤ 4, Fin.castLE h (1 : Fin 2) = (1 : Fin 4) := fun _ => rfl
    simp [Fin.sum_univ_succ, vecCM, Fin.coe_ofNat_eq_mod, hc1]
    generalize R 2 0 * pt 0 + R 2 1 * pt 1 + R 2 2 * pt 2 = Z at hz
    field_simp
    ring


/-- The scale of the camera configured from an intrinsics block. -/
theorem camera_scale (q : Nat → ℝ) (intr : PinholeState ℝ) :
    (Evaluate.camera q intr).scale = ![q 0, q 1] := rfl

/-- The offset of the camera configured from an intrinsics block. -/
theorem camera_offset (q : Nat → ℝ) (intr : PinholeState ℝ) :
    (Evaluate.camera q intr).offset = ![q 2, q 3] := rfl

/-- The pinhole camera without distortion: derivative of `ima2cam` with respect to each of
the four intrinsic parameters. -/
theorem idealPinhole_ima2cam_exact (self : CostPanoramaPinHole ℝ) (p : Nat → ℝ)
    (intr : PinholeState ℝ) (h0 : p 0 ≠ 0) (h1 : p 1 ≠ 0) (k : Nat) (hk : k < 4) :
    HasDerivAt
      (fun x : ℝ => (idealPinhole Real.sqrt).ima2cam
        (Evaluate.camera (setEntry p k x) intr) self._fi)
      (if k < 2 then
          column ((idealPinhole Real.sqrt).getDerivativeIma2CamWrtScale
            (Evaluate.camera p intr) self._fi) k
        else if k < 4 then
          column ((idealPinhole Real.sqrt).getDerivativeIma2CamWrtPrincipalPoint
            (Evaluate.camera p intr)) (k - 2)
        else 0)
      (p k) := by
  rw [hasDerivAt_pi]
  intro r
  simp only [idealPinhole, camera_scale, camera_offset, setEntry]
  interval_cases k <;> fin_cases r
  all_goals simp [column]
  · convert (hasDerivAt_const (p 0) (self._fi 0 - p 2)).div (hasDerivAt_id (p 0)) h0 using 1
    simp only [id]
    ring
  · exact hasDerivAt_const _ _
  · exact hasDerivAt_const _ _
  · convert (hasDerivAt_const (p 1) (self._fi 1 - p 3)).div (hasDerivAt_id (p 1)) h1 using 1
    simp only [id]
    ring
  · convert ((hasDerivAt_const (p 2) (self._fi 0)).sub (hasDerivAt_id (p 2))).div_const (p 0)
      using 1
    simp
  · exact hasDerivAt_const _ _
  · exact hasDerivAt_const _ _
  · convert ((hasDerivAt_const (p 3) (self._fi 1)).sub (hasDerivAt_id (p 3))).div_const (p 1)
      using 1
    simp

/-- The pinhole camera without distortion: `removeDistortion` is the identity. -/
theorem idealPinhole_removeDistortion_exact (self : CostPanoramaPinHole ℝ) (p : Nat → ℝ)
    (intr : PinholeState ℝ) (k : Nat) (hk : k < 4) (γ : ℝ → Vec2 ℝ) (γ' : Vec2 ℝ)
    (hγ : HasDerivAt γ γ' (p k)) :
    HasDerivAt
      (fun x : ℝ => (idealPinhole Real.sqrt).removeDistortion
        (Evaluate.camera (setEntry p k x) intr) (γ x))
      ((if k < 4 then 0
        else fun r => (idealPinhole Real.sqrt).getDerivativeRemoveDistoWrtDisto
          (Evaluate.camera p intr)
          (Evaluate.pt_i_cam (idealPinhole Real.sqrt) self (Evaluate.camera p intr)) r (k - 4)) +
        Matrix.mulVec ((idealPinhole Real.sqrt).getDerivativeRemoveDistoWrtPt
          (Evaluate.camera p intr)
          (Evaluate.pt_i_cam (idealPinhole Real.sqrt) self (Evaluate.camera p intr))) γ')
      (p k) := by
  simp only [idealPinhole, hk, if_true, zero_add, Matrix.one_mulVec]
  exact hγ

/-- The pinhole camera without distortion: derivative of the normalisation
`(x, y) ↦ (x, y, 1) / ‖(x, y, 1)‖` along a curve. -/
theorem idealPinhole_toUnitSphere_exact (p : Nat → ℝ) (intr : PinholeState ℝ) (k : Nat)
    (u : Vec2 ℝ) (γ : ℝ → Vec2 ℝ) (γ' : Vec2 ℝ) (hγ : HasDerivAt γ γ' (p k))
    (hu : γ (p k) = u) :
    HasDerivAt
      (fun x : ℝ => (idealPinhole Real.sqrt).toUnitSphere
        (Evaluate.camera (setEntry p k x) intr) (γ x))
      (Matrix.mulVec ((idealPinhole Real.sqrt).getDerivativetoUnitSphereWrtPoint
          (Evaluate.camera p intr) u) γ')
      (p k) := by
  have hγ0 := (hasDerivAt_pi.1 hγ) 0
  have hγ1 := (hasDerivAt_pi.1 hγ) 1
  have hq : HasDerivAt (fun x => γ x 0 * γ x 0 + γ x 1 * γ x 1 + 1)
      (γ' 0 * γ (p k) 0 + γ (p k) 0 * γ' 0 + (γ' 1 * γ (p k) 1 + γ (p k) 1 * γ' 1)) (p k) :=
    ((hγ0.mul hγ0).add (hγ1.mul hγ1)).add_const 1
  have hpos : 0 < γ (p k) 0 * γ (p k) 0 + γ (p k) 1 * γ (p k) 1 + 1 := by
    nlinarith [mul_self_nonneg (γ (p k) 0), mul_self_nonneg (γ (p k) 1)]
  have hn := hq.sqrt (ne_of_gt hpos)
  have hnz : Real.sqrt (γ (p k) 0 * γ (p k) 0 + γ (p k) 1 * γ (p k) 1 + 1) ≠ 0 :=
    ne_of_gt (Real.sqrt_pos.2 hpos)
  have hsq := Real.mul_self_sqrt (le_of_lt hpos)
  rw [hasDerivAt_pi]
  intro i
  simp only [idealPinhole]
  have hd0 := hγ0.div hn hnz
  have hd1 := hγ1.div hn hnz
  have hd2 := (hasDerivAt_const (p k) (1 : ℝ)).div hn hnz
  generalize hnn : Real.sqrt (γ (p k) 0 * γ (p k) 0 + γ (p k) 1 * γ (p k) 1 + 1) = n at *
  fin_cases i
  · convert hd0 using 1
    simp [Matrix.mulVec, Matrix.dotProduct, Fin.sum_univ_succ, ← hu, hnn]
    rw [← hsq]
    field_simp
    ring
  · convert hd1 using 1
    simp [Matrix.mulVec, Matrix.dotProduct, Fin.sum_univ_succ, ← hu, hnn]
    rw [← hsq]
    field_simp
    ring
  · convert hd2 using 1
    simp [Matrix.mulVec, Matrix.dotProduct, Fin.sum_univ_succ, ← hu, hnn]
    rw [← hsq]
    field_simp
    ring


/-- Derivative of an entry of the parameter block with respect to the varied entry. -/
theorem hasDerivAt_setEntry (p : Nat → ℝ) (k j : Nat) :
    HasDerivAt (fun x : ℝ => setEntry p k x j) (if j = k then 1 else 0) (p k) := by
  unfold setEntry
  by_cases h : j = k
  · simp only [h, if_true]
    exact hasDerivAt_id _
  · simp only [h, if_false]
    exact hasDerivAt_const _ _

set_option maxHeartbeats 4000000 in
/-- The pinhole camera without distortion: derivative of `transformProject` with respect to
each of the four intrinsic parameters and along a curve of input points. -/
theorem idealPinhole_transformProject_exact (p : Nat → ℝ) (intr : PinholeState ℝ) (k : Nat)
    (hk : k < 4) (R : Mat3 ℝ) (w : Vec4 ℝ) (γ : ℝ → Vec4 ℝ) (γ' : Vec4 ℝ)
    (hγ : HasDerivAt γ γ' (p k)) (hw : γ (p k) = w)
    (hz : R 2 0 * w 0 + R 2 1 * w 1 + R 2 2 * w 2 ≠ 0) :
    HasDerivAt
      (fun x : ℝ => (idealPinhole Real.sqrt).transformProject
        (Evaluate.camera (setEntry p k x) intr) { rotation := R, center := ![0, 0, 0] }
        (γ x) true)
      ((if k < 2 then
          column ((idealPinhole Real.sqrt).getDerivativeTransformProjectWrtScale
            (Evaluate.camera p intr)
            (Pose3.getHomogeneous { rotation := R, center := ![0, 0, 0] }) w) k
        else if k < 4 then
          column ((idealPinhole Real.sqrt).getDerivativeTransformProjectWrtPrincipalPoint
            (Evaluate.camera p intr)
            (Pose3.getHomogeneous { rotation := R, center := ![0, 0, 0] }) w) (k - 2)
        else fun r => (idealPinhole Real.sqrt).getDerivativeTransformProjectWrtDisto
            (Evaluate.camera p intr)
            (Pose3.getHomogeneous { rotation := R, center := ![0, 0, 0] }) w r (k - 4)) +
        Matrix.mulVec ((idealPinhole Real.sqrt).getDerivativeTransformProjectWrtPoint
          (Evaluate.camera p intr)
          (Pose3.getHomogeneous { rotation := R, center := ![0, 0, 0] }) w) γ')
      (p k) := by
  have hX : ∀ m : Fin 3, HasDerivAt
      (fun x : ℝ => R m 0 * γ x 0 + R m 1 * γ x 1 + R m 2 * γ x 2)
      (R m 0 * γ' 0 + R m 1 * γ' 1 + R m 2 * γ' 2) (p k) := by
    intro m
    exact ((((hasDerivAt_pi.1 hγ) 0).const_mul (R m 0)).add
      (((hasDerivAt_pi.1 hγ) 1).const_mul (R m 1))).add
      (((hasDerivAt_pi.1 hγ) 2).const_mul (R m 2))
  have hz0 : R 2 0 * γ (p k) 0 + R 2 1 * γ (p k) 1 + R 2 2 * γ (p k) 2 ≠ 0 := by
    rw [hw]
    exact hz
  rw [hasDerivAt_pi]
  intro r
  have hfun : (fun x : ℝ => (idealPinhole Real.sqrt).transformProject
        (Evaluate.camera (setEntry p k x) intr) { rotation := R, center := ![0, 0, 0] }
        (γ x) true r) =
      fun x : ℝ => setEntry p k x r.val *
        ((R (Fin.castSucc r) 0 * γ x 0 + R (Fin.castSucc r) 1 * γ x 1
            + R (Fin.castSucc r) 2 * γ x 2) /
          (R 2 0 * γ x 0 + R 2 1 * γ x 1 + R 2 2 * γ x 2))
        + setEntry p k x (2 + r.val) := by
    funext x
    simp only [idealPinhole, camera_scale, camera_offset]
    rw [getHomogeneous_mulVec]
    fin_cases r <;> rfl
  have hd := ((hasDerivAt_setEntry p k r.val).mul ((hX (Fin.castSucc r)).div (hX 2) hz0)).add
    (hasDerivAt_setEntry p k (2 + r.val))
  rw [hfun]
  convert hd using 1
  simp only [Pi.add_apply, idealPinhole, camera_scale, camera_offset, hw]
  rw [getHomogeneous_mulVec]
  have hc1 : ∀ h : 2 ≤ 4, Fin.castLE h (1 : Fin 2) = (1 : Fin 4) := fun _ => rfl
  interval_cases k <;> fin_cases r
  all_goals simp [column, Matrix.mulVec, Matrix.dotProduct, Fin.sum_univ_succ, setEntry, hc1,
    Pose3.getHomogeneous, Fin.coe_ofNat_eq_mod]
  all_goals generalize R 2 0 * w 0 + R 2 1 * w 1 + R 2 2 * w 2 = Z at hz
  all_goals field_simp
  all_goals ring


/-- Along every direction `W`, the residual has, under the perturbation
`Rj ← (I + t W) · Rj`, the derivative `J9_j · vec(W)` at `t = 0`. -/
theorem pose_j_derivative (cam : Pinhole ℝ) (self : CostPanoramaPinHole ℝ)
    (P : Fin 3 → Nat → ℝ) (intr : PinholeState ℝ)
    (hexact : RotationDerivativeExact cam (Evaluate.camera (P 2) intr)
      (rotationBlock (P 1) * (rotationBlock (P 0)).transpose)
      (Evaluate.pt_i_sphere cam self (Evaluate.camera (P 2) intr)))
    (W : Mat3 ℝ) (r : Fin 2) :
    HasDerivAt
      (fun t : ℝ => Evaluate.residual cam self
        (setBlock P 1 (setRotationBlock (P 1) ((1 + t • W) * rotationBlock (P 1)))) intr r)
      (Matrix.mulVec (Evaluate.J9_j cam self P (Evaluate.camera (P 2) intr)) (vecCM W) r) 0 := by
  have hfun : (fun t : ℝ => Evaluate.residual cam self
        (setBlock P 1 (setRotationBlock (P 1) ((1 + t • W) * rotationBlock (P 1)))) intr r) =
      fun t : ℝ => cam.transformProject (Evaluate.camera (P 2) intr)
        { rotation := rotationBlock (P 1) * (rotationBlock (P 0)).transpose +
            t • ((W * rotationBlock (P 1)) * (rotationBlock (P 0)).transpose),
          center := ![0, 0, 0] }
        (Evaluate.pt_i_sphere cam self (Evaluate.camera (P 2) intr)) true r - self._fj r := by
    funext t
    rw [residual_eq]
    have h2 : setBlock P 1 (setRotationBlock (P 1) ((1 + t • W) * rotationBlock (P 1))) 2 = P 2 :=
      setBlock_other _ _ _ _ (by decide)
    have hT : Evaluate.T_pose3
        (setBlock P 1 (setRotationBlock (P 1) ((1 + t • W) * rotationBlock (P 1)))) =
        { rotation := rotationBlock (P 1) * (rotationBlock (P 0)).transpose +
            t • ((W * rotationBlock (P 1)) * (rotationBlock (P 0)).transpose),
          center := ![0, 0, 0] } := by
      unfold Evaluate.T_pose3
      rw [setBlock_same, setBlock_other _ _ _ _ (by decide : (0 : Fin 3) ≠ 1),
        rotationBlock_setRotationBlock]
      congr 1
      simp only [Matrix.add_mul, Matrix.one_mul, Matrix.smul_mul]
    rw [h2, hT]
  rw [hfun, J9_j_mulVec]
  exact (hexact _ r).sub_const _

/-- The entries 3, 7, 11, 12–15 of a pose block lie outside its rotation sub-block. -/
theorem rotationBlock_setEntry {α : Type} (p : Nat → α) (c : Nat) (x : α)
    (hc : c ∈ [3, 7, 11, 12, 13, 14, 15]) :
    rotationBlock (setEntry p c x) = rotationBlock p := by
  funext r k
  simp only [List.mem_cons, List.mem_singleton, List.not_mem_nil, or_false] at hc
  have hr := r.isLt
  have hk := k.isLt
  simp only [rotationBlock, setEntry, Matrix.of_apply]
  rw [if_neg]
  omega

/-- The residual does not depend on the entries 3, 7, 11, 12–15 of a pose block. -/
theorem residual_pose_setEntry (cam : Pinhole ℝ) (self : CostPanoramaPinHole ℝ)
    (P : Fin 3 → Nat → ℝ) (intr : PinholeState ℝ) (b : Fin 3) (hb : b = 0 ∨ b = 1) (c : Nat)
    (hc : c ∈ [3, 7, 11, 12, 13, 14, 15]) (x : ℝ) :
    Evaluate.residual cam self (setBlock P b (setEntry (P b) c x)) intr =
      Evaluate.residual cam self P intr := by
  funext r
  rw [residual_eq, residual_eq]
  have h2 : setBlock P b (setEntry (P b) c x) 2 = P 2 := by
    rcases hb with rfl | rfl <;> exact setBlock_other _ _ _ _ (by decide)
  have hT : Evaluate.T_pose3 (setBlock P b (setEntry (P b) c x)) = Evaluate.T_pose3 P := by
    unfold Evaluate.T_pose3
    rcases hb with rfl | rfl
    · rw [setBlock_same, setBlock_other _ _ _ _ (by decide : (1 : Fin 3) ≠ 0),
        rotationBlock_setEntry _ _ _ hc]
    · rw [setBlock_same, setBlock_other _ _ _ _ (by decide : (0 : Fin 3) ≠ 1),
        rotationBlock_setEntry _ _ _ hc]
  rw [h2, hT]


/-- Entry `(r, 4 b + a)` of a requested pose block is entry `(r, a + 3 b)` of its `J9`. -/
theorem buffersAfter_pose_entry {α : Type} [CommRing α] (cam : Pinhole α)
    (self : CostPanoramaPinHole α) (parameters : Fin 3 → Nat → α) (jac : Fin 3 → Bool)
    (_intrinsic : PinholeState α) (m : Memory α) (r : Fin 2) (a b : Fin 3) :
    (jac 0 = true →
      CostPanoramaPinHole.buffersAfter cam self parameters (some jac) _intrinsic m
          (Target.jacobian 0) (16 * r.val + (4 * b.val + a.val)) =
        Evaluate.J9_i cam self parameters (Evaluate.camera (parameters 2) _intrinsic) r
          ⟨a.val + 3 * b.val, by omega⟩) ∧
    (jac 1 = true →
      CostPanoramaPinHole.buffersAfter cam self parameters (some jac) _intrinsic m
          (Target.jacobian 1) (16 * r.val + (4 * b.val + a.val)) =
        Evaluate.J9_j cam self parameters (Evaluate.camera (parameters 2) _intrinsic) r
          ⟨a.val + 3 * b.val, by omega⟩) := by
  constructor
  · intro h0
    rw [buffersAfter_jacobian0 _ _ _ _ _ _ h0]
    exact scatter_entry _ _ (scatterPoseJacobian_layout _ _ _) r a b
  · intro h1
    rw [buffersAfter_jacobian1 _ _ _ _ _ _ h1]
    exact scatter_entry _ _ (scatterPoseJacobian_layout _ _ _) r a b

/-- Entry `(r, c)` of a requested pose block is zero for `c = 3, 7, 11, 12, …, 15`. -/
theorem buffersAfter_pose_zero {α : Type} [CommRing α] (cam : Pinhole α)
    (self : CostPanoramaPinHole α) (parameters : Fin 3 → Nat → α) (jac : Fin 3 → Bool)
    (_intrinsic : PinholeState α) (m : Memory α) (r : Fin 2) (c : Nat)
    (hc : c ∈ [3, 7, 11, 12, 13, 14, 15]) :
    (jac 0 = true →
      CostPanoramaPinHole.buffersAfter cam self parameters (some jac) _intrinsic m
          (Target.jacobian 0) (16 * r.val + c) = 0) ∧
    (jac 1 = true →
      CostPanoramaPinHole.buffersAfter cam self parameters (some jac) _intrinsic m
          (Target.jacobian 1) (16 * r.val + c) = 0) := by
  constructor
  · intro h0
    rw [buffersAfter_jacobian0 _ _ _ _ _ _ h0]
    exact ((scatterPoseJacobian_layout _ _ _) r).2 c hc
  · intro h1
    rw [buffersAfter_jacobian1 _ _ _ _ _ _ h1]
    exact ((scatterPoseJacobian_layout _ _ _) r).2 c hc

/-- Column `a + 3 b` of `J9` is `J9` applied to the vectorised matrix unit `E_ab`. -/
theorem J9_entry_eq_mulVec {α : Type} [CommRing α] (J9 : Matrix (Fin 2) (Fin 9) α)
    (r : Fin 2) (a b : Fin 3) :
    J9 r ⟨a.val + 3 * b.val, by omega⟩ =
      Matrix.mulVec J9 (vecCM (Matrix.stdBasisMatrix a b (1 : α))) r := by
  rw [vecCM_stdBasisMatrix, Matrix.mulVec_single_one]
  rfl

/-- C9 (as amended): for a camera whose derivative operators are exact at the operating
point (`RotationDerivativeExact`, `IntrinsicsDerivativesExact`) and whose intrinsics have the
layout scale, principal point, distortion:
* entry `(r, 4 b + a)` of pose block 0 (resp. 1) is the derivative, at `t = 0`, of residual
  `r` when the rotation `Ri` (resp. `Rj`) is replaced by `(I + t E_ab) · Ri`
  (resp. `(I + t E_ab) · Rj`), `E_ab` being the matrix unit with a one at row `a`, column
  `b`: the block is the derivative with respect to a left-multiplied perturbation of the
  rotation, taken at the identity and vectorised column by column;
* the entries `(r, c)` with `c = 3, 7, 11, 12, …, 15` of the pose blocks are the derivative
  of residual `r` with respect to entry `c` of the pose block (both are zero);
* entry `(r, k)` of block 2 is the derivative of residual `r` with respect to entry `k` of
  the intrinsics vector. -/
theorem Evaluate_jacobian_blocks_are_derivatives (cam : Pinhole ℝ)
    (self : CostPanoramaPinHole ℝ) (parameters : Fin 3 → Nat → ℝ) (jac : Fin 3 → Bool)
    (_intrinsic : PinholeState ℝ) (m : Memory ℝ)
    (hrot : RotationDerivativeExact cam (Evaluate.camera (parameters 2) _intrinsic)
      (rotationBlock (parameters 1) * (rotationBlock (parameters 0)).transpose)
      (Evaluate.pt_i_sphere cam self (Evaluate.camera (parameters 2) _intrinsic)))
    (hintr : IntrinsicsDerivativesExact cam self parameters _intrinsic)
    (hlayout : _intrinsic.getParamsSize = 4 + _intrinsic.getDistortionParamsSize) :
    (jac 0 = true → ∀ r : Fin 2,
      (∀ a b : Fin 3, HasDerivAt
        (fun t : ℝ => Evaluate.residual cam self
          (setBlock parameters 0 (setRotationBlock (parameters 0)
            ((1 + t • Matrix.stdBasisMatrix a b (1 : ℝ)) * rotationBlock (parameters 0))))
          _intrinsic r)
        (CostPanoramaPinHole.buffersAfter cam self parameters (some jac) _intrinsic m
          (Target.jacobian 0) (16 * r.val + (4 * b.val + a.val))) 0) ∧
      (∀ c : Nat, c ∈ [3, 7, 11, 12, 13, 14, 15] → HasDerivAt
        (fun x : ℝ => Evaluate.residual cam self
          (setBlock parameters 0 (setEntry (parameters 0) c x)) _intrinsic r)
        (CostPanoramaPinHole.buffersAfter cam self parameters (some jac) _intrinsic m
          (Target.jacobian 0) (16 * r.val + c)) (parameters 0 c))) ∧
    (jac 1 = true → ∀ r : Fin 2,
      (∀ a b : Fin 3, HasDerivAt
        (fun t : ℝ => Evaluate.residual cam self
          (setBlock parameters 1 (setRotationBlock (parameters 1)
            ((1 + t • Matrix.stdBasisMatrix a b (1 : ℝ)) * rotationBlock (parameters 1))))
          _intrinsic r)
        (CostPanoramaPinHole.buffersAfter cam self parameters (some jac) _intrinsic m
          (Target.jacobian 1) (16 * r.val + (4 * b.val + a.val))) 0) ∧
      (∀ c : Nat, c ∈ [3, 7, 11, 12, 13, 14, 15] → HasDerivAt
        (fun x : ℝ => Evaluate.residual cam self
          (setBlock parameters 1 (setEntry (parameters 1) c x)) _intrinsic r)
        (CostPanoramaPinHole.buffersAfter cam self parameters (some jac) _intrinsic m
          (Target.jacobian 1) (16 * r.val + c)) (parameters 1 c))) ∧
    (jac 2 = true → ∀ (r : Fin 2) (k : Nat), k < _intrinsic.getParamsSize → HasDerivAt
        (fun x : ℝ => Evaluate.residual cam self
          (setBlock parameters 2 (setEntry (parameters 2) k x)) _intrinsic r)
        (CostPanoramaPinHole.buffersAfter cam self parameters (some jac) _intrinsic m
          (Target.jacobian 2) (r.val * _intrinsic.getParamsSize + k)) (parameters 2 k)) := by
  refine ⟨?_, ?_, ?_⟩
  · intro h0 r
    constructor
    · intro a b
      rw [(buffersAfter_pose_entry cam self parameters jac _intrinsic m r a b).1 h0,
        J9_entry_eq_mulVec (Evaluate.J9_i cam self parameters
          (Evaluate.camera (parameters 2) _intrinsic)) r a b]
      exact pose_i_derivative cam self parameters _intrinsic hrot _ r
    · intro c hc
      rw [(buffersAfter_pose_zero cam self parameters jac _intrinsic m r c hc).1 h0]
      have hconst : (fun x : ℝ => Evaluate.residual cam self
          (setBlock parameters 0 (setEntry (parameters 0) c x)) _intrinsic r) =
          fun _ => Evaluate.residual cam self parameters _intrinsic r := by
        funext x
        rw [residual_pose_setEntry cam self parameters _intrinsic 0 (Or.inl rfl) c hc x]
      rw [hconst]
      exact hasDerivAt_const _ _
  · intro h1 r
    constructor
    · intro a b
      rw [(buffersAfter_pose_entry cam self parameters jac _intrinsic m r a b).2 h1,
        J9_entry_eq_mulVec (Evaluate.J9_j cam self parameters
          (Evaluate.camera (parameters 2) _intrinsic)) r a b]
      exact pose_j_derivative cam self parameters _intrinsic hrot _ r
    · intro c hc
      rw [(buffersAfter_pose_zero cam self parameters jac _intrinsic m r c hc).2 h1]
      have hconst : (fun x : ℝ => Evaluate.residual cam self
          (setBlock parameters 1 (setEntry (parameters 1) c x)) _intrinsic r) =
          fun _ => Evaluate.residual cam self parameters _intrinsic r := by
        funext x
        rw [residual_pose_setEntry cam self parameters _intrinsic 1 (Or.inr rfl) c hc x]
      rw [hconst]
      exact hasDerivAt_const _ _
  · intro h2 r k hk
    rw [buffersAfter_jacobian2 cam self parameters jac _intrinsic m h2 hlayout r k hk]
    exact intrinsics_derivative cam self parameters _intrinsic hintr k hk r


/-- The pinhole camera without distortion (four intrinsic parameters, non-zero scale)
meets the derivative contract with respect to the intrinsics wherever the transformed
point has non-zero depth. -/
theorem idealPinhole_intrinsics_exact (self : CostPanoramaPinHole ℝ)
    (P : Fin 3 → Nat → ℝ) (intr : PinholeState ℝ) (hps : intr.getParamsSize = 4)
    (h0 : P 2 0 ≠ 0) (h1 : P 2 1 ≠ 0)
    (hz : (Evaluate.T_pose3 P).rotation 2 0 *
          Evaluate.pt_i_sphere (idealPinhole Real.sqrt) self (Evaluate.camera (P 2) intr) 0 +
        (Evaluate.T_pose3 P).rotation 2 1 *
          Evaluate.pt_i_sphere (idealPinhole Real.sqrt) self (Evaluate.camera (P 2) intr) 1 +
        (Evaluate.T_pose3 P).rotation 2 2 *
          Evaluate.pt_i_sphere (idealPinhole Real.sqrt) self (Evaluate.camera (P 2) intr) 2
        ≠ 0) :
    IntrinsicsDerivativesExact (idealPinhole Real.sqrt) self P intr := by
  intro k hk
  rw [hps] at hk
  refine ⟨idealPinhole_ima2cam_exact self (P 2) intr h0 h1 k hk, ?_, ?_, ?_⟩
  · intro γ γ' hγ _
    exact idealPinhole_removeDistortion_exact self (P 2) intr k hk γ γ' hγ
  · intro γ γ' hγ hu
    exact idealPinhole_toUnitSphere_exact (P 2) intr k _ γ γ' hγ hu
  · intro γ γ' hγ hw
    exact idealPinhole_transformProject_exact (P 2) intr k hk (Evaluate.T_pose3 P).rotation _
      γ γ' hγ hw hz

/-- The transformed point of the quarter-turn example has depth one. -/
theorem quarterTurn_depth :
    (Evaluate.T_pose3 (quarterTurnParameters : Fin 3 → Nat → ℝ)).rotation 2 0 *
        Evaluate.pt_i_sphere (idealPinhole Real.sqrt) centreCost
          (Evaluate.camera ((quarterTurnParameters : Fin 3 → Nat → ℝ) 2) unitState) 0 +
      (Evaluate.T_pose3 (quarterTurnParameters : Fin 3 → Nat → ℝ)).rotation 2 1 *
        Evaluate.pt_i_sphere (idealPinhole Real.sqrt) centreCost
          (Evaluate.camera ((quarterTurnParameters : Fin 3 → Nat → ℝ) 2) unitState) 1 +
      (Evaluate.T_pose3 (quarterTurnParameters : Fin 3 → Nat → ℝ)).rotation 2 2 *
        Evaluate.pt_i_sphere (idealPinhole Real.sqrt) centreCost
          (Evaluate.camera ((quarterTurnParameters : Fin 3 → Nat → ℝ) 2) unitState) 2
      ≠ 0 := by
  simp [Evaluate.T_pose3, Evaluate.pt_i_sphere, Evaluate.pt_i_undist, Evaluate.pt_i_cam,
    Evaluate.camera, idealPinhole, centreCost, unitState, quarterTurnParameters,
    PinholeState.setScale, PinholeState.setOffset, PinholeState.setDistortionParamsFn,
    PinholeState.getParamsSize, PinholeState.getDistortionParamsSize, unitIntrinsics,
    homogeneous, rotationBlock, quarterTurnPose, identityPose,
    Matrix.mul_apply, Fin.sum_univ_succ]

/-- C9, witness: the pinhole camera without distortion, pose `i` a quarter turn, pose `j` the
identity, unit intrinsics, observation at the principal point; shown is the entry `(0, 8)`
of pose block 0, the derivative along `E_02`. -/
theorem Evaluate_jacobian_blocks_are_derivatives_witness :
    (allBlocks 0 = true ∧
      (unitState : PinholeState ℝ).getParamsSize =
        4 + (unitState : PinholeState ℝ).getDistortionParamsSize) ∧
    HasDerivAt
      (fun t : ℝ => Evaluate.residual (idealPinhole Real.sqrt) centreCost
        (setBlock quarterTurnParameters 0 (setRotationBlock (quarterTurnParameters 0)
          ((1 + t • Matrix.stdBasisMatrix 0 2 (1 : ℝ)) * rotationBlock (quarterTurnParameters 0))))
        unitState 0)
      (CostPanoramaPinHole.buffersAfter (idealPinhole Real.sqrt) centreCost
        quarterTurnParameters (some allBlocks) unitState (fun _ _ => 0)
        (Target.jacobian 0) (16 * (0 : Fin 2).val + (4 * (2 : Fin 3).val + (0 : Fin 3).val))) 0 :=
  ⟨⟨rfl, rfl⟩,
   (((Evaluate_jacobian_blocks_are_derivatives (idealPinhole Real.sqrt) centreCost
      quarterTurnParameters allBlocks unitState (fun _ _ => 0)
      (idealPinhole_rotation_exact _ _ _ quarterTurn_depth)
      (idealPinhole_intrinsics_exact centreCost quarterTurnParameters unitState rfl
        (by simp [quarterTurnParameters, unitIntrinsics])
        (by simp [quarterTurnParameters, unitIntrinsics]) quarterTurn_depth)
      rfl).1 rfl 0).1 0 2)⟩

/-- C9, counterexample: pinhole camera without distortion, pose `i` a quarter turn about the
third axis, pose `j` the identity (both valid rotations), unit intrinsics, observation at the
principal point.  Entry `(0, 8)` of pose block 0 is written as `0`, whereas residual 0, as a
function of entry 8 of the pose block (`Ri(2, 0)`), is `x ↦ x` and has derivative `1`. -/
theorem Evaluate_pose_jacobian_counterexample :
    (rotationBlock ((quarterTurnParameters : Fin 3 → Nat → ℝ) 0) *
        (rotationBlock ((quarterTurnParameters : Fin 3 → Nat → ℝ) 0)).transpose = 1 ∧
      (rotationBlock ((quarterTurnParameters : Fin 3 → Nat → ℝ) 0)).det = 1 ∧
      rotationBlock ((quarterTurnParameters : Fin 3 → Nat → ℝ) 1) = 1) ∧
    CostPanoramaPinHole.buffersAfter (idealPinhole Real.sqrt) centreCost
      quarterTurnParameters (some allBlocks) unitState (fun _ _ => 0) (Target.jacobian 0) 8 = 0 ∧
    HasDerivAt
      (fun x : ℝ => Evaluate.residual (idealPinhole Real.sqrt) centreCost
        (setBlock quarterTurnParameters 0 (setEntry (quarterTurnParameters 0) 8 x)) unitState 0)
      1 ((quarterTurnParameters : Fin 3 → Nat → ℝ) 0 8) ∧
    ¬ HasDerivAt
      (fun x : ℝ => Evaluate.residual (idealPinhole Real.sqrt) centreCost
        (setBlock quarterTurnParameters 0 (setEntry (quarterTurnParameters 0) 8 x)) unitState 0)
      (CostPanoramaPinHole.buffersAfter (idealPinhole Real.sqrt) centreCost
        quarterTurnParameters (some allBlocks) unitState (fun _ _ => 0) (Target.jacobian 0) 8)
      ((quarterTurnParameters : Fin 3 → Nat → ℝ) 0 8) := by
  have hJ : CostPanoramaPinHole.buffersAfter (idealPinhole Real.sqrt) centreCost
      quarterTurnParameters (some allBlocks) unitState (fun _ _ => 0) (Target.jacobian 0) 8
      = 0 := by
    have h := (buffersAfter_pose_entry (idealPinhole Real.sqrt) centreCost
      (quarterTurnParameters : Fin 3 → Nat → ℝ) allBlocks unitState (fun _ _ => 0) 0 0 2).1 rfl
    rw [quarterTurn_J9_i_entry] at h
    exact h
  have hD : HasDerivAt
      (fun x : ℝ => Evaluate.residual (idealPinhole Real.sqrt) centreCost
        (setBlock quarterTurnParameters 0 (setEntry (quarterTurnParameters 0) 8 x)) unitState 0)
      1 ((quarterTurnParameters : Fin 3 → Nat → ℝ) 0 8) := by
    have hfun : (fun x : ℝ => Evaluate.residual (idealPinhole Real.sqrt) centreCost
        (setBlock quarterTurnParameters 0 (setEntry (quarterTurnParameters 0) 8 x)) unitState 0)
        = fun x => x := by
      funext x
      exact quarterTurn_residual x
    rw [hfun]
    exact hasDerivAt_id _
  refine ⟨⟨?_, ?_, ?_⟩, hJ, hD, ?_⟩
  · funext i j
    fin_cases i <;> fin_cases j <;>
      simp [Matrix.mul_apply, Fin.sum_univ_succ, rotationBlock, quarterTurnParameters,
        quarterTurnPose]
  · rw [Matrix.det_fin_three]
    simp [rotationBlock, quarterTurnParameters, quarterTurnPose]
  · funext i j
    fin_cases i <;> fin_cases j <;>
      simp [rotationBlock, quarterTurnParameters, identityPose]
  · intro h
    rw [hJ] at h
    have := h.unique hD
    norm_num at this

/-! ## Lemmas on truncating division -/

theorem tmod_neg_left (a b : Int) : Int.tmod (-a) b = -Int.tmod a b := by
  rw [Int.tmod_def, Int.tmod_def, Int.neg_tdiv]; ring

theorem tmod_lt_abs (a b : Int) (hb : b ≠ 0) : Int.tmod a b < |b| := by
  rcases lt_or_gt_of_ne hb with h | h
  · rw [abs_of_neg h, ← Int.tmod_neg]
    exact Int.tmod_lt_of_pos a (by omega)
  · rw [abs_of_pos h]
    exact Int.tmod_lt_of_pos a h

/-- Sign and size of the C++ remainder: it has the sign of the dividend and is smaller in
magnitude than the divisor. -/
theorem tmod_bounds (a b : Int) (hb : b ≠ 0) :
    (0 ≤ a → 0 ≤ Int.tmod a b ∧ Int.tmod a b < |b|) ∧
    (a ≤ 0 → Int.tmod a b ≤ 0 ∧ -|b| < Int.tmod a b) := by
  constructor
  · intro ha
    exact ⟨Int.tmod_nonneg b ha, tmod_lt_abs a b hb⟩
  · intro ha
    have h1 := Int.tmod_nonneg b (show 0 ≤ -a by omega)
    have h2 := tmod_lt_abs (-a) b hb
    rw [tmod_neg_left] at h1 h2
    constructor <;> omega

theorem divideRoundUp_bounds (x y : Int) (hy : y ≠ 0) :
    ((divideRoundUp x y : ℚ) - 1 < (x : ℚ) / (y : ℚ)) ∧
      ((x : ℚ) / (y : ℚ) ≤ (divideRoundUp x y : ℚ)) := by
  unfold divideRoundUp
  have hdiv := Int.tdiv_add_tmod x y
  obtain ⟨hpos, hneg⟩ := tmod_bounds x y hy
  have hyq : (y : ℚ) ≠ 0 := by exact_mod_cast hy
  have hx : (x : ℚ) = (y : ℚ) * (Int.tdiv x y : ℚ) + (Int.tmod x y : ℚ) := by
    exact_mod_cast hdiv.symm
  generalize Int.tdiv x y = q at *
  generalize Int.tmod x y = r at *
  simp only []
  rcases lt_or_gt_of_ne hy with hylt | hygt
  · -- y < 0
    have hyq' : (y : ℚ) < 0 := by exact_mod_cast hylt
    rw [abs_of_neg hylt] at hpos hneg
    rw [lt_div_iff_of_neg hyq', div_le_iff_of_neg hyq']
    by_cases hx0 : 0 ≤ x
    · have h1 : decide (x ≥ 0) ≠ decide (y ≥ 0) := by
        simp [hx0, not_le.2 hylt]
      rw [if_neg h1]
      obtain ⟨hr0, hr1⟩ := hpos hx0
      have hr0q : (0 : ℚ) ≤ r := by exact_mod_cast hr0
      have hr1q : (r : ℚ) < -y := by exact_mod_cast hr1
      constructor <;> nlinarith
    · have h1 : decide (x ≥ 0) = decide (y ≥ 0) := by
        simp [hx0, not_le.2 hylt]
      rw [if_pos h1]
      obtain ⟨hr0, hr1⟩ := hneg (by omega)
      have hr0q : (r : ℚ) ≤ 0 := by exact_mod_cast hr0
      have hr1q : -(-(y : ℚ)) < r := by exact_mod_cast hr1
      by_cases hrz : r = 0
      · subst hrz
        simp only [ne_eq, not_true_eq_false, if_false, add_zero]
        push_cast at hx ⊢
        constructor <;> nlinarith
      · simp only [ne_eq, hrz, not_false_eq_true, if_true]
        have : (r : ℚ) < 0 := by
          have : r < 0 := by omega
          exact_mod_cast this
        push_cast
        constructor <;> nlinarith
  · have hyq' : (0 : ℚ) < y := by exact_mod_cast hygt
    rw [abs_of_pos hygt] at hpos hneg
    rw [lt_div_iff₀ hyq', div_le_iff₀ hyq']
    by_cases hx0 : 0 ≤ x
    · have h1 : decide (x ≥ 0) = decide (y ≥ 0) := by
        simp [hx0, le_of_lt hygt]
      rw [if_pos h1]
      obtain ⟨hr0, hr1⟩ := hpos hx0
      have hr0q : (0 : ℚ) ≤ r := by exact_mod_cast hr0
      have hr1q : (r : ℚ) < y := by exact_mod_cast hr1
      by_cases hrz : r = 0
      · subst hrz
        simp only [ne_eq, not_true_eq_false, if_false, add_zero]
        push_cast at hx ⊢
        constructor <;> nlinarith
      · simp only [ne_eq, hrz, not_false_eq_true, if_true]
        have : (0 : ℚ) < r := by
          have : 0 < r := by omega
          exact_mod_cast this
        push_cast
        constructor <;> nlinarith
    · have h1 : decide (x ≥ 0) ≠ decide (y ≥ 0) := by
        simp [hx0, le_of_lt hygt]
      rw [if_neg h1]
      obtain ⟨hr0, hr1⟩ := hneg (by omega)
      have hr0q : (r : ℚ) ≤ 0 := by exact_mod_cast hr0
      have hr1q : -(y : ℚ) < r := by exact_mod_cast hr1
      constructor <;> nlinarith

/-- C15. For all integers `x` and `y ≠ 0`, `divideRoundUp x y` (computed with the truncating
division and remainder of C++) is the ceiling of the exact quotient `x / y`: it is at least
`x / y`, and it is the smallest integer with that property. -/
theorem divideRoundUp_is_ceiling (x y : Int) (hy : y ≠ 0) :
    divideRoundUp x y = ⌈(x : ℚ) / (y : ℚ)⌉ ∧
      (x : ℚ) / (y : ℚ) ≤ (divideRoundUp x y : ℚ) ∧
      ∀ q : Int, (x : ℚ) / (y : ℚ) ≤ (q : ℚ) → divideRoundUp x y ≤ q := by
  obtain ⟨h1, h2⟩ := divideRoundUp_bounds x y hy
  have hc : ⌈(x : ℚ) / (y : ℚ)⌉ = divideRoundUp x y := Int.ceil_eq_iff.2 ⟨h1, h2⟩
  refine ⟨hc.symm, h2, ?_⟩
  intro q hq
  rw [← hc]
  exact Int.ceil_le.2 hq

theorem divideRoundUp_is_ceiling_witness :
    (2 : Int) ≠ 0 ∧ (divideRoundUp (-7) 2 = ⌈((-7 : Int) : ℚ) / ((2 : Int) : ℚ)⌉ ∧
      ((-7 : Int) : ℚ) / ((2 : Int) : ℚ) ≤ (divideRoundUp (-7) 2 : ℚ) ∧
      ∀ q : Int, ((-7 : Int) : ℚ) / ((2 : Int) : ℚ) ≤ (q : ℚ) → divideRoundUp (-7) 2 ≤ q) :=
  ⟨by decide, divideRoundUp_is_ceiling (-7) 2 (by decide)⟩

/-! ## Lemmas on `SplitRange` -/

/-- A value that fits the type is not changed by the conversion to it. -/
theorem wrap_eq_self (T : IntegerType) (x : Int)
    (h : ∀ bits, T = IntegerType.unsigned bits → 0 ≤ x ∧ x < 2 ^ bits) : T.wrap x = x := by
  cases T with
  | signed => rfl
  | unsigned bits =>
    obtain ⟨h0, h1⟩ := h bits rfl
    exact Int.emod_eq_of_lt h0 h1

/-- The loop of `SplitRange` started at `i ≥ 1` with exactly `nb_split - i` iterations of
fuel appends the values `range_start + (i + j) * delta_range` for `j = 0 .. nb_split - i - 1`,
provided each of them is computed without wrap-around. -/
theorem SplitRange_loop_eq (T : IntegerType) (range_start delta_range nb_split : Int)
    (hw : ∀ j : Int, 1 ≤ j → j < nb_split →
      T.wrap (range_start + T.wrap (T.wrap j * delta_range)) = range_start + j * delta_range) :
    ∀ (fuel : Nat) (i : Int) (d_range : List Int), 1 ≤ i → i + (fuel : Int) = nb_split →
      SplitRange.loop T range_start delta_range nb_split fuel i d_range
        = d_range ++ (List.range fuel).map
            (fun (j : Nat) => range_start + (i + (j : Int)) * delta_range) := by
  intro fuel
  induction fuel with
  | zero => intro i d_range _ _; simp [SplitRange.loop]
  | succ n ih =>
    intro i d_range hi h
    have hlt : i < nb_split := by push_cast at h; omega
    rw [SplitRange.loop, if_pos hlt, ih (i + 1) _ (by omega) (by push_cast at h ⊢; omega),
      hw i hi hlt]
    rw [List.range_succ_eq_map, List.map_cons, List.map_map, List.append_assoc]
    congr 1
    simp only [List.singleton_append, Nat.cast_zero, add_zero, List.cons.injEq, true_and]
    apply List.map_congr_left
    intro j _
    simp only [Function.comp_apply, Nat.cast_succ]
    ring

/-- Closed form of `SplitRange` when the range can be split: for a signed type, and for an
unsigned type when `range_start ≤ range_end` are values of the type. -/
theorem SplitRange_eq_of_le (T : IntegerType) (range_start range_end nb_split : Int)
    (d_range : List Int)
    (hT : ∀ bits, T = IntegerType.unsigned bits →
      0 ≤ range_start ∧ range_start ≤ range_end ∧ range_end < 2 ^ bits)
    (h1 : 1 ≤ nb_split) (h2 : nb_split ≤ range_end - range_start) :
    SplitRange T range_start range_end nb_split d_range
      = d_range ++ (range_start ::
          ((List.range (nb_split.toNat - 1)).map (fun (j : Nat) => range_start
              + ((j : Int) + 1) * Int.tdiv (range_end - range_start) nb_split)
            ++ [range_end])) := by
  have hlen : T.wrap (range_end - range_start) = range_end - range_start :=
    wrap_eq_self T _ (fun bits hb => by have := hT bits hb; omega)
  have hnb : T.wrap nb_split = nb_split :=
    wrap_eq_self T _ (fun bits hb => by have := hT bits hb; omega)
  have hdiv := Int.tdiv_add_tmod (range_end - range_start) nb_split
  have hmod := Int.tmod_nonneg nb_split (show 0 ≤ range_end - range_start by omega)
  have hmodlt := Int.tmod_lt_of_pos (range_end - range_start) (show 0 < nb_split by omega)
  have hw : ∀ j : Int, 1 ≤ j → j < nb_split →
      T.wrap (range_start + T.wrap (T.wrap j * Int.tdiv (range_end - range_start) nb_split))
        = range_start + j * Int.tdiv (range_end - range_start) nb_split := by
    intro j hj1 hj2
    generalize Int.tdiv (range_end - range_start) nb_split = δ at *
    generalize Int.tmod (range_end - range_start) nb_split = r at *
    have hδ : 0 ≤ δ := by
      by_contra hc
      have : δ ≤ -1 := by omega
      have : nb_split * δ ≤ -nb_split := by nlinarith
      omega
    have hjδ0 : 0 ≤ j * δ := by nlinarith
    have hjδ : j * δ ≤ range_end - range_start := by
      have : j * δ ≤ nb_split * δ := by nlinarith
      omega
    rw [wrap_eq_self T j (fun bits hb => by have := hT bits hb; omega),
      wrap_eq_self T (j * δ) (fun bits hb => by have := hT bits hb; omega),
      wrap_eq_self T (range_start + j * δ) (fun bits hb => by have := hT bits hb; omega)]
  unfold SplitRange
  simp only []
  rw [hlen, hnb, if_neg (by omega)]
  rw [SplitRange_loop_eq T _ _ _ hw _ _ _ (le_refl _) (by omega)]
  have hn : (nb_split - 1).toNat = nb_split.toNat - 1 := by omega
  rw [hn]
  have hf : (fun (j : Nat) => range_start
        + (1 + (j : Int)) * Int.tdiv (range_end - range_start) nb_split)
      = (fun (j : Nat) => range_start
        + ((j : Int) + 1) * Int.tdiv (range_end - range_start) nb_split) := by
    funext j; ring
  rw [hf]
  simp

/-- C14 (amended). Let `T` be a signed integer type (no overflow), or an unsigned integer type
at least as wide as `int` with `range_start ≤ range_end`.  For `nb_split ≥ 1` and
`range_end - range_start ≥ nb_split`, `SplitRange` appends to `d_range` exactly
`nb_split + 1` values: the first is `range_start`, the last is `range_end`, the `k`-th
(`0 < k < nb_split`) is `range_start + k * ((range_end - range_start) / nb_split)` (the
truncating quotient, which here is also the floor quotient), and they are strictly
increasing.  When `range_end - range_start < nb_split` it appends exactly `range_start` and
`range_end`.  In both cases the elements already in `d_range` stay in place in front. -/
theorem SplitRange_appends_split_points (T : IntegerType)
    (range_start range_end nb_split : Int) (d_range : List Int)
    (hT : ∀ bits, T = IntegerType.unsigned bits →
      0 ≤ range_start ∧ range_start ≤ range_end ∧ range_end < 2 ^ bits ∧
        nb_split < 2 ^ bits) :
    (1 ≤ nb_split → nb_split ≤ range_end - range_start →
      ∃ appended : List Int,
        SplitRange T range_start range_end nb_split d_range = d_range ++ appended ∧
        (appended.length : Int) = nb_split + 1 ∧
        appended[0]? = some range_start ∧
        appended[nb_split.toNat]? = some range_end ∧
        (∀ k : Nat, 0 < k → (k : Int) < nb_split →
          appended[k]? = some (range_start
            + (k : Int) * Int.tdiv (range_end - range_start) nb_split)) ∧
        Int.tdiv (range_end - range_start) nb_split = (range_end - range_start) / nb_split ∧
        appended.Pairwise (fun a b => a < b)) ∧
    (range_end - range_start < nb_split →
      SplitRange T range_start range_end nb_split d_range
        = d_range ++ [range_start, range_end]) := by
  constructor
  · intro h1 h2
    refine ⟨_, SplitRange_eq_of_le T range_start range_end nb_split d_range
      (fun bits hb => ⟨(hT bits hb).1, (hT bits hb).2.1, (hT bits hb).2.2.1⟩) h1 h2,
      ?_, ?_, ?_, ?_, ?_, ?_⟩
    · simp only [List.length_cons, List.length_append, List.length_map, List.length_range,
        List.length_singleton, List.length_nil]
      omega
    · simp
    · obtain ⟨m, hm⟩ : ∃ m, nb_split.toNat = m + 1 := ⟨nb_split.toNat - 1, by omega⟩
      rw [hm, List.getElem?_cons_succ, List.getElem?_append_right (by simp)]
      simp
    · intro k hk0 hk
      obtain ⟨j, rfl⟩ : ∃ j, k = j + 1 := ⟨k - 1, by omega⟩
      have hj : j < nb_split.toNat - 1 := by push_cast at hk; omega
      rw [List.getElem?_cons_succ, List.getElem?_append_left (by simpa using hj)]
      simp only [List.getElem?_map, List.getElem?_range hj, Option.map_some', Nat.cast_succ]
    · exact Int.tdiv_eq_ediv (by omega) (by omega)
    · have hdiv := Int.tdiv_add_tmod (range_end - range_start) nb_split
      have hmod := Int.tmod_nonneg nb_split (show 0 ≤ range_end - range_start by omega)
      have hmodlt := Int.tmod_lt_of_pos (range_end - range_start) (show 0 < nb_split by omega)
      generalize Int.tdiv (range_end - range_start) nb_split = δ at *
      generalize Int.tmod (range_end - range_start) nb_split = r at *
      have hδ : 1 ≤ δ := by
        by_contra hc
        have : δ ≤ 0 := by omega
        have : nb_split * δ ≤ 0 := by nlinarith
        omega
      have hbound : ∀ j : Nat, j < nb_split.toNat - 1 →
          range_start + ((j : Int) + 1) * δ < range_end := by
        intro j hj
        have hj' : (j : Int) + 1 ≤ nb_split - 1 := by omega
        have : ((j : Int) + 1) * δ ≤ (nb_split - 1) * δ := by nlinarith
        nlinarith
      rw [List.pairwise_cons]
      constructor
      · intro a ha
        rw [List.mem_append, List.mem_map, List.mem_singleton] at ha
        rcases ha with ⟨j, hj, rfl⟩ | rfl
        · have : (0 : Int) ≤ j := Int.ofNat_nonneg j
          nlinarith
        · omega
      · rw [List.pairwise_append]
        refine ⟨?_, List.pairwise_singleton _ _, ?_⟩
        · rw [List.pairwise_map]
          refine List.Pairwise.imp ?_ (List.pairwise_lt_range _)
          intro a b hab
          have : (a : Int) + 1 ≤ b := by exact_mod_cast hab
          nlinarith
        · intro a ha b hb
          rw [List.mem_singleton] at hb
          rw [List.mem_map] at ha
          obtain ⟨j, hj, rfl⟩ := ha
          rw [hb]
          exact hbound j (List.mem_range.1 hj)
  · intro h
    have hlen : T.wrap (range_end - range_start) = range_end - range_start :=
      wrap_eq_self T _ (fun bits hb => by have := hT bits hb; omega)
    have hnb : T.wrap nb_split = nb_split :=
      wrap_eq_self T _ (fun bits hb => by have := hT bits hb; omega)
    unfold SplitRange
    simp only []
    rw [hlen, hnb, if_pos h]
    simp

theorem SplitRange_appends_split_points_witness :
    ((∀ bits, IntegerType.unsigned 32 = IntegerType.unsigned bits →
        (0 : Int) ≤ 0 ∧ (0 : Int) ≤ 10 ∧ (10 : Int) < 2 ^ bits ∧ (3 : Int) < 2 ^ bits) ∧
      (1 : Int) ≤ 3 ∧ (3 : Int) ≤ 10 - 0 ∧
      ∃ appended : List Int,
        SplitRange (IntegerType.unsigned 32) 0 10 3 [7] = [7] ++ appended ∧
        (appended.length : Int) = 3 + 1 ∧
        appended[0]? = some 0 ∧
        appended[(3 : Int).toNat]? = some 10 ∧
        (∀ k : Nat, 0 < k → (k : Int) < 3 →
          appended[k]? = some (0 + (k : Int) * Int.tdiv (10 - 0) 3)) ∧
        Int.tdiv (10 - 0) 3 = (10 - 0) / 3 ∧
        appended.Pairwise (fun a b => a < b)) ∧
    ((∀ bits, IntegerType.unsigned 32 = IntegerType.unsigned bits →
        (0 : Int) ≤ 0 ∧ (0 : Int) ≤ 2 ∧ (2 : Int) < 2 ^ bits ∧ (3 : Int) < 2 ^ bits) ∧
      (2 : Int) - 0 < 3 ∧ SplitRange (IntegerType.unsigned 32) 0 2 3 [7] = [7] ++ [0, 2]) ∧
    ((∀ bits, IntegerType.signed = IntegerType.unsigned bits →
        (0 : Int) ≤ 10 ∧ (10 : Int) ≤ 0 ∧ (0 : Int) < 2 ^ bits ∧ (3 : Int) < 2 ^ bits) ∧
      (0 : Int) - 10 < 3 ∧ SplitRange IntegerType.signed 10 0 3 [7] = [7] ++ [10, 0]) :=
  have hA : ∀ bits, IntegerType.unsigned 32 = IntegerType.unsigned bits →
      (0 : Int) ≤ 0 ∧ (0 : Int) ≤ 10 ∧ (10 : Int) < 2 ^ bits ∧ (3 : Int) < 2 ^ bits := by
    intro bits h; cases h; decide
  have hB : ∀ bits, IntegerType.unsigned 32 = IntegerType.unsigned bits →
      (0 : Int) ≤ 0 ∧ (0 : Int) ≤ 2 ∧ (2 : Int) < 2 ^ bits ∧ (3 : Int) < 2 ^ bits := by
    intro bits h; cases h; decide
  have hC : ∀ bits, IntegerType.signed = IntegerType.unsigned bits →
      (0 : Int) ≤ 10 ∧ (10 : Int) ≤ 0 ∧ (0 : Int) < 2 ^ bits ∧ (3 : Int) < 2 ^ bits := by
    intro bits h; cases h
  ⟨⟨hA, by decide, by decide,
      (SplitRange_appends_split_points (IntegerType.unsigned 32) 0 10 3 [7] hA).1
        (by decide) (by decide)⟩,
    ⟨hB, by decide,
      (SplitRange_appends_split_points (IntegerType.unsigned 32) 0 2 3 [7] hB).2 (by decide)⟩,
    ⟨hC, by decide,
      (SplitRange_appends_split_points IntegerType.signed 10 0 3 [7] hC).2 (by decide)⟩⟩

/-- C14 (as first stated, for every integer type `T`). `SplitRange<unsigned>(10, 0, 3, d)` on a
32-bit `unsigned`: the exact difference `0 - 10` is smaller than `nb_split = 3`, yet the call
does not append `[10, 0]`, because the difference is computed in `T` and wraps to
`4294967286 ≥ 3`; it appends the four values `10, 1431655772, 2863311534, 0`, which are not
strictly increasing either. -/
theorem SplitRange_unsigned_reversed_counterexample :
    (0 : Int) - 10 < 3 ∧
    SplitRange (IntegerType.unsigned 32) 10 0 3 [] = [10, 1431655772, 2863311534, 0] ∧
    SplitRange (IntegerType.unsigned 32) 10 0 3 [] ≠ [] ++ [10, 0] ∧
    (IntegerType.unsigned 32).wrap (0 - 10) = 4294967286 ∧
    (3 : Int) ≤ (IntegerType.unsigned 32).wrap (0 - 10) ∧
    ¬ ([10, 1431655772, 2863311534, 0] : List Int).Pairwise (fun a b => a < b) := by
  decide

/-! ## Lemmas on `AreVecNearEqual` -/

/-- The loop of `AreVecNearEqual` started at `i` with `fuel` iterations answers `true` exactly
when the coefficients `i .. i + fuel - 1` are within `epsilon` of each other. -/
theorem AreVecNearEqual_loop_iff {α : Type} [LinearOrderedRing α] (x y : TVec α)
    (epsilon : α) :
    ∀ (fuel i : Nat), AreVecNearEqual.loop x y epsilon fuel i = true ↔
      ∀ j, i ≤ j → j < i + fuel →
        y.coeff j - epsilon ≤ x.coeff j ∧ x.coeff j ≤ y.coeff j + epsilon := by
  intro fuel
  induction fuel with
  | zero =>
    intro i
    simp only [AreVecNearEqual.loop, true_iff]
    intro j h1 h2
    omega
  | succ n ih =>
    intro i
    rw [AreVecNearEqual.loop]
    by_cases h : (y.coeff i - epsilon > x.coeff i) ∨ (x.coeff i > y.coeff i + epsilon)
    · rw [if_pos h]
      simp only [Bool.false_eq_true, false_iff]
      intro hall
      obtain ⟨h1, h2⟩ := hall i (le_refl _) (by omega)
      rcases h with h | h
      · exact absurd h1 (not_le.2 h)
      · exact absurd h2 (not_le.2 h)
    · rw [if_neg h, ih (i + 1)]
      rw [not_or, not_lt, not_lt] at h
      constructor
      · intro hall j h1 h2
        rcases Nat.eq_or_lt_of_le h1 with rfl | hlt
        · exact h
        · exact hall j hlt (by omega)
      · intro hall j h1 h2
        exact hall j (by omega) (by omega)

/-- What `AreVecNearEqual` computes: the comparison of the coefficients `0 .. x.cols() - 1`. -/
theorem AreVecNearEqual_iff_cols {α : Type} [LinearOrderedRing α] (x y : TVec α)
    (epsilon : α) :
    AreVecNearEqual x y epsilon = true ↔
      ∀ i, i < x.cols →
        y.coeff i - epsilon ≤ x.coeff i ∧ x.coeff i ≤ y.coeff i + epsilon := by
  unfold AreVecNearEqual
  rw [AreVecNearEqual_loop_iff]
  constructor
  · intro h i hi
    exact h i (Nat.zero_le _) (by omega)
  · intro h i _ hi
    exact h i (by omega)

/-- For row vectors `AreVecNearEqual` compares every component. -/
theorem AreVecNearEqual_row {α : Type} [LinearOrderedRing α] (l l' : List α) (epsilon : α) :
    AreVecNearEqual (TVec.row l) (TVec.row l') epsilon = true ↔
      ∀ i, i < (TVec.row l).size →
        (TVec.row l').coeff i - epsilon ≤ (TVec.row l).coeff i ∧
          (TVec.row l).coeff i ≤ (TVec.row l').coeff i + epsilon := by
  rw [AreVecNearEqual_iff_cols]
  simp [TVec.row, TVec.size]

/-- C17 (the code departs from it). For the column vectors `x = (0, 5)ᵀ` and `y = (0, 0)ᵀ` and
`epsilon = 1`, `AreVecNearEqual` answers `true` although component 1 is not within `epsilon`
(`5 > 0 + 1`): the loop bound is `x.cols()`, which is 1 for a column vector, so only
component 0 is compared. -/
theorem AreVecNearEqual_column_vector_first_component_only :
    (TVec.column [(0 : Int), 5]).size = 2 ∧ (TVec.column [(0 : Int), 0]).size = 2 ∧
    (TVec.column [(0 : Int), 5]).cols = 1 ∧
    AreVecNearEqual (TVec.column [(0 : Int), 5]) (TVec.column [(0 : Int), 0]) 1 = true ∧
    ¬ ((TVec.column [(0 : Int), 0]).coeff 1 - 1 ≤ (TVec.column [(0 : Int), 5]).coeff 1 ∧
        (TVec.column [(0 : Int), 5]).coeff 1 ≤ (TVec.column [(0 : Int), 0]).coeff 1 + 1) := by
  decide

/-! ## Lemmas on `CameraPose` -/

/-- C19. After `initializeState()` the state is `CONSTANT` exactly when the pose is locked and
`REFINED` exactly when it is not; the transform, the lock flag and the rotation-only flag are
unchanged.  A default-constructed `CameraPose` is unlocked, not rotation-only and in state
`REFINED`. -/
theorem CameraPose_initializeState_state {τ σ : Type} (E : EEstimatorParameterState σ)
    (self : CameraPose τ σ) (pose0 : τ) :
    (((CameraPose.initializeState E self)._state = E.CONSTANT ↔ self._locked = true) ∧
      ((CameraPose.initializeState E self)._state = E.REFINED ↔ self._locked = false) ∧
      (CameraPose.initializeState E self)._transform = self._transform ∧
      (CameraPose.initializeState E self)._locked = self._locked ∧
      (CameraPose.initializeState E self)._rotationOnly = self._rotationOnly) ∧
    ((CameraPose.default E pose0)._locked = false ∧
      (CameraPose.default E pose0)._rotationOnly = false ∧
      (CameraPose.default E pose0)._state = E.REFINED ∧
      (CameraPose.default E pose0)._transform = pose0) := by
  refine ⟨?_, rfl, rfl, rfl, rfl⟩
  unfold CameraPose.initializeState
  cases h : self._locked
  · simp [E.distinct]
  · simp [E.distinct.symm]

/-! ## The pose blocks enter `Evaluate` through their rotation sub-blocks -/

/-- Two pose blocks that agree on the entries 0–2, 4–6, 8–10 have the same rotation
sub-block. -/
theorem rotationBlock_congr {α : Type} (p q : Nat → α)
    (h : ∀ i ∈ [0, 1, 2, 4, 5, 6, 8, 9, 10], p i = q i) :
    rotationBlock p = rotationBlock q := by
  funext r k
  simp only [rotationBlock, Matrix.of_apply]
  apply h
  fin_cases r <;> fin_cases k <;> simp

/-- The outcome of `Evaluate` is a function of the two rotation sub-blocks and of the
intrinsics block. -/
theorem Evaluate_congr_rotationBlock {α : Type} [CommRing α] (cam : Pinhole α)
    (self : CostPanoramaPinHole α) (P Q : Fin 3 → Nat → α) (jacobians : Option (Fin 3 → Bool))
    (_intrinsic : PinholeState α) (h0 : rotationBlock (P 0) = rotationBlock (Q 0))
    (h1 : rotationBlock (P 1) = rotationBlock (Q 1)) (h2 : P 2 = Q 2) :
    CostPanoramaPinHole.Evaluate cam self P jacobians _intrinsic =
      CostPanoramaPinHole.Evaluate cam self Q jacobians _intrinsic := by
  have hT : Evaluate.T_pose3 P = Evaluate.T_pose3 Q := by
    unfold Evaluate.T_pose3; rw [h0, h1]
  have hres : ∀ c, Evaluate.residualStores cam self P c = Evaluate.residualStores cam self Q c := by
    intro c; unfold Evaluate.residualStores Evaluate.pt_j_est; rw [hT]
  have hJi : ∀ c, Evaluate.J9_i cam self P c = Evaluate.J9_i cam self Q c := by
    intro c; unfold Evaluate.J9_i; rw [hT, h0, h1]
  have hJj : ∀ c, Evaluate.J9_j cam self P c = Evaluate.J9_j cam self Q c := by
    intro c; unfold Evaluate.J9_j; rw [hT, h0, h1]
  have hchain : ∀ c, Evaluate.chainToUndist cam self P c = Evaluate.chainToUndist cam self Q c := by
    intro c; unfold Evaluate.chainToUndist; rw [hT]
  have hint : ∀ c, Evaluate.intrinsicsStores cam self P c
      = Evaluate.intrinsicsStores cam self Q c := by
    intro c
    unfold Evaluate.intrinsicsStores Evaluate.Jscale Evaluate.Jpp Evaluate.Jdisto
    rw [hT, hchain]
  unfold CostPanoramaPinHole.Evaluate
  simp only [h2, hres, hJi, hJj, hint]

/-- C18. Two calls of `Evaluate` whose pose blocks agree on the entries 0–2, 4–6 and 8–10 of
the row-major 4×4 layout and which get the same intrinsics block (whatever the entries 3, 7,
11 and 12–15 of the pose blocks are) have the same outcome: the same assignments to the
residuals and to every Jacobian block, hence the same buffers afterwards. -/
theorem Evaluate_depends_on_rotation_blocks_only {α : Type} [CommRing α] (cam : Pinhole α)
    (self : CostPanoramaPinHole α) (P Q : Fin 3 → Nat → α) (jacobians : Option (Fin 3 → Bool))
    (_intrinsic : PinholeState α) (m : Memory α)
    (h0 : ∀ i ∈ [0, 1, 2, 4, 5, 6, 8, 9, 10], P 0 i = Q 0 i)
    (h1 : ∀ i ∈ [0, 1, 2, 4, 5, 6, 8, 9, 10], P 1 i = Q 1 i)
    (h2 : P 2 = Q 2) :
    CostPanoramaPinHole.Evaluate cam self P jacobians _intrinsic =
        CostPanoramaPinHole.Evaluate cam self Q jacobians _intrinsic ∧
      CostPanoramaPinHole.buffersAfter cam self P jacobians _intrinsic m =
        CostPanoramaPinHole.buffersAfter cam self Q jacobians _intrinsic m := by
  have h := Evaluate_congr_rotationBlock cam self P Q jacobians _intrinsic
    (rotationBlock_congr _ _ h0) (rotationBlock_congr _ _ h1) h2
  refine ⟨h, ?_⟩
  unfold CostPanoramaPinHole.buffersAfter
  rw [h]

theorem Evaluate_depends_on_rotation_blocks_only_witness :
    (∀ i ∈ [0, 1, 2, 4, 5, 6, 8, 9, 10], sampleParameters 0 i = sampleParametersShifted 0 i) ∧
    (∀ i ∈ [0, 1, 2, 4, 5, 6, 8, 9, 10], sampleParameters 1 i = sampleParametersShifted 1 i) ∧
    sampleParameters 2 = sampleParametersShifted 2 ∧
    sampleParameters 0 3 ≠ sampleParametersShifted 0 3 ∧
    sampleParameters 1 12 ≠ sampleParametersShifted 1 12 ∧
    (CostPanoramaPinHole.Evaluate sampleCamera sampleCost sampleParameters
          (some sampleRequest) sampleState =
        CostPanoramaPinHole.Evaluate sampleCamera sampleCost sampleParametersShifted
          (some sampleRequest) sampleState ∧
      CostPanoramaPinHole.buffersAfter sampleCamera sampleCost sampleParameters
          (some sampleRequest) sampleState sampleMemory =
        CostPanoramaPinHole.buffersAfter sampleCamera sampleCost sampleParametersShifted
          (some sampleRequest) sampleState sampleMemory) :=
  ⟨by decide, by decide, by funext i; simp [sampleParameters, sampleParametersShifted],
    by decide, by decide,
    Evaluate_depends_on_rotation_blocks_only sampleCamera sampleCost sampleParameters
      sampleParametersShifted (some sampleRequest) sampleState sampleMemory (by decide)
      (by decide) (by funext i; simp [sampleParameters, sampleParametersShifted])⟩

/-! ## Lemmas on `exportToPly` -/

/-- The decimal digits of a number contain no line break. -/
theorem toDigitsCore_no_newline :
    ∀ (fuel n : Nat) (ds : List Char), '\n' ∉ ds → '\n' ∉ Nat.toDigitsCore 10 fuel n ds := by
  intro fuel
  induction fuel with
  | zero => intro n ds h; simpa [Nat.toDigitsCore] using h
  | succ f ih =>
    intro n ds h
    have hd : '\n' ≠ Nat.digitChar (n % 10) := by
      have hall : ∀ k : Nat, k < 10 → '\n' ≠ Nat.digitChar k := by decide
      exact hall _ (Nat.mod_lt _ (by decide))
    have hcons : '\n' ∉ Nat.digitChar (n % 10) :: ds := by
      rw [List.mem_cons, not_or]
      exact ⟨hd, h⟩
    rw [Nat.toDigitsCore]
    split
    · exact hcons
    · exact ih _ _ hcons

/-- A `size_t` printed in decimal contains no line break. -/
theorem toString_nat_no_newline (n : Nat) : '\n' ∉ (toString n).data := by
  show '\n' ∉ (Nat.repr n).data
  unfold Nat.repr Nat.toDigits
  exact toDigitsCore_no_newline _ _ _ (List.not_mem_nil _)

/-- One loop of `exportToPly` appends one line per point, in order. -/
theorem exportToPly_loop_eq {α : Type} (fmt : Vec3 α → String) (colour : String) :
    ∀ (l : List (Vec3 α)) (out : String),
      exportToPly.loop fmt colour l out
        = out ++ String.join (l.map (fun v => (fmt v ++ colour) ++ "\n")) := by
  intro l
  induction l with
  | nil => intro out; simp [exportToPly.loop, String.join]
  | cons v rest ih =>
    intro out
    rw [exportToPly.loop, ih]
    apply String.ext
    simp only [String.data_append, String.data_join, List.map_cons, List.flatten_cons,
      List.map_map, List.append_assoc]

/-- C11. The text `exportToPly` writes is a sequence of lines, each terminated by a line
break: the ten header lines `ply`, `format ascii 1.0`, `element vertex N` with
`N = |G| + |C|` in decimal, the six property declarations (`x`, `y`, `z` as `float`, `red`,
`green`, `blue` as `uchar`) and `end_header`; then exactly `|G| + |C|` data lines, first one
per ground-truth point in order, made of the coordinates followed by ` 0 255 0`, then one per
computed point in order, followed by ` 255 255 0`.  None of these lines contains a line break
(given that the text Eigen prints for a row vector contains none). -/
theorem exportToPly_writes_header_then_points {α : Type} (fmt : Vec3 α → String)
    (good : Bool) (G C : List (Vec3 α)) (hfmt : ∀ p ∈ G ++ C, '\n' ∉ (fmt p).data) :
    ∃ header data : List String,
      (exportToPly fmt good G C).2 = String.join ((header ++ data).map (fun l => l ++ "\n")) ∧
      header = ["ply", "format ascii 1.0",
        "element vertex " ++ toString (G.length + C.length),
        "property float x", "property float y", "property float z",
        "property uchar red", "property uchar green", "property uchar blue",
        "end_header"] ∧
      header.length = 10 ∧
      data = G.map (fun p => fmt p ++ " 0 255 0") ++ C.map (fun p => fmt p ++ " 255 255 0") ∧
      data.length = G.length + C.length ∧
      ∀ l ∈ header ++ data, '\n' ∉ l.data := by
  refine ⟨_, _, ?_, rfl, rfl, rfl, by simp, ?_⟩
  · unfold exportToPly
    simp only []
    rw [exportToPly_loop_eq, exportToPly_loop_eq]
    apply String.ext
    simp only [exportToPly.header, String.data_append, String.data_join, List.map_cons,
      List.map_nil, List.map_append, List.map_map, List.flatten_cons, List.flatten_nil,
      List.flatten_append, List.append_assoc, List.cons_append, List.nil_append,
      List.append_nil, Function.comp_def]
  · intro l hl
    rw [List.mem_append] at hl
    rcases hl with hl | hl
    · simp only [List.mem_cons, List.mem_singleton, List.not_mem_nil, or_false] at hl
      rcases hl with rfl | rfl | rfl | rfl | rfl | rfl | rfl | rfl | rfl | rfl
      · decide
      · decide
      · rw [String.data_append, List.mem_append, not_or]
        exact ⟨by decide, toString_nat_no_newline _⟩
      · decide
      · decide
      · decide
      · decide
      · decide
      · decide
      · decide
    · rw [List.mem_append, List.mem_map, List.mem_map] at hl
      rcases hl with ⟨p, hp, rfl⟩ | ⟨p, hp, rfl⟩
      · rw [String.data_append, List.mem_append, not_or]
        exact ⟨hfmt p (List.mem_append_left _ hp), by decide⟩
      · rw [String.data_append, List.mem_append, not_or]
        exact ⟨hfmt p (List.mem_append_right _ hp), by decide⟩

theorem exportToPly_writes_header_then_points_witness :
    (∀ p ∈ [(![0, 0, 0] : Vec3 Int)] ++ [![1, 1, 1]], '\n' ∉ (sampleFormat p).data) ∧
    (exportToPly sampleFormat true [![0, 0, 0]] [![1, 1, 1]]).2
      = "ply\nformat ascii 1.0\nelement vertex 2\nproperty float x\nproperty float y\nproperty float z\nproperty uchar red\nproperty uchar green\nproperty uchar blue\nend_header\n0 0 0 0 255 0\n1 1 1 255 255 0\n" ∧
    ∃ header data : List String,
      (exportToPly sampleFormat true [![0, 0, 0]] [![1, 1, 1]]).2
        = String.join ((header ++ data).map (fun l => l ++ "\n")) ∧
      header = ["ply", "format ascii 1.0",
        "element vertex " ++ toString ([(![0, 0, 0] : Vec3 Int)].length
          + [(![1, 1, 1] : Vec3 Int)].length),
        "property float x", "property float y", "property float z",
        "property uchar red", "property uchar green", "property uchar blue",
        "end_header"] ∧
      header.length = 10 ∧
      data = [(![0, 0, 0] : Vec3 Int)].map (fun p => sampleFormat p ++ " 0 255 0")
        ++ [(![1, 1, 1] : Vec3 Int)].map (fun p => sampleFormat p ++ " 255 255 0") ∧
      data.length = [(![0, 0, 0] : Vec3 Int)].length + [(![1, 1, 1] : Vec3 Int)].length ∧
      ∀ l ∈ header ++ data, '\n' ∉ l.data :=
  have h : ∀ p ∈ [(![0, 0, 0] : Vec3 Int)] ++ [![1, 1, 1]], '\n' ∉ (sampleFormat p).data := by
    intro p hp
    simp only [List.singleton_append, List.mem_cons, List.mem_singleton, List.not_mem_nil,
      or_false] at hp
    rcases hp with rfl | rfl <;> decide
  ⟨h, rfl, exportToPly_writes_header_then_points sampleFormat true _ _ h⟩

/-! ## Lemmas on `EvaluteToGT` -/

/-- An element access below the size of the vector succeeds. -/
theorem readAt_of_lt {β : Type} (name : String) (v : List β) (i : Nat) (d : β)
    (h : i < v.length) : readAt name v i = Except.ok (v.getD i d) := by
  unfold readAt
  rw [List.getD_eq_getElem?_getD, List.getElem?_eq_getElem h]
  rfl

/-- An element access at or beyond the size of the vector is out of bounds. -/
theorem readAt_of_ge {β : Type} (name : String) (v : List β) (i : Nat)
    (h : v.length ≤ i) :
    readAt name v i = Except.error (AccessError.outOfBounds name i v.length) := by
  unfold readAt
  rw [List.getElem?_eq_none h]

/-- On `size_t`, for `i < n < 2^64`, the test `i > 0 && i < n - 2` selects the indices with
`0 < i` and `i + 2 < n`. -/
theorem trajectory_test_iff (n i : Nat) (hn : n < 2 ^ 64) (hi : i < n) :
    (0 < i ∧ i < subSizeT n 2) ↔ (0 < i ∧ i + 2 < n) := by
  unfold subSizeT
  omega

/-- When a similarity is found, `computeSimilarity` leaves a trajectory of the length of the
inputs whose `i`-th element is `S * R * vec_camPosComputed[i] + t`, and stores `S`, `R`, `t`
of the estimator in the output locations. -/
theorem computeSimilarity_of_found {α ρ : Type} [CommRing α]
    (ACRansac_FindRTS : Estimator α ρ) (vec_camPosGT vec_camPosComputed : List (Vec3 α))
    (st : SimilarityState α ρ) (hlen : vec_camPosGT.length = vec_camPosComputed.length)
    (hfound : (ACRansac_FindRTS
      (computeSimilarity.columns vec_camPosComputed vec_camPosGT.length)
      (computeSimilarity.columns vec_camPosGT vec_camPosGT.length)
      st.randomNumberGenerator true).found = true) :
    (computeSimilarity ACRansac_FindRTS vec_camPosGT vec_camPosComputed st).1 = true ∧
    (computeSimilarity ACRansac_FindRTS vec_camPosGT vec_camPosComputed
        st).2.vec_camPosComputed_T.length = vec_camPosGT.length ∧
    (∀ i, i < vec_camPosGT.length →
      (computeSimilarity ACRansac_FindRTS vec_camPosGT vec_camPosComputed
          st).2.vec_camPosComputed_T.getD i 0 =
        Matrix.mulVec
          ((computeSimilarity ACRansac_FindRTS vec_camPosGT vec_camPosComputed st).2.Sout •
            (computeSimilarity ACRansac_FindRTS vec_camPosGT vec_camPosComputed st).2.Rout)
          (vec_camPosComputed.getD i 0) +
          (computeSimilarity ACRansac_FindRTS vec_camPosGT vec_camPosComputed st).2.tout) := by
  unfold computeSimilarity
  rw [if_neg (not_not.2 hlen)]
  dsimp only
  generalize ACRansac_FindRTS
    (computeSimilarity.columns vec_camPosComputed vec_camPosGT.length)
    (computeSimilarity.columns vec_camPosGT vec_camPosGT.length)
    st.randomNumberGenerator true = r at hfound ⊢
  have hspec := foldl_set_range
    (fun i => Matrix.mulVec (r.S • r.R) (vec_camPosComputed.getD i 0) + r.t)
    vec_camPosGT.length (resize 0 st.vec_camPosComputed_T vec_camPosGT.length)
    (by rw [length_resize])
  rw [length_resize] at hspec
  simp only [hfound, computeSimilarity.transform, Bool.not_true, Bool.false_eq_true, if_false,
    true_and]
  refine ⟨hspec.1, ?_⟩
  intro i hi
  rw [List.getD_eq_getElem?_getD, hspec.2 i hi, if_pos hi]
  rfl

/-- When no similarity is found, `computeSimilarity` leaves the output trajectory as it was. -/
theorem computeSimilarity_of_not_found {α ρ : Type} [CommRing α]
    (ACRansac_FindRTS : Estimator α ρ) (vec_camPosGT vec_camPosComputed : List (Vec3 α))
    (st : SimilarityState α ρ)
    (hfound : (ACRansac_FindRTS
      (computeSimilarity.columns vec_camPosComputed vec_camPosGT.length)
      (computeSimilarity.columns vec_camPosGT vec_camPosGT.length)
      st.randomNumberGenerator true).found = false) :
    (computeSimilarity ACRansac_FindRTS vec_camPosGT vec_camPosComputed st).1 = false ∧
    (computeSimilarity ACRansac_FindRTS vec_camPosGT vec_camPosComputed
        st).2.vec_camPosComputed_T = st.vec_camPosComputed_T := by
  unfold computeSimilarity
  by_cases hlen : vec_camPosGT.length = vec_camPosComputed.length
  · rw [if_neg (not_not.2 hlen)]
    simp [hfound]
  · rw [if_pos hlen]
    simp

/-- The first loop of `EvaluteToGT` on vectors of `numCameras` elements: it runs to the end,
appends one distance per index and adds the selected segment lengths. -/
theorem baselineLoop_eq {α : Type} [CommRing α] (sqrt : α → α)
    (GT T : List (Vec3 α)) (n : Nat) (hG : GT.length = n) (hT : T.length = n)
    (hn : n < 2 ^ 64) :
    ∀ (fuel i : Nat) (trajectoryLength : α) (errs : List α), i + fuel = n →
      EvaluteToGT.baselineLoop sqrt GT T n fuel i (trajectoryLength, errs) =
        Except.ok
          (trajectoryLength + ∑ j in Finset.range fuel,
              (if 0 < i + j ∧ i + j + 2 < n then
                Vec3.norm sqrt (GT.getD (i + j) 0 - GT.getD (i + j + 1) 0) else 0),
            errs ++ (List.range fuel).map
              (fun j => Vec3.norm sqrt (GT.getD (i + j) 0 - T.getD (i + j) 0))) := by
  intro fuel
  induction fuel with
  | zero => intro i tl errs _; simp [EvaluteToGT.baselineLoop]
  | succ f ih =>
    intro i tl errs h
    have hi : i < n := by omega
    rw [EvaluteToGT.baselineLoop, if_pos hi,
      readAt_of_lt _ GT i 0 (by omega), readAt_of_lt _ T i 0 (by omega)]
    simp only [bind, Except.bind]
    have hsum : ∀ F : Nat → α, ∑ j in Finset.range (f + 1), F (i + j)
        = F i + ∑ j in Finset.range f, F (i + 1 + j) := by
      intro F
      rw [Finset.sum_range_succ', add_comm]
      congr 1
      apply Finset.sum_congr rfl
      intro j _
      congr 1
      omega
    have hlist : ∀ F : Nat → α, (List.range (f + 1)).map (fun j => F (i + j))
        = F i :: (List.range f).map (fun j => F (i + 1 + j)) := by
      intro F
      rw [List.range_succ_eq_map, List.map_cons, List.map_map]
      congr 1
      apply List.map_congr_left
      intro j _
      simp only [Function.comp_apply]
      congr 1
      omega
    rw [hsum (fun k => if 0 < k ∧ k + 2 < n then
        Vec3.norm sqrt (GT.getD k 0 - GT.getD (k + 1) 0) else 0),
      hlist (fun k => Vec3.norm sqrt (GT.getD k 0 - T.getD k 0))]
    by_cases hc : 0 < i ∧ i < subSizeT n 2
    · have hc2 := (trajectory_test_iff n i hn hi).1 hc
      rw [if_pos hc, readAt_of_lt _ GT (i + 1) 0 (by omega)]
      simp only [bind, Except.bind]
      rw [ih (i + 1) _ _ (by omega), if_pos hc2]
      simp only [List.append_assoc, List.singleton_append, add_assoc]
    · have hc2 : ¬ (0 < i ∧ i + 2 < n) := fun h2 => hc ((trajectory_test_iff n i hn hi).2 h2)
      rw [if_neg hc, ih (i + 1) _ _ (by omega), if_neg hc2]
      simp only [List.append_assoc, List.singleton_append, zero_add]

/-- The second loop of `EvaluteToGT`: when enough ground-truth rotations remain, it runs to
the end and appends one angle per computed rotation. -/
theorem angularLoop_eq {α : Type} [CommRing α] [Div α] (pi : α)
    (getRotationMagnitude : Mat3 α → α) (R : Mat3 α) (RotGT : List (Mat3 α)) :
    ∀ (rest : List (Mat3 α)) (k : Nat) (errs : List α), k + rest.length ≤ RotGT.length →
      EvaluteToGT.angularLoop pi getRotationMagnitude R RotGT rest k errs =
        Except.ok (errs ++ (List.range rest.length).map (fun j =>
          radianToDegree pi (getRotationMagnitude
            (RotGT.getD (k + j) 0 * (rest.getD j 0 * R.transpose).transpose)))) := by
  intro rest
  induction rest with
  | nil => intro k errs _; simp [EvaluteToGT.angularLoop]
  | cons m2 rest ih =>
    intro k errs h
    rw [List.length_cons] at h
    rw [EvaluteToGT.angularLoop, readAt_of_lt _ RotGT k 0 (by omega)]
    simp only [bind, Except.bind]
    rw [ih (k + 1) _ (by omega)]
    rw [List.length_cons, List.range_succ_eq_map, List.map_cons, List.map_map]
    simp only [List.append_assoc, List.singleton_append, add_zero, List.getD_cons_zero]
    congr 3
    apply List.map_congr_left
    intro j _
    simp only [Function.comp_apply, List.getD_cons_succ, Nat.succ_eq_add_one]
    have hk : k + 1 + j = k + (j + 1) := by omega
    rw [hk]

/-- The error computation of `EvaluteToGT` when the sequences have the same length and a
similarity is found: every element access is in bounds, and the results are as follows. -/
theorem EvaluteToGT_of_found {α ρ : Type} [CommRing α] [Div α]
    (ACRansac_FindRTS : Estimator α ρ) (sqrt : α → α) (pi : α)
    (getRotationMagnitude : Mat3 α → α)
    (vec_camCenterGT vec_camCenterComputed : List (Vec3 α))
    (vec_camRotGT vec_camRotComputed : List (Mat3 α))
    (randomNumberGenerator : ρ) (R0 : Mat3 α) (t0 : Vec3 α) (scale0 : α)
    (h1 : vec_camCenterGT.length = vec_camCenterComputed.length)
    (h2 : vec_camCenterGT.length = vec_camRotGT.length)
    (h3 : vec_camCenterGT.length = vec_camRotComputed.length)
    (hsize : vec_camCenterGT.length < 2 ^ 64)
    (hfound : (ACRansac_FindRTS
      (computeSimilarity.columns vec_camCenterComputed vec_camCenterGT.length)
      (computeSimilarity.columns vec_camCenterGT vec_camCenterGT.length)
      randomNumberGenerator true).found = true) :
    ∃ r : EvaluteToGTResult α ρ,
      EvaluteToGT ACRansac_FindRTS sqrt pi getRotationMagnitude vec_camCenterGT
        vec_camCenterComputed vec_camRotGT vec_camRotComputed randomNumberGenerator R0 t0
        scale0 = Except.ok r ∧
      r.trajectoryLength =
        ∑ i in (Finset.range vec_camCenterGT.length).filter
            (fun i => 0 < i ∧ i + 2 < vec_camCenterGT.length),
          Vec3.norm sqrt (vec_camCenterGT.getD i 0 - vec_camCenterGT.getD (i + 1) 0) ∧
      r.vec_baselineErrors = (List.range vec_camCenterGT.length).map (fun i =>
        Vec3.norm sqrt (vec_camCenterGT.getD i 0 - r.vec_camPosComputed_T.getD i 0)) ∧
      r.vec_angularErrors = (List.range vec_camCenterGT.length).map (fun k =>
        radianToDegree pi (getRotationMagnitude
          (vec_camRotGT.getD k 0 * (vec_camRotComputed.getD k 0 * r.R.transpose).transpose))) ∧
      r.vec_camPosComputed_T.length = vec_camCenterGT.length ∧
      ∀ i, i < vec_camCenterGT.length →
        r.vec_camPosComputed_T.getD i 0 =
          Matrix.mulVec (r.scale • r.R) (vec_camCenterComputed.getD i 0) + r.t := by
  obtain ⟨_, hlenT, hT⟩ := computeSimilarity_of_found ACRansac_FindRTS vec_camCenterGT
    vec_camCenterComputed
    { vec_camPosComputed_T := [], Sout := scale0, Rout := R0, tout := t0,
      randomNumberGenerator := randomNumberGenerator, cerr := [], estimatorCalls := 0 }
    h1 hfound
  unfold EvaluteToGT
  dsimp only
  generalize (computeSimilarity ACRansac_FindRTS vec_camCenterGT vec_camCenterComputed
    { vec_camPosComputed_T := [], Sout := scale0, Rout := R0, tout := t0,
      randomNumberGenerator := randomNumberGenerator, cerr := [], estimatorCalls := 0 }).2
    = st at hlenT hT ⊢
  rw [baselineLoop_eq sqrt vec_camCenterGT st.vec_camPosComputed_T vec_camCenterGT.length rfl
    hlenT hsize vec_camCenterGT.length 0 0 [] (by omega)]
  simp only [bind, Except.bind]
  rw [angularLoop_eq pi getRotationMagnitude st.Rout vec_camRotGT vec_camRotComputed 0 []
    (by omega)]
  refine ⟨_, rfl, ?_, ?_, ?_, hlenT, hT⟩
  · simp only [zero_add, Finset.sum_filter]
  · simp only [zero_add, List.nil_append]
  · simp only [zero_add, List.nil_append, ← h3]

/-- The error computation of `EvaluteToGT` when no similarity is found: the first iteration
reads `vec_camPosComputed_T[0]` in an empty vector. -/
theorem EvaluteToGT_of_not_found {α ρ : Type} [CommRing α] [Div α]
    (ACRansac_FindRTS : Estimator α ρ) (sqrt : α → α) (pi : α)
    (getRotationMagnitude : Mat3 α → α)
    (vec_camCenterGT vec_camCenterComputed : List (Vec3 α))
    (vec_camRotGT vec_camRotComputed : List (Mat3 α))
    (randomNumberGenerator : ρ) (R0 : Mat3 α) (t0 : Vec3 α) (scale0 : α)
    (hpos : 0 < vec_camCenterGT.length)
    (hfound : (ACRansac_FindRTS
      (computeSimilarity.columns vec_camCenterComputed vec_camCenterGT.length)
      (computeSimilarity.columns vec_camCenterGT vec_camCenterGT.length)
      randomNumberGenerator true).found = false) :
    EvaluteToGT ACRansac_FindRTS sqrt pi getRotationMagnitude vec_camCenterGT
        vec_camCenterComputed vec_camRotGT vec_camRotComputed randomNumberGenerator R0 t0
        scale0 = Except.error (AccessError.outOfBounds "vec_camPosComputed_T" 0 0) := by
  obtain ⟨_, hT⟩ := computeSimilarity_of_not_found ACRansac_FindRTS vec_camCenterGT
    vec_camCenterComputed
    { vec_camPosComputed_T := [], Sout := scale0, Rout := R0, tout := t0,
      randomNumberGenerator := randomNumberGenerator, cerr := [], estimatorCalls := 0 }
    hfound
  unfold EvaluteToGT
  dsimp only
  rw [hT]
  obtain ⟨m, hm⟩ : ∃ m, vec_camCenterGT.length = m + 1 :=
    ⟨vec_camCenterGT.length - 1, by omega⟩
  rw [hm, EvaluteToGT.baselineLoop, if_pos (by omega),
    readAt_of_lt _ vec_camCenterGT 0 0 (by omega), readAt_of_ge _ [] 0 (by simp)]
  rfl


/-- C12. In `EvaluteToGT` with `n = numCameras` (the four sequences of length `n ≥ 1`, a
similarity found), the trajectory length is the sum of the distances
`|GT[i] - GT[i+1]|` over exactly the indices `i` with `0 < i` and `i + 2 < n`, that is
`0 < i < n - 2`: every consecutive segment except the first and the last.  It is 0 for every
`n ≤ 3`. -/
theorem EvaluteToGT_trajectory_length {α ρ : Type} [CommRing α] [Div α]
    (ACRansac_FindRTS : Estimator α ρ) (sqrt : α → α) (pi : α)
    (getRotationMagnitude : Mat3 α → α)
    (vec_camCenterGT vec_camCenterComputed : List (Vec3 α))
    (vec_camRotGT vec_camRotComputed : List (Mat3 α))
    (randomNumberGenerator : ρ) (R0 : Mat3 α) (t0 : Vec3 α) (scale0 : α)
    (hpos : 0 < vec_camCenterGT.length)
    (h1 : vec_camCenterGT.length = vec_camCenterComputed.length)
    (h2 : vec_camCenterGT.length = vec_camRotGT.length)
    (h3 : vec_camCenterGT.length = vec_camRotComputed.length)
    (hsize : vec_camCenterGT.length < 2 ^ 64)
    (hfound : (ACRansac_FindRTS
      (computeSimilarity.columns vec_camCenterComputed vec_camCenterGT.length)
      (computeSimilarity.columns vec_camCenterGT vec_camCenterGT.length)
      randomNumberGenerator true).found = true) :
    ∃ r : EvaluteToGTResult α ρ,
      EvaluteToGT ACRansac_FindRTS sqrt pi getRotationMagnitude vec_camCenterGT
        vec_camCenterComputed vec_camRotGT vec_camRotComputed randomNumberGenerator R0 t0
        scale0 = Except.ok r ∧
      r.trajectoryLength =
        ∑ i in (Finset.range vec_camCenterGT.length).filter
            (fun i => 0 < i ∧ i + 2 < vec_camCenterGT.length),
          Vec3.norm sqrt (vec_camCenterGT.getD i 0 - vec_camCenterGT.getD (i + 1) 0) ∧
      (vec_camCenterGT.length ≤ 3 → r.trajectoryLength = 0) := by
  have _ := hpos
  obtain ⟨r, hr, htl, _⟩ := EvaluteToGT_of_found ACRansac_FindRTS sqrt pi getRotationMagnitude
    vec_camCenterGT vec_camCenterComputed vec_camRotGT vec_camRotComputed
    randomNumberGenerator R0 t0 scale0 h1 h2 h3 hsize hfound
  refine ⟨r, hr, htl, ?_⟩
  intro hle
  rw [htl]
  apply Finset.sum_eq_zero
  intro i hi
  rw [Finset.mem_filter, Finset.mem_range] at hi
  omega

theorem EvaluteToGT_trajectory_length_witness :
    (0 < sampleCentres.length ∧ sampleCentres.length = sampleCentres.length ∧
      sampleCentres.length = sampleRotations.length ∧ sampleCentres.length < 2 ^ 64 ∧
      (sampleEstimator (computeSimilarity.columns sampleCentres sampleCentres.length)
        (computeSimilarity.columns sampleCentres sampleCentres.length) 7 true).found = true ∧
      ∃ r : EvaluteToGTResult Int Nat,
        EvaluteToGT sampleEstimator Int.sqrt 3 (fun _ => 0) sampleCentres sampleCentres
          sampleRotations sampleRotations 7 0 0 0 = Except.ok r ∧
        r.trajectoryLength =
          ∑ i in (Finset.range sampleCentres.length).filter
              (fun i => 0 < i ∧ i + 2 < sampleCentres.length),
            Vec3.norm Int.sqrt (sampleCentres.getD i 0 - sampleCentres.getD (i + 1) 0) ∧
        (sampleCentres.length ≤ 3 → r.trajectoryLength = 0)) ∧
    ((sampleCentres.take 3).length ≤ 3 ∧
      ∃ r : EvaluteToGTResult Int Nat,
        EvaluteToGT sampleEstimator Int.sqrt 3 (fun _ => 0) (sampleCentres.take 3)
          (sampleCentres.take 3) (sampleRotations.take 3) (sampleRotations.take 3) 7 0 0 0
          = Except.ok r ∧ r.trajectoryLength = 0) :=
  ⟨⟨by decide, rfl, by decide, by decide, rfl,
      EvaluteToGT_trajectory_length sampleEstimator Int.sqrt 3 (fun _ => 0) sampleCentres
        sampleCentres sampleRotations sampleRotations 7 0 0 0 (by decide) rfl (by decide)
        (by decide) (by decide) rfl⟩,
    ⟨by decide,
      (EvaluteToGT_trajectory_length sampleEstimator Int.sqrt 3 (fun _ => 0)
        (sampleCentres.take 3) (sampleCentres.take 3) (sampleRotations.take 3)
        (sampleRotations.take 3) 7 0 0 0 (by decide) rfl (by decide) (by decide) (by decide)
        rfl).imp (fun _ h => ⟨h.1, h.2.2 (by decide)⟩)⟩⟩

/-- C16 (the code departs from it). With one camera and an estimator that finds no
similarity, `computeSimilarity` returns `false` and leaves `vec_camPosComputed_T` empty;
`EvaluteToGT` discards that result and its first loop reads `vec_camPosComputed_T[0]`, an
access at index 0 in a vector of size 0. -/
theorem EvaluteToGT_reads_empty_trajectory :
    ([![0, 0, 0]] : List (Vec3 Int)).length = ([![1, 1, 1]] : List (Vec3 Int)).length ∧
    (computeSimilarity failingEstimator [![0, 0, 0]] [![1, 1, 1]]
      { vec_camPosComputed_T := [], Sout := 0, Rout := 0, tout := 0,
        randomNumberGenerator := 7, cerr := [], estimatorCalls := 0 }).1 = false ∧
    (computeSimilarity failingEstimator [![0, 0, 0]] [![1, 1, 1]]
      { vec_camPosComputed_T := [], Sout := 0, Rout := 0, tout := 0,
        randomNumberGenerator := 7, cerr := [], estimatorCalls := 0 }).2.vec_camPosComputed_T
        = [] ∧
    EvaluteToGT failingEstimator Int.sqrt 3 (fun _ => 0) [![0, 0, 0]] [![1, 1, 1]] [1] [1]
      7 0 0 0 = Except.error (AccessError.outOfBounds "vec_camPosComputed_T" 0 0) :=
  ⟨rfl, rfl, rfl, rfl⟩

end AliceVision
